import Mathlib

set_option maxHeartbeats 2000000
set_option maxRecDepth 100000

/-!
Verification of the `sudoku-solver` crate against its specification.

This file shallowly embeds the solver core: the coordinate types (`Coord`,
rows, columns, sectors and the sector-row / sector-column intersections),
the `AvailSet` bitset of digits (modelled as a `Finset (Fin 9)`), the
`AvailCounter` per-digit counters (modelled as `Fin 9 → Nat`; the source
counters are `u8` values that never exceed 9, are decremented only when
nonzero and are never incremented during solving, so `Nat` with truncated
subtraction is an exact model), the `RemainingTracker`, the deductive
reducer with its deduplicating min-priority queue (modelled as a
`Finset ReduceStep` popped at its minimum, which is exactly a binary heap
of `Reverse` steps plus a dedup hash set), and the branching driver
`Board.solve`.

The reducer and the driver are written with an explicit fuel parameter so
that they are structurally recursive and kernel-computable; the fuel
constants are large enough that they are never exhausted (this is proved,
via the decreasing measure `candsT t * 271 + q.card` for the reducer and
the stack measure for the driver).  Panics in the source (the `None`
branch of `eliminate_from_rcs` and the `unwrap` in `coord_singularized`)
are modelled by the `panicked` result; aborts of the current branch
(`Err(())`) by `failed`.  The `DeductiveTracer` of the source is a pure
observer (the driver uses `NopDeductiveTracer`) and has no effect on the
solver state, so it is omitted.
-/

/-- A digit 1..9, represented by its zero-based index (the source `Val`
stores the digit itself in a `NonZeroU8`; `idx = digit - 1`). -/
abbrev Val := Fin 9

/-- A cell position: `(row, col)`. -/
abbrev Coord := Fin 9 × Fin 9

def Coord.row (c : Coord) : Fin 9 := c.1

def Coord.col (c : Coord) : Fin 9 := c.2

/-- Flat index of the sector (3×3 box) containing a cell, matching
`Sector::idx = base_row + base_col / 3` with `base_row ∈ {0,3,6}`. -/
def Coord.sector (c : Coord) : Fin 9 :=
  ⟨3 * (c.1.val / 3) + c.2.val / 3, by have h1 := c.1.isLt; have h2 := c.2.isLt; omega⟩

/-- Flat index of the sector-row containing a cell:
`SectorRow::idx = row * 3 + base_col / 3`. -/
def Coord.sectorRow (c : Coord) : Fin 27 :=
  ⟨3 * c.1.val + c.2.val / 3, by have h1 := c.1.isLt; have h2 := c.2.isLt; omega⟩

/-- Flat index of the sector-column containing a cell:
`SectorCol::idx = sector.idx * 3 + rel_col`. -/
def Coord.sectorCol (c : Coord) : Fin 27 :=
  ⟨3 * (3 * (c.1.val / 3) + c.2.val / 3) + c.2.val % 3, by
    have h1 := c.1.isLt; have h2 := c.2.isLt; omega⟩

/-- The cells of a row, in the order of `Row::get_at_index`. -/
def rowCells (r : Fin 9) : List Coord := (List.finRange 9).map fun k => (r, k)

/-- The cells of a column, in the order of `Col::get_at_index`. -/
def colCells (k : Fin 9) : List Coord := (List.finRange 9).map fun r => (r, k)

/-- The cells of a sector, row-major, in the order of `Sector::get_at_index`. -/
def sectorCells (s : Fin 9) : List Coord :=
  (List.finRange 9).map fun i =>
    (⟨3 * (s.val / 3) + i.val / 3, by have := s.isLt; have := i.isLt; omega⟩,
     ⟨3 * (s.val % 3) + i.val % 3, by have := s.isLt; have := i.isLt; omega⟩)

/-- The three cells of a sector-row (`SectorRow::get_at_index`). -/
def secRowCells (L : Fin 27) : List Coord :=
  (List.finRange 3).map fun i =>
    (⟨L.val / 3, by have := L.isLt; omega⟩,
     ⟨3 * (L.val % 3) + i.val, by have := L.isLt; have := i.isLt; omega⟩)

/-- The three cells of a sector-column (`SectorCol::get_at_index`). -/
def secColCells (L : Fin 27) : List Coord :=
  (List.finRange 3).map fun i =>
    (⟨3 * ((L.val / 3) / 3) + i.val, by have := L.isLt; have := i.isLt; omega⟩,
     ⟨3 * ((L.val / 3) % 3) + L.val % 3, by have := L.isLt; omega⟩)

/-- All 81 cells in flat-index (row-major) order, as iterated by
`Coord::values()` / `IndexMap` iteration. -/
def Coord.allList : List Coord :=
  (List.finRange 9).flatMap fun r => (List.finRange 9).map fun k => (r, k)

/-- The 20 neighbours of a cell (`Coord::neighbors`): the cells of its row,
then of its column, then those of its sector lying in neither, minus the
cell itself. -/
def Coord.neighbors (c : Coord) : List Coord :=
  ((rowCells c.row ++ colCells c.col ++
      (sectorCells c.sector).filter fun o => decide (o.row ≠ c.row ∧ o.col ≠ c.col)).filter
    fun o => decide (o ≠ c))

/-- `AvailSet`: the set of still-available digits of one cell (a nine-bit
mask in the source). -/
abbrev AvailSet := Finset Val

/-- `AvailSet::only`. -/
def AvailSet.only (v : Val) : AvailSet := {v}

/-- `AvailSet::get_single`: the least member if the set is a singleton. -/
def AvailSet.getSingle (s : AvailSet) : Option Val :=
  if h : s.card = 1 then some (s.min' (Finset.card_pos.mp (by omega))) else none

/-- `AvailCounter`: per-digit multiplicities for one zone. -/
abbrev AvailCounter := Val → Nat

/-- `AvailCounter::remove_except`: decrement every other digit by one,
saturating at zero. -/
def AvailCounter.removeExcept (a : AvailCounter) (v : Val) : AvailCounter :=
  fun w => if w = v then a w else a w - 1

/-- `AvailCounter::avail`: the set of digits with a positive count. -/
def AvailCounter.avail (a : AvailCounter) : AvailSet :=
  Finset.univ.filter fun v => 0 < a v

/-- `AvailCounter -= AvailSet`: one guarded `remove` per digit of the set
(each decrements only if the count is nonzero). -/
def AvailCounter.subSet (a : AvailCounter) (s : AvailSet) : AvailCounter :=
  (Finset.sort (· ≤ ·) s).foldl
    (fun a v => if a v = 0 then a else Function.update a v (a v - 1)) a

/-- A Sudoku board: each cell blank or pinned to a digit. -/
abbrev Board := Coord → Option Val

/-- The remaining-possibilities tracker: the per-cell digit sets and the
five families of zone counters (`RemainingTracker`). -/
structure RemainingTracker where
  board : Coord → AvailSet
  rows : Fin 9 → AvailCounter
  cols : Fin 9 → AvailCounter
  sectors : Fin 9 → AvailCounter
  sectorRows : Fin 27 → AvailCounter
  sectorCols : Fin 27 → AvailCounter
deriving DecidableEq

/-- `RemainingTracker::new`: every cell starts with all digits and every
zone counter at the zone size; then every pinned cell pins its digit set
and applies `remove_except` to its five zone counters. -/
def RemainingTracker.new (b : Board) : RemainingTracker :=
  Coord.allList.foldl
    (fun t c =>
      match b c with
      | none => t
      | some v =>
        { board := Function.update t.board c (AvailSet.only v)
          rows := Function.update t.rows c.row ((t.rows c.row).removeExcept v)
          cols := Function.update t.cols c.col ((t.cols c.col).removeExcept v)
          sectors := Function.update t.sectors c.sector ((t.sectors c.sector).removeExcept v)
          sectorRows :=
            Function.update t.sectorRows c.sectorRow ((t.sectorRows c.sectorRow).removeExcept v)
          sectorCols :=
            Function.update t.sectorCols c.sectorCol ((t.sectorCols c.sectorCol).removeExcept v) })
    { board := fun _ => Finset.univ
      rows := fun _ _ => 9
      cols := fun _ _ => 9
      sectors := fun _ _ => 9
      sectorRows := fun _ _ => 3
      sectorCols := fun _ _ => 3 }

/-- `RemainingTracker::known_unsolveable`: some cell is empty, or some
row/col/sector has fewer than nine available digits. -/
def RemainingTracker.knownUnsolveable (t : RemainingTracker) : Bool :=
  Coord.allList.any (fun c => decide ((t.board c).card = 0)) ||
    (List.finRange 9).any (fun r => decide ((t.rows r).avail.card < 9)) ||
    (List.finRange 9).any (fun k => decide ((t.cols k).avail.card < 9)) ||
    (List.finRange 9).any (fun z => decide ((t.sectors z).avail.card < 9))

/-- `is_solved_zone`: every digit count is exactly one. -/
def isSolvedZone (a : AvailCounter) : Bool :=
  (List.finRange 9).all fun v => decide (a v = 1)

/-- `RemainingTracker::is_solved`: every row, column and sector counter has
exactly one of each digit. -/
def RemainingTracker.isSolved (t : RemainingTracker) : Bool :=
  ((List.finRange 9).all fun r => isSolvedZone (t.rows r)) &&
    ((List.finRange 9).all fun k => isSolvedZone (t.cols k)) &&
    ((List.finRange 9).all fun z => isSolvedZone (t.sectors z))

/-- `RemainingTracker::into_board` via `Remaining::board`: each cell gets
its single member, blank if not singular. -/
def RemainingTracker.intoBoard (t : RemainingTracker) : Board :=
  fun c => (t.board c).getSingle

/-- Dispatch type for the `RowColSec` generic of the reducer: a row, column
or sector zone. -/
inductive Rcs
  | row (r : Fin 9)
  | col (k : Fin 9)
  | sector (z : Fin 9)
deriving DecidableEq, Fintype

/-- Dispatch type for the `SecRowSecCol` generic: a sector-row or
sector-column. -/
inductive Srsc
  | secRow (L : Fin 27)
  | secCol (L : Fin 27)
deriving DecidableEq, Fintype

def Rcs.cells : Rcs → List Coord
  | .row r => rowCells r
  | .col k => colCells k
  | .sector z => sectorCells z

def Srsc.cells : Srsc → List Coord
  | .secRow L => secRowCells L
  | .secCol L => secColCells L

/-- The row/col a sector-row/sector-col is part of (`SecRowSecCol::line`). -/
def Srsc.line : Srsc → Rcs
  | .secRow L => .row ⟨L.val / 3, by have := L.isLt; omega⟩
  | .secCol L => .col ⟨3 * ((L.val / 3) % 3) + L.val % 3, by have := L.isLt; omega⟩

/-- The sector a sector-row/sector-col is part of (`SecRowSecCol::sector`). -/
def Srsc.sectorIdx : Srsc → Fin 9
  | .secRow L => ⟨3 * ((L.val / 3) / 3) + L.val % 3, by have := L.isLt; omega⟩
  | .secCol L => ⟨L.val / 3, by have := L.isLt; omega⟩

/-- The two box-lines sharing this box-line's row/col
(`SectorRow::row_neighbors` / `SectorCol::col_neighbors`), in source
iteration order. -/
def Srsc.lineNeighbors : Srsc → List Srsc
  | .secRow L =>
    ((List.finRange 3).filter fun j => decide (j.val ≠ L.val % 3)).map fun j =>
      .secRow ⟨3 * (L.val / 3) + j.val, by have := L.isLt; have := j.isLt; omega⟩
  | .secCol L =>
    ((List.finRange 3).filter fun i => decide (i.val ≠ (L.val / 3) / 3)).map fun i =>
      .secCol ⟨3 * (3 * i.val + (L.val / 3) % 3) + L.val % 3, by
        have := L.isLt; have := i.isLt; omega⟩

/-- The two box-lines sharing this box-line's sector
(`SectorRow::sector_neighbors` / `SectorCol::sector_neighbors`). -/
def Srsc.secNeighbors : Srsc → List Srsc
  | .secRow L =>
    ((List.finRange 3).filter fun i => decide (3 * ((L.val / 3) / 3) + i.val ≠ L.val / 3)).map
      fun i =>
        .secRow ⟨3 * (3 * ((L.val / 3) / 3) + i.val) + L.val % 3, by
          have := L.isLt; have := i.isLt; omega⟩
  | .secCol L =>
    ((List.finRange 3).filter fun j => decide (j.val ≠ L.val % 3)).map fun j =>
      .secCol ⟨3 * (L.val / 3) + j.val, by have := L.isLt; have := j.isLt; omega⟩

/-- The reduce-step events of the worklist (`ReduceStep`), in the source's
variant order (which is its priority order). -/
inductive ReduceStep
  | coordSingularized (c : Coord)
  | rowValsSingularized (r : Fin 9)
  | colValsSingularized (k : Fin 9)
  | secValsSingularized (z : Fin 9)
  | secRowTripleized (L : Fin 27)
  | secColTripleized (L : Fin 27)
  | rowOnlySec (L : Fin 27)
  | secOnlyRow (L : Fin 27)
  | colOnlySec (L : Fin 27)
  | secOnlyCol (L : Fin 27)
deriving DecidableEq, Fintype

/-- Total order key for steps: variant ordinal first, then the target's
flat index — the derived `Ord` of the source enum. -/
def ReduceStep.key : ReduceStep → Nat
  | .coordSingularized c => c.1.val * 9 + c.2.val
  | .rowValsSingularized r => 100 + r.val
  | .colValsSingularized k => 200 + k.val
  | .secValsSingularized z => 300 + z.val
  | .secRowTripleized L => 400 + L.val
  | .secColTripleized L => 500 + L.val
  | .rowOnlySec L => 600 + L.val
  | .secOnlyRow L => 700 + L.val
  | .colOnlySec L => 800 + L.val
  | .secOnlyCol L => 900 + L.val

instance : LinearOrder ReduceStep :=
  LinearOrder.lift' ReduceStep.key (by
    intro a b h
    cases a <;> cases b <;> simp only [ReduceStep.key] at h <;>
      first
        | rfl
        | (exfalso; omega)
        | (congr 1; exact Fin.ext (by omega))
        | (congr 1; exact Prod.ext (Fin.ext (by omega)) (Fin.ext (by omega))))

/-- `ReduceQueue`: a min-heap with a dedup set, i.e. exactly a finite set
of steps popped at its minimum. -/
abbrev Queue := Finset ReduceStep

/-- `ReduceQueue::push`: insert if not already present. -/
def Queue.push (s : ReduceStep) (q : Queue) : Queue := insert s q

/-- The reducer state threaded through every step: tracker plus queue. -/
abbrev St := RemainingTracker × Queue

/-- Result of a reducer operation: a panic, an unsolveable abort
(`Err(())`), or a value. -/
inductive RRes (α : Type)
  | panicked
  | failed
  | ok (a : α)
deriving DecidableEq

def RRes.bind {α β : Type} : RRes α → (α → RRes β) → RRes β
  | .panicked, _ => .panicked
  | .failed, _ => .failed
  | .ok a, f => f a

def Rcs.visit : Rcs → ReduceStep
  | .row r => .rowValsSingularized r
  | .col k => .colValsSingularized k
  | .sector z => .secValsSingularized z

def Srsc.visitSizeMatch : Srsc → ReduceStep
  | .secRow L => .secRowTripleized L
  | .secCol L => .secColTripleized L

def Srsc.visitOnlyInLine : Srsc → ReduceStep
  | .secRow L => .rowOnlySec L
  | .secCol L => .colOnlySec L

def Srsc.visitOnlyInSec : Srsc → ReduceStep
  | .secRow L => .secOnlyRow L
  | .secCol L => .secOnlyCol L

def RemainingTracker.getRcs (t : RemainingTracker) : Rcs → AvailCounter
  | .row r => t.rows r
  | .col k => t.cols k
  | .sector z => t.sectors z

def RemainingTracker.setRcs (t : RemainingTracker) : Rcs → AvailCounter → RemainingTracker
  | .row r, a => { t with rows := Function.update t.rows r a }
  | .col k, a => { t with cols := Function.update t.cols k a }
  | .sector z, a => { t with sectors := Function.update t.sectors z a }

def RemainingTracker.getSrsc (t : RemainingTracker) : Srsc → AvailCounter
  | .secRow L => t.sectorRows L
  | .secCol L => t.sectorCols L

def RemainingTracker.setSrsc (t : RemainingTracker) : Srsc → AvailCounter → RemainingTracker
  | .secRow L, a => { t with sectorRows := Function.update t.sectorRows L a }
  | .secCol L, a => { t with sectorCols := Function.update t.sectorCols L a }

/-- `DeductiveReducer::eliminate_from_cell`: remove the digit from the
cell's set; abort if the cell empties, enqueue `CoordSingularized` if it
becomes singular; report whether the cell changed. -/
def eliminateFromCell (c : Coord) (v : Val) : St → RRes (Bool × St)
  | (t, q) =>
    let cell := t.board c
    if v ∈ cell then
      let cell2 := cell.erase v
      let t2 : RemainingTracker := { t with board := Function.update t.board c cell2 }
      if cell2 = ∅ then .failed
      else if cell2.card = 1 then .ok (true, t2, Queue.push (.coordSingularized c) q)
      else .ok (true, t2, q)
    else .ok (false, t, q)

/-- `DeductiveReducer::eliminate_from_rcs`: decrement the zone's count of
the digit.  A count already at zero is the source's
`panic!("Value was previously eliminated but reduction did not stop")`;
reaching zero aborts; reaching one enqueues the zone's singularized step. -/
def eliminateFromRcs (z : Rcs) (v : Val) : St → RRes St
  | (t, q) =>
    let a := t.getRcs z
    if a v = 0 then .panicked
    else
      let t2 := t.setRcs z (Function.update a v (a v - 1))
      if a v - 1 = 0 then .failed
      else if a v - 1 = 1 then .ok (t2, Queue.push z.visit q)
      else .ok (t2, q)

/-- `DeductiveReducer::eliminate_from_secrow_seccol`: guarded decrement of
the box-line's count; when the count reaches zero, check the remaining
size (abort below three, enqueue the size-match step at exactly three) and
enqueue the only-in-line / only-in-sec steps for the first matching line
and sector neighbour (the source loops `break` after the first match). -/
def eliminateFromSrsc (z : Srsc) (v : Val) : St → RRes St
  | (t, q) =>
    let a := t.getSrsc z
    if a v = 0 then .ok (t, q)
    else
      let a2 : AvailCounter := Function.update a v (a v - 1)
      let t2 := t.setSrsc z a2
      if a v - 1 = 0 then
        let n := (AvailCounter.avail a2).card
        if n < 3 then .failed
        else
          let q1 := if n = 3 then Queue.push z.visitSizeMatch q else q
          let q2 :=
            match z.lineNeighbors.find? fun w => decide (t2.getSrsc w v = t2.getRcs w.line v) with
            | some w => Queue.push w.visitOnlyInLine q1
            | none => q1
          let q3 :=
            match z.secNeighbors.find? fun w => decide (t2.getSrsc w v = t2.sectors w.sectorIdx v)
              with
            | some w => Queue.push w.visitOnlyInSec q2
            | none => q2
          .ok (t2, q3)
      else .ok (t2, q)

/-- `DeductiveReducer::eliminate`: remove the digit from the cell and, if
it was present, propagate to the five zone counters containing the cell. -/
def eliminate (c : Coord) (v : Val) (s : St) : RRes (Bool × St) :=
  (eliminateFromCell c v s).bind fun r =>
    match r with
    | (false, s1) => .ok (false, s1)
    | (true, s1) =>
      (eliminateFromRcs (.row c.row) v s1).bind fun s2 =>
        (eliminateFromRcs (.col c.col) v s2).bind fun s3 =>
          (eliminateFromRcs (.sector c.sector) v s3).bind fun s4 =>
            (eliminateFromSrsc (.secRow c.sectorRow) v s4).bind fun s5 =>
              (eliminateFromSrsc (.secCol c.sectorCol) v s5).bind fun s6 =>
                .ok (true, s6)

/-- Sequence of eliminations (`eliminate_all` unrolled to its coord/value
pairs; the returned eliminated-set of the source is consumed only by the
tracer, so it is dropped). -/
def elimList : List (Coord × Val) → St → RRes St
  | [], s => .ok s
  | (c, v) :: rest, s => (eliminate c v s).bind fun r => elimList rest r.2

/-- The coord/value pairs visited by `eliminate_all(zone, vals)`: coords
outer, digits inner, both in iteration order. -/
def eliminateAllPairs (cs : List Coord) (vs : List Val) : List (Coord × Val) :=
  cs.flatMap fun c => vs.map fun v => (c, v)

/-- `DeductiveReducer::coord_singularized`: take the cell's unique value
(the source `unwrap`s — not singular is a panic) and eliminate it from
every neighbour. -/
def coordSingularized (c : Coord) (s : St) : RRes St :=
  match (s.1.board c).getSingle with
  | none => .panicked
  | some v => elimList (c.neighbors.map fun n => (n, v)) s

/-- The body of `rcs_vals_singularized`'s cell loop: for each cell of the
zone, intersect with the digits of count one; an intersection of two or
more aborts; one forces the cell, eliminating its other digits. -/
def rcsCellsLoop (singles : AvailSet) : List Coord → St → RRes St
  | [], s => .ok s
  | c :: rest, s =>
    let rem := s.1.board c
    let hits := rem ∩ singles
    if hits = ∅ then rcsCellsLoop singles rest s
    else if hits.card ≠ 1 then .failed
    else
      (elimList ((Finset.sort (· ≤ ·) (rem \ singles)).map fun v => (c, v)) s).bind fun s1 =>
        rcsCellsLoop singles rest s1

/-- `DeductiveReducer::rcs_vals_singularized`. -/
def rcsValsSingularized (z : Rcs) (s : St) : RRes St :=
  let singles : AvailSet := Finset.univ.filter fun v => s.1.getRcs z v = 1
  rcsCellsLoop singles z.cells s

/-- `DeductiveReducer::secrow_seccol_tripleized`: eliminate the box-line's
remaining digits from the cells of its line and sector neighbours. -/
def srscTripleized (z : Srsc) (s : St) : RRes St :=
  let values := (s.1.getSrsc z).avail
  elimList
    (eliminateAllPairs ((z.lineNeighbors ++ z.secNeighbors).flatMap Srsc.cells)
      (Finset.sort (· ≤ ·) values)) s

/-- `DeductiveReducer::secrow_seccol_only_in_line`: digits whose box-line
count equals the row/col count are eliminated from the sector
neighbours' cells. -/
def srscOnlyInLine (z : Srsc) (s : St) : RRes St :=
  let uniques : AvailSet := Finset.univ.filter fun v => s.1.getSrsc z v = s.1.getRcs z.line v
  elimList
    (eliminateAllPairs (z.secNeighbors.flatMap Srsc.cells) (Finset.sort (· ≤ ·) uniques)) s

/-- `DeductiveReducer::secrow_seccol_only_in_sec`: digits whose box-line
count equals the sector count are eliminated from the line neighbours'
cells. -/
def srscOnlyInSec (z : Srsc) (s : St) : RRes St :=
  let uniques : AvailSet := Finset.univ.filter fun v => s.1.getSrsc z v = s.1.sectors z.sectorIdx v
  elimList
    (eliminateAllPairs (z.lineNeighbors.flatMap Srsc.cells) (Finset.sort (· ≤ ·) uniques)) s

/-- One iteration of the reducer's match on the popped `ReduceStep`. -/
def processStep (s : St) : ReduceStep → RRes St
  | .coordSingularized c => coordSingularized c s
  | .rowValsSingularized r => rcsValsSingularized (.row r) s
  | .colValsSingularized k => rcsValsSingularized (.col k) s
  | .secValsSingularized z => rcsValsSingularized (.sector z) s
  | .secRowTripleized L => srscTripleized (.secRow L) s
  | .secColTripleized L => srscTripleized (.secCol L) s
  | .rowOnlySec L => srscOnlyInLine (.secRow L) s
  | .secOnlyRow L => srscOnlyInSec (.secRow L) s
  | .colOnlySec L => srscOnlyInLine (.secCol L) s
  | .secOnlyCol L => srscOnlyInSec (.secCol L) s

/-- The three row/col/sector zone lists scanned by `build_queue`. -/
def rcsAll : List Rcs :=
  ((List.finRange 9).map Rcs.row) ++ ((List.finRange 9).map Rcs.col) ++
    ((List.finRange 9).map Rcs.sector)

/-- The sector-row and sector-col zones scanned by `build_queue`. -/
def srscAll : List Srsc :=
  ((List.finRange 27).map Srsc.secRow) ++ ((List.finRange 27).map Srsc.secCol)

/-- `build_queue`: initial seeding of the worklist from the tracker. -/
def buildQueue (t : RemainingTracker) : Queue :=
  let q0 : Queue :=
    Coord.allList.foldl
      (fun q c => if (t.board c).card = 1 then Queue.push (.coordSingularized c) q else q) ∅
  let q1 :=
    rcsAll.foldl
      (fun q z =>
        if (List.finRange 9).any (fun v => decide (t.getRcs z v = 1)) then Queue.push z.visit q
        else q)
      q0
  srscAll.foldl
    (fun q z =>
      let a := t.getSrsc z
      let qa := if (AvailCounter.avail a).card = 3 then Queue.push z.visitSizeMatch q else q
      let qb :=
        if (List.finRange 9).any (fun v => decide (a v = t.getRcs z.line v)) then
          Queue.push z.visitOnlyInLine qa
        else qa
      if (List.finRange 9).any (fun v => decide (a v = t.sectors z.sectorIdx v)) then
        Queue.push z.visitOnlyInSec qb
      else qb)
    q1

/-- Result of a full reducer run: panic, abort, out of fuel (never happens
with `RFUEL`, as proved below), or the saturated tracker. -/
inductive ROut
  | panicked
  | failed
  | fuelOut
  | ok (t : RemainingTracker)
deriving DecidableEq

/-- The reducer's main loop (`DeductiveReducer::reduce`): pop the least
pending step and process it, until the queue is empty (saturation) or a
step aborts.  Structural recursion on an explicit fuel. -/
def reduceF : Nat → St → ROut
  | 0, _ => .fuelOut
  | fuel + 1, (t, q) =>
    if h : q.Nonempty then
      let step := q.min' h
      match processStep (t, q.erase step) step with
      | .panicked => .panicked
      | .failed => .failed
      | .ok s2 => reduceF fuel s2
    else .ok t

/-- Total number of cell candidates; the head of the reducer's decreasing
measure. -/
def candsT (t : RemainingTracker) : Nat :=
  (Coord.allList.map fun c => (t.board c).card).sum

/-- The reducer's decreasing measure: every loop iteration either removes
a candidate or shrinks the queue. -/
def measureR (s : St) : Nat := candsT s.1 * 271 + s.2.card

/-- Fuel that dominates `measureR` (at most `729 * 271 + 270`). -/
def RFUEL : Nat := 200000

/-- `solve::deductive::reduce`: build the initial queue and run the loop. -/
def reduceRun (t : RemainingTracker) : ROut := reduceF RFUEL (t, buildQueue t)

/-- `RemainingTracker::specify_one`: find the first cell (flat-index
order) with more than one candidate — `None` models the source's
`unwrap` panic when there is none — and for each of its candidates in
ascending order build the clone that pins it, subtracting the dropped
candidates from the five zone counters; clones that are known
unsolveable are dropped. -/
def branchClone (t : RemainingTracker) (c : Coord) (avail : AvailSet) (v : Val) :
    RemainingTracker :=
  let removed := avail.erase v
  { board := Function.update t.board c (AvailSet.only v)
    rows := Function.update t.rows c.row ((t.rows c.row).subSet removed)
    cols := Function.update t.cols c.col ((t.cols c.col).subSet removed)
    sectors := Function.update t.sectors c.sector ((t.sectors c.sector).subSet removed)
    sectorRows :=
      Function.update t.sectorRows c.sectorRow ((t.sectorRows c.sectorRow).subSet removed)
    sectorCols :=
      Function.update t.sectorCols c.sectorCol ((t.sectorCols c.sectorCol).subSet removed) }

def RemainingTracker.specifyOne (t : RemainingTracker) : Option (List RemainingTracker) :=
  match Coord.allList.find? fun c => decide (1 < (t.board c).card) with
  | none => none
  | some c =>
    let avail := t.board c
    some
      ((Finset.sort (· ≤ ·) avail).filterMap fun v =>
        let u := branchClone t c avail v
        if u.knownUnsolveable then none else some u)

/-- The driver loop of `Board::solve`, on an explicit stack of
`(depth, tracker)` pairs with the head as stack top.  `some none` is
"ran out of boards"; the outer `none` is fuel exhaustion (never happens
with `SFUEL`, as proved below).  The source would panic where
`specifyOne` returns `none`; that state is unreachable (claim C9) and is
modelled as discarding the branch. -/
def solveF : Nat → List (Nat × RemainingTracker) → Option (Option Board)
  | _, [] => some none
  | 0, _ :: _ => none
  | fuel + 1, (dep, t) :: rest =>
    match reduceRun t with
    | .ok t2 =>
      if t2.isSolved then some (some t2.intoBoard)
      else
        match t2.specifyOne with
        | none => solveF fuel rest
        | some children => solveF fuel ((children.reverse.map fun u => (dep + 1, u)) ++ rest)
    | _ => solveF fuel rest

/-- Fuel dominating the driver's stack measure `Σ 10 ^ candsT`. -/
def SFUEL : Nat := 10 ^ 730

/-- `Board::solve`. -/
def Board.solve (b : Board) : Option Board :=
  match solveF SFUEL [(0, RemainingTracker.new b)] with
  | some r => r
  | none => none

/-- `Board::is_solved`. -/
def Board.isSolved (b : Board) : Bool := (RemainingTracker.new b).isSolved

/-- `Board::known_unsolveable`. -/
def Board.knownUnsolveable (b : Board) : Bool := (RemainingTracker.new b).knownUnsolveable

/-! ### Specification-language properties -/

/-- Number of cells of a zone whose digit set contains `v`. -/
def cellCount (l : List Coord) (v : Val) (g : Coord → AvailSet) : Nat :=
  l.countP fun c => decide (v ∈ g c)

/-- The tracker consistency law: every stored zone count equals the number
of the zone's cells whose digit set contains the digit, for all five zone
kinds. -/
def Consistent (t : RemainingTracker) : Prop :=
  (∀ (z : Rcs) (v : Val), t.getRcs z v = cellCount z.cells v t.board) ∧
    (∀ (z : Srsc) (v : Val), t.getSrsc z v = cellCount z.cells v t.board)

/-- No cell of the tracker is empty. -/
def NoEmpty (t : RemainingTracker) : Prop := ∀ c, t.board c ≠ ∅

/-- Queue invariant: a pending `coordSingularized` step always targets a
cell that is (still) a singleton. -/
def KInv (t : RemainingTracker) (q : Queue) : Prop :=
  ∀ c, ReduceStep.coordSingularized c ∈ q → (t.board c).card = 1

/-- Queue invariant: a pending tripleized step always targets a box-line
with at most three available digits. -/
def JInv (t : RemainingTracker) (q : Queue) : Prop :=
  (∀ L, ReduceStep.secRowTripleized L ∈ q →
    ((t.getSrsc (.secRow L)).avail).card ≤ 3) ∧
    (∀ L, ReduceStep.secColTripleized L ∈ q →
      ((t.getSrsc (.secCol L)).avail).card ≤ 3)

/-- Queue invariant, up to an exempted cell: every singleton cell whose
value still appears in some neighbour has a pending `coordSingularized`
step. -/
def SInvE (e : Option Coord) (t : RemainingTracker) (q : Queue) : Prop :=
  ∀ c v n, some c ≠ e → (t.board c).card = 1 → v ∈ t.board c → n ∈ c.neighbors →
    v ∈ t.board n → ReduceStep.coordSingularized c ∈ q

/-- The full singleton queue invariant. -/
def SInv (t : RemainingTracker) (q : Queue) : Prop := SInvE none t q

/-- All queue invariants bundled. -/
def QInv (t : RemainingTracker) (q : Queue) : Prop := KInv t q ∧ JInv t q ∧ SInv t q

/-- Saturation: no singleton cell's value appears in any of its
neighbours (this is `SInv` at the empty queue). -/
def SaturatedT (t : RemainingTracker) : Prop :=
  ∀ c v n, (t.board c).card = 1 → v ∈ t.board c → n ∈ c.neighbors → v ∉ t.board n

/-- Pointwise inclusion of cell digit sets (the reducer only shrinks). -/
def shrinkT (t t2 : RemainingTracker) : Prop := ∀ c, t2.board c ⊆ t.board c

/-- A full assignment of digits to cells. -/
abbrev SolF := Coord → Val

/-- A valid full solution: each digit appears exactly once in every row,
column and sector. -/
def validF (f : SolF) : Prop :=
  ∀ (v : Val) (i : Fin 9),
    (rowCells i).countP (fun c => decide (f c = v)) = 1 ∧
      (colCells i).countP (fun c => decide (f c = v)) = 1 ∧
      (sectorCells i).countP (fun c => decide (f c = v)) = 1

/-- The tracker admits the assignment: every cell still lists the
assignment's digit. -/
def admitsT (t : RemainingTracker) (f : SolF) : Prop := ∀ c, f c ∈ t.board c

/-- The assignment extends the board's pinned cells. -/
def extendsB (b : Board) (f : SolF) : Prop := ∀ c v, b c = some v → f c = v

/-- A board is completely filled. -/
def filledB (s : Board) : Prop := ∀ c, s c ≠ none

/-- Each digit appears exactly once in every row, column and sector of
the board. -/
def zonesOnceB (s : Board) : Prop :=
  ∀ (v : Val) (i : Fin 9),
    (rowCells i).countP (fun c => decide (s c = some v)) = 1 ∧
      (colCells i).countP (fun c => decide (s c = some v)) = 1 ∧
      (sectorCells i).countP (fun c => decide (s c = some v)) = 1

/-- The output board agrees with every pinned cell of the input board. -/
def agreesB (b s : Board) : Prop := ∀ c v, b c = some v → s c = some v

/-- `s` is a solution of the puzzle `b`: completely filled, satisfying
the three constraints, and extending `b`'s pins. -/
def completesB (b s : Board) : Prop := filledB s ∧ zonesOnceB s ∧ agreesB b s

/-- The completely blank board. -/
def emptyBoard : Board := fun _ => none

/-- Test board: the solved grid `S1` of the crate's `solve_puzzle1` test
(each entry is the digit minus one, the `Fin 9` digit index). -/
def boardS1 : Board := fun c =>
  some ((((#[#[3,5,6,0,8,1,2,7,4],
      #[2,1,8,3,4,7,5,6,0],
      #[7,4,0,2,5,6,1,8,3],
      #[4,0,7,1,6,8,3,5,2],
      #[1,6,2,5,3,0,7,4,8],
      #[5,8,3,7,2,4,0,1,6],
      #[6,2,1,8,7,3,4,0,5],
      #[0,3,4,6,1,5,8,2,7],
      #[8,7,5,4,0,2,6,3,1]] : Array (Array (Fin 9))).get! c.1.val).get! c.2.val))

instance (t : RemainingTracker) : Decidable (Consistent t) := by
  unfold Consistent cellCount; infer_instance

instance (t : RemainingTracker) : Decidable (NoEmpty t) := by
  unfold NoEmpty; infer_instance

instance (t : RemainingTracker) (q : Queue) : Decidable (KInv t q) := by
  unfold KInv; infer_instance

instance (t : RemainingTracker) (q : Queue) : Decidable (JInv t q) := by
  unfold JInv; infer_instance

instance (e : Option Coord) (t : RemainingTracker) (q : Queue) : Decidable (SInvE e t q) := by
  unfold SInvE; infer_instance

instance (t : RemainingTracker) (q : Queue) : Decidable (SInv t q) := by
  unfold SInv; infer_instance

instance (t : RemainingTracker) (q : Queue) : Decidable (QInv t q) := by
  unfold QInv; infer_instance

instance (t : RemainingTracker) : Decidable (SaturatedT t) := by
  unfold SaturatedT; infer_instance

instance (b s : Board) : Decidable (completesB b s) := by
  unfold completesB filledB zonesOnceB agreesB; infer_instance

/-- The steps `eliminate_from_secrow_seccol` may push, with the guard
under which each is pushed (used to preserve the queue invariants). -/
def srscPush (z : Srsc) (t2 : RemainingTracker) (s : ReduceStep) : Prop :=
  (s = z.visitSizeMatch ∧ ((t2.getSrsc z).avail).card = 3) ∨
    (∃ w, w ∈ z.lineNeighbors ∧ s = w.visitOnlyInLine) ∨
    (∃ w, w ∈ z.secNeighbors ∧ s = w.visitOnlyInSec)

/-- The steps a full `eliminate(c, v)` may push. -/
def elimPush (t2 : RemainingTracker) (c : Coord) (s : ReduceStep) : Prop :=
  (s = .coordSingularized c ∧ (t2.board c).card = 1) ∨
    (∃ z : Rcs, s = z.visit) ∨
    (∃ z : Srsc, s = z.visitSizeMatch ∧ ((t2.getSrsc z).avail).card = 3) ∨
    (∃ w : Srsc, s = w.visitOnlyInLine ∨ s = w.visitOnlyInSec)

/-- The board admits no valid full solution. -/
def NoSol (t : RemainingTracker) : Prop := ∀ f : SolF, validF f → ¬ admitsT t f

/-- Every coord/value pair in the list is soundly eliminable: no valid
admitted assignment places that value there. -/
def ElimJust (t : RemainingTracker) (l : List (Coord × Val)) : Prop :=
  ∀ p ∈ l, ∀ f : SolF, validF f → admitsT t f → f p.1 ≠ p.2

/-- Common postcondition of every successful reducer substep: consistency
is kept, cells only shrink, no cell empties, counters only decrease, the
queue only grows, the queue invariants are preserved, admitted solutions
stay admitted, and either nothing changed or a candidate disappeared. -/
def StepOk (t : RemainingTracker) (q : Queue) (t2 : RemainingTracker) (q2 : Queue) : Prop :=
  Consistent t2 ∧ shrinkT t t2 ∧ (∀ d, t.board d ≠ ∅ → t2.board d ≠ ∅) ∧
    (∀ z w, t2.getRcs z w ≤ t.getRcs z w) ∧ (∀ z w, t2.getSrsc z w ≤ t.getSrsc z w) ∧
    q ⊆ q2 ∧ candsT t2 ≤ candsT t ∧
    (KInv t q → KInv t2 q2) ∧ (JInv t q → JInv t2 q2) ∧
    (∀ e, SInvE e t q → SInvE e t2 q2) ∧
    (∀ f : SolF, validF f → admitsT t f → admitsT t2 f) ∧
    ((t2 = t ∧ q2 = q) ∨ candsT t2 < candsT t)

/-- Soundness premise for `rcs_vals_singularized`'s cell loop: each single
digit is forced wherever it still appears among the listed cells. -/
def SingJust (t : RemainingTracker) (singles : AvailSet) (cs : List Coord) : Prop :=
  ∀ w, w ∈ singles → ∀ f : SolF, validF f → admitsT t f →
    ∀ c, c ∈ cs → w ∈ t.board c → f c = w

/-- The reducer loop invariant: a consistent tracker with all three queue
invariants. -/
def RInv (t : RemainingTracker) (q : Queue) : Prop :=
  Consistent t ∧ KInv t q ∧ JInv t q ∧ SInv t q

/-- Test board with the digit 1 twice in row 0 (a direct contradiction). -/
def boardDup : Board := fun c => if c.1 = 0 ∧ c.2.val < 2 then some 0 else none

/-- The full assignment behind `boardS1`. -/
def fS1 : SolF := fun c => (boardS1 c).getD 0

/-- Concrete cell digit sets for a mid-elimination snapshot: digit 0 is
absent from box-line `secRow 0` and from the sector-row below it, present
in the middle box-line of row 0 and in the sector-row between. -/
def boardC5 : Coord → AvailSet := fun c =>
  if c.1 = 0 ∧ c.2.val < 3 then Finset.univ.erase 0
  else if c.1 = 0 ∧ c.2.val < 6 then Finset.univ
  else if c.1 = 0 then Finset.univ.erase 0
  else if c.1 = 1 ∧ c.2.val < 3 then Finset.univ
  else if c.1 = 2 ∧ c.2.val < 3 then Finset.univ.erase 0
  else Finset.univ

/-- Snapshot tracker over `boardC5` as `eliminate_from_secrow_seccol` sees
it: every counter matches the board except the eliminating box-line's own
count of digit 0, still one ahead of its (empty) cell count. -/
def trackerC5 : RemainingTracker :=
  { board := boardC5
    rows := fun r w => cellCount (Rcs.cells (.row r)) w boardC5
    cols := fun k w => cellCount (Rcs.cells (.col k)) w boardC5
    sectors := fun i w => cellCount (Rcs.cells (.sector i)) w boardC5
    sectorRows := fun L w =>
      cellCount (secRowCells L) w boardC5 + (if L = 0 ∧ w = 0 then 1 else 0)
    sectorCols := fun M w => cellCount (secColCells M) w boardC5 }

/-! ### Zone combinatorics -/

theorem mem_rowCells : ∀ (c : Coord) (r : Fin 9), c ∈ rowCells r ↔ c.row = r := by decide

theorem mem_colCells : ∀ (c : Coord) (k : Fin 9), c ∈ colCells k ↔ c.col = k := by decide

theorem mem_sectorCells : ∀ (c : Coord) (s : Fin 9), c ∈ sectorCells s ↔ c.sector = s := by
  decide

theorem mem_secRowCells : ∀ (c : Coord) (L : Fin 27), c ∈ secRowCells L ↔ c.sectorRow = L := by
  decide

theorem mem_secColCells : ∀ (c : Coord) (L : Fin 27), c ∈ secColCells L ↔ c.sectorCol = L := by
  decide

theorem rowCells_nodup : ∀ r : Fin 9, (rowCells r).Nodup := by decide

theorem colCells_nodup : ∀ k : Fin 9, (colCells k).Nodup := by decide

theorem sectorCells_nodup : ∀ s : Fin 9, (sectorCells s).Nodup := by decide

theorem secRowCells_nodup : ∀ L : Fin 27, (secRowCells L).Nodup := by decide

theorem secColCells_nodup : ∀ L : Fin 27, (secColCells L).Nodup := by decide

theorem mem_allList : ∀ c : Coord, c ∈ Coord.allList := by decide

theorem allList_nodup : Coord.allList.Nodup := by decide

theorem mem_neighbors {n c : Coord} :
    n ∈ c.neighbors ↔ n ≠ c ∧ (n.row = c.row ∨ n.col = c.col ∨ n.sector = c.sector) := by
  simp only [Coord.neighbors, List.mem_filter, List.mem_append, decide_eq_true_eq,
    mem_rowCells, mem_colCells, mem_sectorCells]
  tauto

theorem rcs_mem_cells : ∀ (z : Rcs) (c : Coord),
    c ∈ z.cells ↔
      (match z with
        | .row r => c.row = r
        | .col k => c.col = k
        | .sector s => c.sector = s) := by
  intro z c
  cases z with
  | row r => exact mem_rowCells c r
  | col k => exact mem_colCells c k
  | sector s => exact mem_sectorCells c s

theorem srsc_mem_cells : ∀ (z : Srsc) (c : Coord),
    c ∈ z.cells ↔
      (match z with
        | .secRow L => c.sectorRow = L
        | .secCol L => c.sectorCol = L) := by
  intro z c
  cases z with
  | secRow L => exact mem_secRowCells c L
  | secCol L => exact mem_secColCells c L

theorem rcs_cells_nodup : ∀ z : Rcs, z.cells.Nodup := by
  intro z
  cases z with
  | row r => exact rowCells_nodup r
  | col k => exact colCells_nodup k
  | sector s => exact sectorCells_nodup s

theorem srsc_cells_nodup : ∀ z : Srsc, z.cells.Nodup := by
  intro z
  cases z with
  | secRow L => exact secRowCells_nodup L
  | secCol L => exact secColCells_nodup L

theorem filter_allList_row :
    ∀ r : Fin 9, Coord.allList.filter (fun c => decide (c.row = r)) = rowCells r := by decide

theorem filter_allList_col :
    ∀ k : Fin 9, Coord.allList.filter (fun c => decide (c.col = k)) = colCells k := by decide

theorem filter_allList_sector :
    ∀ s : Fin 9, Coord.allList.filter (fun c => decide (c.sector = s)) = sectorCells s := by
  decide

theorem filter_allList_secRow :
    ∀ L : Fin 27, Coord.allList.filter (fun c => decide (c.sectorRow = L)) = secRowCells L := by
  decide

theorem filter_allList_secCol :
    ∀ L : Fin 27, Coord.allList.filter (fun c => decide (c.sectorCol = L)) = secColCells L := by
  decide

/-- A box-line's row/col splits into the box-line and its two line
neighbours. -/
theorem line_partition : ∀ z : Srsc,
    List.Perm z.line.cells (z.cells ++ z.lineNeighbors.flatMap Srsc.cells) := by decide

/-- A box-line's sector splits into the box-line and its two sector
neighbours. -/
theorem sector_partition : ∀ z : Srsc,
    List.Perm (Rcs.cells (.sector z.sectorIdx)) (z.cells ++ z.secNeighbors.flatMap Srsc.cells) :=
  by decide

theorem lineNeighbors_ne : ∀ (z w : Srsc), w ∈ z.lineNeighbors → w ≠ z := by decide

theorem secNeighbors_ne : ∀ (z w : Srsc), w ∈ z.secNeighbors → w ≠ z := by decide

theorem lineNeighbors_line : ∀ (z w : Srsc), w ∈ z.lineNeighbors → w.line = z.line := by decide

theorem secNeighbors_sector :
    ∀ (z w : Srsc), w ∈ z.secNeighbors → w.sectorIdx = z.sectorIdx := by decide

theorem rcs_cells_length : ∀ z : Rcs, z.cells.length = 9 := by decide

theorem srsc_cells_length : ∀ z : Srsc, z.cells.length = 3 := by decide

/-- Cells of distinct sector-rows are disjoint (each cell lies in exactly
one sector-row). -/
theorem secRowCells_disjoint {L M : Fin 27} {c : Coord} (h : L ≠ M)
    (h1 : c ∈ secRowCells L) (h2 : c ∈ secRowCells M) : False :=
  h (((mem_secRowCells c L).mp h1).symm.trans ((mem_secRowCells c M).mp h2))

/-- Cells of distinct sector-cols are disjoint. -/
theorem secColCells_disjoint {L M : Fin 27} {c : Coord} (h : L ≠ M)
    (h1 : c ∈ secColCells L) (h2 : c ∈ secColCells M) : False :=
  h (((mem_secColCells c L).mp h1).symm.trans ((mem_secColCells c M).mp h2))

/-! ### Basic toolkit -/

theorem RRes.bind_ok {α β : Type} (a : α) (f : α → RRes β) : (RRes.ok a).bind f = f a := rfl

theorem RRes.bind_failed {α β : Type} (f : α → RRes β) :
    (RRes.failed : RRes α).bind f = .failed := rfl

theorem RRes.bind_panicked {α β : Type} (f : α → RRes β) :
    (RRes.panicked : RRes α).bind f = .panicked := rfl

theorem mem_push {s s' : ReduceStep} {q : Queue} : s' ∈ Queue.push s q ↔ s' = s ∨ s' ∈ q :=
  Finset.mem_insert

theorem subset_push (s : ReduceStep) (q : Queue) : q ⊆ Queue.push s q :=
  Finset.subset_insert s q

theorem AvailSet.getSingle_eq_some {s : AvailSet} {v : Val} :
    s.getSingle = some v ↔ s = {v} := by
  unfold AvailSet.getSingle
  split
  · rename_i h
    obtain ⟨a, rfl⟩ := Finset.card_eq_one.mp h
    simp [Finset.min'_singleton, eq_comm]
  · rename_i h
    constructor
    · intro hc; cases hc
    · rintro rfl; exact absurd (Finset.card_singleton v) h

theorem AvailSet.getSingle_only (v : Val) : (AvailSet.only v).getSingle = some v :=
  AvailSet.getSingle_eq_some.mpr rfl

theorem AvailSet.getSingle_eq_none {s : AvailSet} : s.getSingle = none ↔ s.card ≠ 1 := by
  unfold AvailSet.getSingle
  split <;> simp_all

theorem card_eq_one_getSingle {s : AvailSet} (h : s.card = 1) : ∃ v, s = {v} ∧
    s.getSingle = some v := by
  obtain ⟨a, rfl⟩ := Finset.card_eq_one.mp h
  exact ⟨a, rfl, AvailSet.getSingle_only a⟩

theorem AvailCounter.mem_avail {a : AvailCounter} {v : Val} : v ∈ a.avail ↔ 0 < a v := by
  simp [AvailCounter.avail]

theorem subSet_foldl_apply (l : List Val) (hl : l.Nodup) (a : AvailCounter) (w : Val) :
    (l.foldl (fun a v => if a v = 0 then a else Function.update a v (a v - 1)) a) w =
      if w ∈ l then a w - 1 else a w := by
  induction l generalizing a with
  | nil => simp
  | cons v l ih =>
    have hv : v ∉ l := (List.nodup_cons.mp hl).1
    have hl2 : l.Nodup := (List.nodup_cons.mp hl).2
    rw [List.foldl_cons, ih hl2]
    by_cases hwv : w = v
    · subst hwv
      rw [if_neg hv, if_pos (List.mem_cons_self w l)]
      split
      · rename_i h0
        omega
      · rw [Function.update_same]
    · have hstep : (if a v = 0 then a else Function.update a v (a v - 1)) w = a w := by
        split
        · rfl
        · exact Function.update_noteq hwv _ a
      simp only [List.mem_cons, hwv, false_or, hstep]

theorem AvailCounter.subSet_apply (a : AvailCounter) (s : AvailSet) (w : Val) :
    a.subSet s w = if w ∈ s then a w - 1 else a w := by
  unfold AvailCounter.subSet
  rw [subSet_foldl_apply _ (Finset.sort_nodup _ s) a w]
  simp [Finset.mem_sort]

theorem getRcs_setRcs (t : RemainingTracker) (z z' : Rcs) (a : AvailCounter) :
    (t.setRcs z a).getRcs z' = if z' = z then a else t.getRcs z' := by
  cases z <;> cases z' <;>
    simp only [RemainingTracker.setRcs, RemainingTracker.getRcs, Function.update_apply] <;>
    split <;> simp_all

theorem getSrsc_setSrsc (t : RemainingTracker) (z z' : Srsc) (a : AvailCounter) :
    (t.setSrsc z a).getSrsc z' = if z' = z then a else t.getSrsc z' := by
  cases z <;> cases z' <;>
    simp only [RemainingTracker.setSrsc, RemainingTracker.getSrsc, Function.update_apply] <;>
    split <;> simp_all

theorem board_setRcs (t : RemainingTracker) (z : Rcs) (a : AvailCounter) :
    (t.setRcs z a).board = t.board := by cases z <;> rfl

theorem board_setSrsc (t : RemainingTracker) (z : Srsc) (a : AvailCounter) :
    (t.setSrsc z a).board = t.board := by cases z <;> rfl

theorem getSrsc_setRcs (t : RemainingTracker) (z : Rcs) (z' : Srsc) (a : AvailCounter) :
    (t.setRcs z a).getSrsc z' = t.getSrsc z' := by cases z <;> cases z' <;> rfl

theorem getRcs_setSrsc (t : RemainingTracker) (z : Srsc) (z' : Rcs) (a : AvailCounter) :
    (t.setSrsc z a).getRcs z' = t.getRcs z' := by cases z <;> cases z' <;> rfl

theorem sectors_setSrsc (t : RemainingTracker) (z : Srsc) (a : AvailCounter) (i : Fin 9) :
    (t.setSrsc z a).sectors i = t.sectors i := by cases z <;> rfl

theorem sectors_eq_getRcs (t : RemainingTracker) (i : Fin 9) :
    t.sectors i = t.getRcs (.sector i) := rfl

/-! ### cellCount lemmas -/

theorem cellCount_congr {l : List Coord} {v : Val} {g g' : Coord → AvailSet}
    (h : ∀ c ∈ l, (v ∈ g c ↔ v ∈ g' c)) : cellCount l v g = cellCount l v g' :=
  List.countP_congr fun c hc => by simpa using h c hc

theorem cellCount_update_not_mem {l : List Coord} {v : Val} {g : Coord → AvailSet} {c : Coord}
    (h : c ∉ l) (s : AvailSet) : cellCount l v (Function.update g c s) = cellCount l v g :=
  cellCount_congr fun d hd => by
    rw [Function.update_noteq (ne_of_mem_of_not_mem hd h)]

theorem cellCount_pos_of_mem {l : List Coord} {v : Val} {g : Coord → AvailSet} {c : Coord}
    (hc : c ∈ l) (hv : v ∈ g c) : 0 < cellCount l v g := by
  unfold cellCount
  rw [List.countP_pos_iff]
  exact ⟨c, hc, by simpa using hv⟩

theorem cellCount_update {l : List Coord} {v : Val} {g : Coord → AvailSet} {c : Coord}
    (hn : l.Nodup) (hc : c ∈ l) (s : AvailSet) :
    cellCount l v (Function.update g c s) =
      cellCount l v g - (if v ∈ g c then 1 else 0) + (if v ∈ s then 1 else 0) := by
  induction l with
  | nil => cases hc
  | cons d l ih =>
    rw [List.nodup_cons] at hn
    unfold cellCount at *
    simp only [List.countP_cons]
    rcases List.mem_cons.mp hc with rfl | hcl
    · have htail : List.countP (fun e => decide (v ∈ Function.update g c s e)) l =
          List.countP (fun e => decide (v ∈ g e)) l :=
        List.countP_congr fun e he => by
          rw [Function.update_noteq (ne_of_mem_of_not_mem he hn.1)]
      rw [htail, Function.update_same]
      by_cases h1 : v ∈ g c <;> by_cases h2 : v ∈ s <;> simp [h1, h2]
    · have hdc : d ≠ c := (ne_of_mem_of_not_mem hcl hn.1).symm
      simp only [Function.update_noteq hdc]
      rw [ih hn.2 hcl]
      have hx : (if v ∈ g c then 1 else 0) ≤ List.countP (fun e => decide (v ∈ g e)) l := by
        split
        · exact cellCount_pos_of_mem hcl (by assumption)
        · omega
      by_cases h3 : v ∈ g d <;> simp [h3] <;> omega

theorem cellCount_update_erase {l : List Coord} {v : Val} {g : Coord → AvailSet} {c : Coord}
    (hn : l.Nodup) (hc : c ∈ l) (hv : v ∈ g c) :
    cellCount l v (Function.update g c ((g c).erase v)) = cellCount l v g - 1 := by
  rw [cellCount_update hn hc]
  simp [hv, Finset.not_mem_erase]

theorem cellCount_update_erase_ne {l : List Coord} {w v : Val} {g : Coord → AvailSet}
    {c : Coord} (hw : w ≠ v) :
    cellCount l w (Function.update g c ((g c).erase v)) = cellCount l w g :=
  cellCount_congr fun d _ => by
    rw [Function.update_apply]
    split
    · rename_i he
      subst he
      simp [Finset.mem_erase, hw]
    · exact Iff.rfl

theorem getRcs_withBoard (t : RemainingTracker) (g : Coord → AvailSet) (z : Rcs) :
    (RemainingTracker.mk g t.rows t.cols t.sectors t.sectorRows t.sectorCols).getRcs z =
      t.getRcs z := by cases z <;> rfl

theorem getSrsc_withBoard (t : RemainingTracker) (g : Coord → AvailSet) (z : Srsc) :
    (RemainingTracker.mk g t.rows t.cols t.sectors t.sectorRows t.sectorCols).getSrsc z =
      t.getSrsc z := by cases z <;> rfl

theorem cell_mem_row (c : Coord) : c ∈ Rcs.cells (.row c.row) := (mem_rowCells c _).mpr rfl

theorem cell_mem_col (c : Coord) : c ∈ Rcs.cells (.col c.col) := (mem_colCells c _).mpr rfl

theorem cell_mem_sector (c : Coord) : c ∈ Rcs.cells (.sector c.sector) :=
  (mem_sectorCells c _).mpr rfl

theorem cell_mem_secRow (c : Coord) : c ∈ Srsc.cells (.secRow c.sectorRow) :=
  (mem_secRowCells c _).mpr rfl

theorem cell_mem_secCol (c : Coord) : c ∈ Srsc.cells (.secCol c.sectorCol) :=
  (mem_secColCells c _).mpr rfl

theorem rcs_of_mem_cells {z : Rcs} {c : Coord} (h : c ∈ z.cells) :
    z = .row c.row ∨ z = .col c.col ∨ z = .sector c.sector := by
  cases z with
  | row r => exact Or.inl (by rw [(mem_rowCells c r).mp h])
  | col k => exact Or.inr (Or.inl (by rw [(mem_colCells c k).mp h]))
  | sector s => exact Or.inr (Or.inr (by rw [(mem_sectorCells c s).mp h]))

theorem srsc_of_mem_cells {z : Srsc} {c : Coord} (h : c ∈ z.cells) :
    z = .secRow c.sectorRow ∨ z = .secCol c.sectorCol := by
  cases z with
  | secRow L => exact Or.inl (by rw [(mem_secRowCells c L).mp h])
  | secCol L => exact Or.inr (by rw [(mem_secColCells c L).mp h])

/-- Two distinct satisfying members force a `countP` of at least two. -/
theorem two_le_countP {l : List Coord} {p : Coord → Bool} (hn : l.Nodup) {c1 c2 : Coord}
    (h1 : c1 ∈ l) (h2 : c2 ∈ l) (hne : c1 ≠ c2) (hp1 : p c1) (hp2 : p c2) :
    2 ≤ l.countP p := by
  induction l with
  | nil => cases h1
  | cons d l ih =>
    rw [List.nodup_cons] at hn
    rw [List.countP_cons]
    rcases List.mem_cons.mp h1 with rfl | h1l
    · rcases List.mem_cons.mp h2 with rfl | h2l
      · exact absurd rfl hne
      · have : 0 < l.countP p := List.countP_pos_iff.mpr ⟨c2, h2l, hp2⟩
        simp only [hp1, if_true]
        omega
    · rcases List.mem_cons.mp h2 with rfl | h2l
      · have : 0 < l.countP p := List.countP_pos_iff.mpr ⟨c1, h1l, hp1⟩
        simp only [hp2, if_true]
        omega
      · have := ih hn.2 h1l h2l
        omega

/-- From `validF`, every row/col/sector zone has a cell carrying each
digit. -/
theorem validF_exists_cell {f : SolF} (hf : validF f) (z : Rcs) (v : Val) :
    ∃ cv ∈ z.cells, f cv = v := by
  have h : z.cells.countP (fun c => decide (f c = v)) = 1 := by
    cases z with
    | row r => exact (hf v r).1
    | col k => exact (hf v k).2.1
    | sector s => exact (hf v s).2.2
  have : 0 < z.cells.countP (fun c => decide (f c = v)) := by omega
  obtain ⟨cv, hm, hp⟩ := List.countP_pos_iff.mp this
  exact ⟨cv, hm, by simpa using hp⟩

/-- From `validF`, distinct cells of one row/col/sector carry distinct
digits. -/
theorem validF_distinct {f : SolF} (hf : validF f) {z : Rcs} {c1 c2 : Coord}
    (h1 : c1 ∈ z.cells) (h2 : c2 ∈ z.cells) (hne : c1 ≠ c2) : f c1 ≠ f c2 := by
  intro he
  have hcount : z.cells.countP (fun c => decide (f c = f c2)) = 1 := by
    cases z with
    | row r => exact (hf (f c2) r).1
    | col k => exact (hf (f c2) k).2.1
    | sector s => exact (hf (f c2) s).2.2
  have : 2 ≤ z.cells.countP (fun c => decide (f c = f c2)) :=
    two_le_countP (rcs_cells_nodup z) h1 h2 hne (by simp [he]) (by simp)
  omega

/-- If the zone has a unique cell still carrying `v`, the cell `c`
carries `v`, and an admitted valid assignment must place `v` somewhere in
the zone, then it places it at `c`. -/
theorem forced_cell {g : Coord → AvailSet} {z : Rcs} {c : Coord} {v : Val} {f : SolF}
    (hn : c ∈ z.cells) (hv : v ∈ g c) (hcount : cellCount z.cells v g = 1)
    (hf : validF f) (hadm : ∀ d, f d ∈ g d) : f c = v := by
  obtain ⟨cv, hcv, hfv⟩ := validF_exists_cell hf z v
  by_cases hne : cv = c
  · exact hne ▸ hfv
  · exfalso
    have hvcv : v ∈ g cv := hfv ▸ hadm cv
    have : 2 ≤ z.cells.countP (fun d => decide (v ∈ g d)) :=
      two_le_countP (rcs_cells_nodup z) hcv hn hne (by simpa using hvcv) (by simpa using hv)
    unfold cellCount at hcount
    omega

/-! ### Inversion of the elimination primitives -/

theorem elimFromCell_not_mem {t : RemainingTracker} {q : Queue} {c : Coord} {v : Val}
    (h : v ∉ t.board c) : eliminateFromCell c v (t, q) = .ok (false, (t, q)) := by
  unfold eliminateFromCell
  simp [h]

theorem elimFromCell_fail {t : RemainingTracker} {q : Queue} {c : Coord} {v : Val}
    (hv : v ∈ t.board c) (he : (t.board c).erase v = ∅) :
    eliminateFromCell c v (t, q) = .failed := by
  unfold eliminateFromCell
  simp [hv, he]

theorem elimFromCell_ok {t : RemainingTracker} {q : Queue} {c : Coord} {v : Val}
    (hv : v ∈ t.board c) (he : (t.board c).erase v ≠ ∅) :
    eliminateFromCell c v (t, q) =
      .ok (true, ({ t with board := Function.update t.board c ((t.board c).erase v) },
        if ((t.board c).erase v).card = 1 then Queue.push (.coordSingularized c) q else q)) := by
  unfold eliminateFromCell
  simp only [hv, if_true, he, if_false]
  split <;> simp_all

theorem elimFromRcs_zero {t : RemainingTracker} {q : Queue} {z : Rcs} {v : Val}
    (h : t.getRcs z v = 0) : eliminateFromRcs z v (t, q) = .panicked := by
  unfold eliminateFromRcs
  simp [h]

theorem elimFromRcs_one {t : RemainingTracker} {q : Queue} {z : Rcs} {v : Val}
    (h : t.getRcs z v = 1) : eliminateFromRcs z v (t, q) = .failed := by
  unfold eliminateFromRcs
  simp [h]

theorem elimFromRcs_big {t : RemainingTracker} {q : Queue} {z : Rcs} {v : Val}
    (h : 2 ≤ t.getRcs z v) :
    eliminateFromRcs z v (t, q) =
      .ok (t.setRcs z (Function.update (t.getRcs z) v (t.getRcs z v - 1)),
        if t.getRcs z v - 1 = 1 then Queue.push z.visit q else q) := by
  unfold eliminateFromRcs
  have h0 : ¬ t.getRcs z v = 0 := by omega
  have h1 : ¬ t.getRcs z v - 1 = 0 := by omega
  simp only [h0, if_false, h1]
  split <;> simp_all

theorem elimFromSrsc_zero {t : RemainingTracker} {q : Queue} {z : Srsc} {v : Val}
    (h : t.getSrsc z v = 0) : eliminateFromSrsc z v (t, q) = .ok (t, q) := by
  unfold eliminateFromSrsc
  simp [h]

theorem elimFromSrsc_big {t : RemainingTracker} {q : Queue} {z : Srsc} {v : Val}
    (h : 2 ≤ t.getSrsc z v) :
    eliminateFromSrsc z v (t, q) =
      .ok (t.setSrsc z (Function.update (t.getSrsc z) v (t.getSrsc z v - 1)), q) := by
  unfold eliminateFromSrsc
  have h0 : ¬ t.getSrsc z v = 0 := by omega
  have h1 : ¬ t.getSrsc z v - 1 = 0 := by omega
  simp [h0, h1]

theorem elimFromSrsc_one_fail {t : RemainingTracker} {q : Queue} {z : Srsc} {v : Val}
    (h : t.getSrsc z v = 1)
    (hcard : ((AvailCounter.avail (Function.update (t.getSrsc z) v 0)).card < 3)) :
    eliminateFromSrsc z v (t, q) = .failed := by
  unfold eliminateFromSrsc
  simp [h, hcard]

theorem elimFromSrsc_one_ok {t : RemainingTracker} {q : Queue} {z : Srsc} {v : Val}
    (h : t.getSrsc z v = 1)
    (hcard : ¬ ((AvailCounter.avail (Function.update (t.getSrsc z) v 0)).card < 3)) :
    ∃ q3,
      eliminateFromSrsc z v (t, q) =
        .ok (t.setSrsc z (Function.update (t.getSrsc z) v 0), q3) ∧
      q ⊆ q3 ∧
      (∀ s, s ∈ q3 → s ∈ q ∨
        srscPush z (t.setSrsc z (Function.update (t.getSrsc z) v 0)) s) := by
  unfold eliminateFromSrsc
  simp only [h, Nat.sub_self, one_ne_zero, if_false, if_true, hcard, reduceIte]
  set a2 : AvailCounter := Function.update (t.getSrsc z) v 0 with ha2
  set t2 : RemainingTracker := t.setSrsc z a2 with ht2
  have hget : t2.getSrsc z = a2 := by rw [ht2, getSrsc_setSrsc]; simp
  set q1 : Queue := if (AvailCounter.avail a2).card = 3 then Queue.push z.visitSizeMatch q else q
    with hq1
  have hsub1 : q ⊆ q1 := by
    rw [hq1]; split
    · exact subset_push _ q
    · exact fun _ h => h
  have hmem1 : ∀ s, s ∈ q1 → s ∈ q ∨ srscPush z t2 s := by
    intro s hs
    rw [hq1] at hs
    split at hs
    · rcases mem_push.mp hs with rfl | hs
      · rename_i hc3
        exact Or.inr (Or.inl ⟨rfl, by rw [hget]; exact hc3⟩)
      · exact Or.inl hs
    · exact Or.inl hs
  cases hfl : z.lineNeighbors.find? fun w => decide (t2.getSrsc w v = t2.getRcs w.line v) with
  | none =>
    cases hfs : z.secNeighbors.find? fun w => decide (t2.getSrsc w v = t2.sectors w.sectorIdx v)
      with
    | none =>
      dsimp only
      exact ⟨q1, rfl, hsub1, hmem1⟩
    | some w =>
      have hw : w ∈ z.secNeighbors := List.mem_of_find?_eq_some hfs
      dsimp only
      refine ⟨_, rfl, fun s hs => mem_push.mpr (Or.inr (hsub1 hs)), fun s hs => ?_⟩
      rcases mem_push.mp hs with rfl | hs
      · exact Or.inr (Or.inr (Or.inr ⟨w, hw, rfl⟩))
      · exact hmem1 s hs
  | some w1 =>
    have hw1 : w1 ∈ z.lineNeighbors := List.mem_of_find?_eq_some hfl
    cases hfs : z.secNeighbors.find? fun w => decide (t2.getSrsc w v = t2.sectors w.sectorIdx v)
      with
    | none =>
      dsimp only
      refine ⟨_, rfl, fun s hs => mem_push.mpr (Or.inr (hsub1 hs)), fun s hs => ?_⟩
      rcases mem_push.mp hs with rfl | hs
      · exact Or.inr (Or.inr (Or.inl ⟨w1, hw1, rfl⟩))
      · exact hmem1 s hs
    | some w2 =>
      have hw2 : w2 ∈ z.secNeighbors := List.mem_of_find?_eq_some hfs
      dsimp only
      refine ⟨_, rfl,
        fun s hs => mem_push.mpr (Or.inr (mem_push.mpr (Or.inr (hsub1 hs)))), fun s hs => ?_⟩
      rcases mem_push.mp hs with rfl | hs
      · exact Or.inr (Or.inr (Or.inr ⟨w2, hw2, rfl⟩))
      · rcases mem_push.mp hs with rfl | hs
        · exact Or.inr (Or.inr (Or.inl ⟨w1, hw1, rfl⟩))
        · exact hmem1 s hs

theorem length_le_card {lst : List Val} {s : Finset Val} (hn : lst.Nodup)
    (h : ∀ x ∈ lst, x ∈ s) : lst.length ≤ s.card := by
  have hsub : lst.toFinset ⊆ s := fun x hx => h x (List.mem_toFinset.mp hx)
  have := Finset.card_le_card hsub
  rwa [List.toFinset_card_of_nodup hn] at this

theorem srsc_cells_subset_line {z : Srsc} {c : Coord} (h : c ∈ z.cells) :
    c ∈ z.line.cells :=
  (line_partition z).symm.subset (List.mem_append_left _ h)

theorem srsc_cells_subset_sector {z : Srsc} {c : Coord} (h : c ∈ z.cells) :
    c ∈ Rcs.cells (.sector z.sectorIdx) :=
  (sector_partition z).symm.subset (List.mem_append_left _ h)

/-- One row/col/sector stage of `eliminate`, applied after the cell was
updated but before this zone's counter was: it never panics, fails only
when the zone had a single cell carrying `v` (which forces any admitted
valid assignment to put `v` at `c`), and otherwise just decrements the
counter, restoring the consistency law for this zone. -/
theorem elimFromRcs_stage {t0 : RemainingTracker} (hC : Consistent t0) {c : Coord} {v : Val}
    (hv : v ∈ t0.board c) {z : Rcs} (hz : c ∈ z.cells)
    {T : RemainingTracker} {qq : Queue}
    (hb : T.board = Function.update t0.board c ((t0.board c).erase v))
    (hcnt : T.getRcs z = t0.getRcs z) :
    (eliminateFromRcs z v (T, qq) = .failed ∧
       ∀ f : SolF, validF f → admitsT t0 f → f c = v) ∨
    (∃ qq2, eliminateFromRcs z v (T, qq) =
        .ok (T.setRcs z (Function.update (T.getRcs z) v (T.getRcs z v - 1)), qq2) ∧
      qq ⊆ qq2 ∧ (∀ s, s ∈ qq2 → s ∈ qq ∨ s = z.visit) ∧
      Function.update (T.getRcs z) v (T.getRcs z v - 1) v = cellCount z.cells v T.board ∧
      (∀ w, w ≠ v →
        Function.update (T.getRcs z) v (T.getRcs z v - 1) w = cellCount z.cells w T.board)) := by
  have hcount : T.getRcs z v = cellCount z.cells v t0.board := by rw [hcnt]; exact hC.1 z v
  have hpos : 1 ≤ T.getRcs z v := by
    rw [hcount]; exact cellCount_pos_of_mem hz hv
  by_cases h1 : T.getRcs z v = 1
  · left
    refine ⟨elimFromRcs_one h1, fun f hf hadm => ?_⟩
    exact forced_cell hz hv (by rw [← hcount, h1]) hf hadm
  · right
    have h2 : 2 ≤ T.getRcs z v := by omega
    refine ⟨_, elimFromRcs_big h2, ?_, ?_, ?_, ?_⟩
    · split
      · exact subset_push _ qq
      · exact fun _ h => h
    · intro s hs
      split at hs
      · rcases mem_push.mp hs with rfl | hs
        · exact Or.inr rfl
        · exact Or.inl hs
      · exact Or.inl hs
    · rw [Function.update_same, hcount, hb,
        cellCount_update_erase (rcs_cells_nodup z) hz hv]
    · intro w hw
      rw [Function.update_noteq hw, hcnt, hC.1 z w, hb,
        cellCount_update_erase_ne hw]

/-- One box-line stage of `eliminate`: never panics, fails only when any
admitted valid assignment must put `v` at `c`, otherwise decrements the
box-line counter (restoring the consistency law for it) and pushes only
the steps described by `srscPush`. -/
theorem elimFromSrsc_stage {t0 : RemainingTracker} (hC : Consistent t0) {c : Coord} {v : Val}
    (hv : v ∈ t0.board c) {z : Srsc} (hz : c ∈ z.cells)
    {T : RemainingTracker} {qq : Queue}
    (hb : T.board = Function.update t0.board c ((t0.board c).erase v))
    (hcnt : T.getSrsc z = t0.getSrsc z) :
    (eliminateFromSrsc z v (T, qq) = .failed ∧
       ∀ f : SolF, validF f → admitsT t0 f → f c = v) ∨
    (∃ qq2, eliminateFromSrsc z v (T, qq) =
        .ok (T.setSrsc z (Function.update (T.getSrsc z) v (T.getSrsc z v - 1)), qq2) ∧
      qq ⊆ qq2 ∧
      (∀ s, s ∈ qq2 → s ∈ qq ∨
        srscPush z (T.setSrsc z (Function.update (T.getSrsc z) v (T.getSrsc z v - 1))) s) ∧
      Function.update (T.getSrsc z) v (T.getSrsc z v - 1) v = cellCount z.cells v T.board ∧
      (∀ w, w ≠ v →
        Function.update (T.getSrsc z) v (T.getSrsc z v - 1) w =
          cellCount z.cells w T.board)) := by
  have hcount : T.getSrsc z v = cellCount z.cells v t0.board := by rw [hcnt]; exact hC.2 z v
  have hpos : 1 ≤ T.getSrsc z v := by
    rw [hcount]; exact cellCount_pos_of_mem hz hv
  have hupd_v : Function.update (T.getSrsc z) v (T.getSrsc z v - 1) v =
      cellCount z.cells v T.board := by
    rw [Function.update_same, hcount, hb, cellCount_update_erase (srsc_cells_nodup z) hz hv]
  have hupd_w : ∀ w, w ≠ v → Function.update (T.getSrsc z) v (T.getSrsc z v - 1) w =
      cellCount z.cells w T.board := by
    intro w hw
    rw [Function.update_noteq hw, hcnt, hC.2 z w, hb, cellCount_update_erase_ne hw]
  by_cases h1 : T.getSrsc z v = 1
  · have hsub1 : T.getSrsc z v - 1 = 0 := by omega
    have h0eq : Function.update (T.getSrsc z) v 0 =
        Function.update (T.getSrsc z) v (T.getSrsc z v - 1) := by rw [hsub1]
    by_cases hcard : (AvailCounter.avail (Function.update (T.getSrsc z) v 0)).card < 3
    · left
      refine ⟨elimFromSrsc_one_fail h1 hcard, fun f hf hadm => ?_⟩
      by_contra hfc
      have hfd_ne_v : ∀ d ∈ z.cells, f d ≠ v := by
        intro d hd hfd
        have hvd : v ∈ t0.board d := hfd ▸ hadm d
        by_cases hdc : d = c
        · exact hfc (hdc ▸ hfd)
        · have h2c : 2 ≤ z.cells.countP (fun e => decide (v ∈ t0.board e)) :=
            two_le_countP (srsc_cells_nodup z) hd hz hdc (by simpa using hvd)
              (by simpa using hv)
          unfold cellCount at hcount
          omega
      have hmem_avail : ∀ d ∈ z.cells,
          f d ∈ AvailCounter.avail (Function.update (T.getSrsc z) v 0) := by
        intro d hd
        rw [AvailCounter.mem_avail, Function.update_noteq (hfd_ne_v d hd), hcnt, hC.2 z (f d)]
        exact cellCount_pos_of_mem hd (hadm d)
      have hinj : ∀ d1 ∈ z.cells, ∀ d2 ∈ z.cells, f d1 = f d2 → d1 = d2 := by
        intro d1 h1' d2 h2' he
        by_contra hne
        exact validF_distinct hf (srsc_cells_subset_line h1') (srsc_cells_subset_line h2')
          hne he
      have hnodup : (z.cells.map f).Nodup := (srsc_cells_nodup z).map_on hinj
      have hlen : (z.cells.map f).length = 3 := by
        rw [List.length_map, srsc_cells_length]
      have h3 : 3 ≤ (AvailCounter.avail (Function.update (T.getSrsc z) v 0)).card := by
        rw [← hlen]
        exact length_le_card hnodup fun x hx => by
          rcases List.mem_map.mp hx with ⟨d, hd, rfl⟩
          exact hmem_avail d hd
      omega
    · right
      obtain ⟨q3, heq, hsub, hmem⟩ := elimFromSrsc_one_ok h1 hcard
      rw [h0eq] at heq hmem
      exact ⟨q3, heq, hsub, hmem, hupd_v, hupd_w⟩
  · have h2 : 2 ≤ T.getSrsc z v := by omega
    right
    exact ⟨qq, elimFromSrsc_big h2, fun _ h => h, fun s hs => Or.inl hs, hupd_v, hupd_w⟩

/-- Master specification of `eliminate(c, v)` on a consistent tracker:
it never panics; on a no-op nothing changes; on failure every admitted
valid assignment must place `v` at `c`; on success the cell loses `v`,
the consistency law is restored, counters only decrease and the queue
only acquires the pushes described by `elimPush`. -/
theorem eliminate_spec (t : RemainingTracker) (q : Queue) (c : Coord) (v : Val)
    (hC : Consistent t) :
    (v ∉ t.board c ∧ eliminate c v (t, q) = .ok (false, (t, q))) ∨
    (v ∈ t.board c ∧
      ((eliminate c v (t, q) = .failed ∧
          ∀ f : SolF, validF f → admitsT t f → f c = v) ∨
        ∃ t2 q2, eliminate c v (t, q) = .ok (true, (t2, q2)) ∧
          t2.board = Function.update t.board c ((t.board c).erase v) ∧
          (t.board c).erase v ≠ ∅ ∧
          (((t.board c).erase v).card = 1 → ReduceStep.coordSingularized c ∈ q2) ∧
          Consistent t2 ∧
          (∀ z w, t2.getRcs z w ≤ t.getRcs z w) ∧
          (∀ z w, t2.getSrsc z w ≤ t.getSrsc z w) ∧
          q ⊆ q2 ∧ (∀ s, s ∈ q2 → s ∈ q ∨ elimPush t2 c s))) := by
  by_cases hv : v ∈ t.board c
  swap
  · exact Or.inl ⟨hv, by unfold eliminate; rw [elimFromCell_not_mem hv]; rfl⟩
  right
  refine ⟨hv, ?_⟩
  by_cases he : (t.board c).erase v = ∅
  · left
    refine ⟨by unfold eliminate; rw [elimFromCell_fail hv he]; rfl, fun f hf hadm => ?_⟩
    have hbc : t.board c = {v} := by
      rcases (Finset.erase_eq_empty_iff (t.board c) v).mp he with h | h
      · exact absurd (h ▸ hv) (Finset.not_mem_empty v)
      · exact h
    have := hadm c
    rw [hbc] at this
    exact Finset.mem_singleton.mp this
  · set B2 : Coord → AvailSet := Function.update t.board c ((t.board c).erase v) with hB2
    set T1 : RemainingTracker := { t with board := B2 } with hT1
    set qc : Queue :=
      if ((t.board c).erase v).card = 1 then Queue.push (.coordSingularized c) q else q with hqc
    have hcell : eliminateFromCell c v (t, q) = .ok (true, (T1, qc)) := elimFromCell_ok hv he
    have hT1g : T1.getRcs = t.getRcs := funext fun z => getRcs_withBoard t B2 z
    have hT1s : T1.getSrsc = t.getSrsc := funext fun z => getSrsc_withBoard t B2 z
    have hT1b : T1.board = B2 := rfl
    have helim : eliminate c v (t, q) =
        (eliminateFromRcs (.row c.row) v (T1, qc)).bind fun s2 =>
          (eliminateFromRcs (.col c.col) v s2).bind fun s3 =>
            (eliminateFromRcs (.sector c.sector) v s3).bind fun s4 =>
              (eliminateFromSrsc (.secRow c.sectorRow) v s4).bind fun s5 =>
                (eliminateFromSrsc (.secCol c.sectorCol) v s5).bind fun s6 =>
                  .ok (true, s6) := by
      unfold eliminate
      rw [hcell]
      rfl
    have hsubc : q ⊆ qc := by
      rw [hqc]; split
      · exact subset_push _ q
      · exact fun _ h => h
    -- row stage
    rcases @elimFromRcs_stage t hC c v hv (.row c.row) (cell_mem_row c) T1 qc hT1b
        (by rw [hT1g]) with ⟨hfail, hforced⟩ | ⟨q2, heq2, hsub2, hmem2, hcv2, hcw2⟩
    · left
      exact ⟨by rw [helim, hfail]; rfl, hforced⟩
    set aRow : AvailCounter :=
      Function.update (T1.getRcs (.row c.row)) v (T1.getRcs (.row c.row) v - 1) with haRow
    set T2 : RemainingTracker := T1.setRcs (.row c.row) aRow with hT2
    have hT2b : T2.board = B2 := by rw [hT2, board_setRcs, hT1b]
    -- col stage
    rcases @elimFromRcs_stage t hC c v hv (.col c.col) (cell_mem_col c) T2 q2 hT2b
        (by rw [hT2, getRcs_setRcs]; simp [hT1g]) with
      ⟨hfail, hforced⟩ | ⟨q3, heq3, hsub3, hmem3, hcv3, hcw3⟩
    · left
      exact ⟨by rw [helim, heq2, RRes.bind_ok, hfail]; rfl, hforced⟩
    set aCol : AvailCounter :=
      Function.update (T2.getRcs (.col c.col)) v (T2.getRcs (.col c.col) v - 1) with haCol
    set T3 : RemainingTracker := T2.setRcs (.col c.col) aCol with hT3
    have hT3b : T3.board = B2 := by rw [hT3, board_setRcs, hT2b]
    -- sector stage
    rcases @elimFromRcs_stage t hC c v hv (.sector c.sector) (cell_mem_sector c) T3 q3 hT3b
        (by rw [hT3, getRcs_setRcs, hT2, getRcs_setRcs]; simp [hT1g]) with
      ⟨hfail, hforced⟩ | ⟨q4, heq4, hsub4, hmem4, hcv4, hcw4⟩
    · left
      exact ⟨by rw [helim, heq2, RRes.bind_ok, heq3, RRes.bind_ok, hfail]; rfl, hforced⟩
    set aSec : AvailCounter :=
      Function.update (T3.getRcs (.sector c.sector)) v (T3.getRcs (.sector c.sector) v - 1)
      with haSec
    set T4 : RemainingTracker := T3.setRcs (.sector c.sector) aSec with hT4
    have hT4b : T4.board = B2 := by rw [hT4, board_setRcs, hT3b]
    have hT4s : T4.getSrsc = t.getSrsc := by
      funext z
      rw [hT4, getSrsc_setRcs, hT3, getSrsc_setRcs, hT2, getSrsc_setRcs, hT1s]
    -- sector-row stage
    rcases @elimFromSrsc_stage t hC c v hv (.secRow c.sectorRow) (cell_mem_secRow c) T4 q4 hT4b
        (by rw [hT4s]) with ⟨hfail, hforced⟩ | ⟨q5, heq5, hsub5, hmem5, hcv5, hcw5⟩
    · left
      exact ⟨by
        rw [helim, heq2, RRes.bind_ok, heq3, RRes.bind_ok, heq4, RRes.bind_ok, hfail]; rfl,
        hforced⟩
    set aSR : AvailCounter :=
      Function.update (T4.getSrsc (.secRow c.sectorRow)) v
        (T4.getSrsc (.secRow c.sectorRow) v - 1) with haSR
    set T5 : RemainingTracker := T4.setSrsc (.secRow c.sectorRow) aSR with hT5
    have hT5b : T5.board = B2 := by rw [hT5, board_setSrsc, hT4b]
    -- sector-col stage
    rcases @elimFromSrsc_stage t hC c v hv (.secCol c.sectorCol) (cell_mem_secCol c) T5 q5 hT5b
        (by rw [hT5, getSrsc_setSrsc]; simp [hT4s]) with
      ⟨hfail, hforced⟩ | ⟨q6, heq6, hsub6, hmem6, hcv6, hcw6⟩
    · left
      exact ⟨by
        rw [helim, heq2, RRes.bind_ok, heq3, RRes.bind_ok, heq4, RRes.bind_ok, heq5,
          RRes.bind_ok, hfail]; rfl, hforced⟩
    set aSC : AvailCounter :=
      Function.update (T5.getSrsc (.secCol c.sectorCol)) v
        (T5.getSrsc (.secCol c.sectorCol) v - 1) with haSC
    set T6 : RemainingTracker := T5.setSrsc (.secCol c.sectorCol) aSC with hT6
    have hT6b : T6.board = B2 := by rw [hT6, board_setSrsc, hT5b]
    right
    refine ⟨T6, q6, ?_, hT6b, he, ?_, ?_, ?_, ?_, ?_, ?_⟩
    · rw [helim, heq2, RRes.bind_ok, heq3, RRes.bind_ok, heq4, RRes.bind_ok, heq5,
        RRes.bind_ok, heq6, RRes.bind_ok]
    · intro h1
      apply hsub6
      apply hsub5
      apply hsub4
      apply hsub3
      apply hsub2
      rw [hqc, if_pos h1]
      exact mem_push.mpr (Or.inl rfl)
    -- final accessor shapes
    all_goals
      have hgR : ∀ z : Rcs, T6.getRcs z =
          if z = .sector c.sector then aSec
          else if z = .col c.col then aCol
          else if z = .row c.row then aRow
          else t.getRcs z := by
        intro z
        rw [hT6, getRcs_setSrsc, hT5, getRcs_setSrsc, hT4, getRcs_setRcs, hT3, getRcs_setRcs,
          hT2, getRcs_setRcs, hT1g]
      have hgS : ∀ z : Srsc, T6.getSrsc z =
          if z = .secCol c.sectorCol then aSC
          else if z = .secRow c.sectorRow then aSR
          else t.getSrsc z := by
        intro z
        rw [hT6, getSrsc_setSrsc, hT5, getSrsc_setSrsc, hT4s]
    -- consistency
    · constructor
      · intro z w
        rw [hgR z]
        by_cases hzm : c ∈ z.cells
        · rcases rcs_of_mem_cells hzm with rfl | rfl | rfl
          · have hne1 : Rcs.row c.row ≠ Rcs.sector c.sector := by simp
            have hne2 : Rcs.row c.row ≠ Rcs.col c.col := by simp
            rw [if_neg hne1, if_neg hne2, if_pos rfl]
            by_cases hwv : w = v
            · subst hwv
              rw [haRow] at hcv2 ⊢
              rw [hcv2, hT1b, ← hT6b]
            · rw [haRow] at hcw2 ⊢
              rw [hcw2 w hwv, hT1b, ← hT6b]
          · have hne1 : Rcs.col c.col ≠ Rcs.sector c.sector := by simp
            rw [if_neg hne1, if_pos rfl]
            by_cases hwv : w = v
            · subst hwv
              rw [haCol] at hcv3 ⊢
              rw [hcv3, hT2b, ← hT6b]
            · rw [haCol] at hcw3 ⊢
              rw [hcw3 w hwv, hT2b, ← hT6b]
          · rw [if_pos rfl]
            by_cases hwv : w = v
            · subst hwv
              rw [haSec] at hcv4 ⊢
              rw [hcv4, hT3b, ← hT6b]
            · rw [haSec] at hcw4 ⊢
              rw [hcw4 w hwv, hT3b, ← hT6b]
        · have hne1 : z ≠ .sector c.sector := fun h => hzm (h ▸ cell_mem_sector c)
          have hne2 : z ≠ .col c.col := fun h => hzm (h ▸ cell_mem_col c)
          have hne3 : z ≠ .row c.row := fun h => hzm (h ▸ cell_mem_row c)
          rw [if_neg hne1, if_neg hne2, if_neg hne3, hC.1 z w, hT6b, hB2,
            cellCount_update_not_mem hzm]
      · intro z w
        rw [hgS z]
        by_cases hzm : c ∈ z.cells
        · rcases srsc_of_mem_cells hzm with rfl | rfl
          · have hne1 : Srsc.secRow c.sectorRow ≠ Srsc.secCol c.sectorCol := by simp
            rw [if_neg hne1, if_pos rfl]
            by_cases hwv : w = v
            · subst hwv
              rw [haSR] at hcv5 ⊢
              rw [hcv5, hT4b, ← hT6b]
            · rw [haSR] at hcw5 ⊢
              rw [hcw5 w hwv, hT4b, ← hT6b]
          · rw [if_pos rfl]
            by_cases hwv : w = v
            · subst hwv
              rw [haSC] at hcv6 ⊢
              rw [hcv6, hT5b, ← hT6b]
            · rw [haSC] at hcw6 ⊢
              rw [hcw6 w hwv, hT5b, ← hT6b]
        · have hne1 : z ≠ .secCol c.sectorCol := fun h => hzm (h ▸ cell_mem_secCol c)
          have hne2 : z ≠ .secRow c.sectorRow := fun h => hzm (h ▸ cell_mem_secRow c)
          rw [if_neg hne1, if_neg hne2, hC.2 z w, hT6b, hB2,
            cellCount_update_not_mem hzm]
    -- rcs monotone
    · intro z w
      rw [hgR z]
      have hmono : ∀ (zz : Rcs) (tt : RemainingTracker),
          Function.update (tt.getRcs zz) v (tt.getRcs zz v - 1) w ≤ tt.getRcs zz w := by
        intro zz tt
        rw [Function.update_apply]
        split
        · rename_i hwv
          subst hwv
          omega
        · exact le_refl _
      split
      · rename_i hzz
        subst hzz
        have h2 : T3.getRcs (.sector c.sector) = t.getRcs (.sector c.sector) := by
          rw [hT3, getRcs_setRcs, hT2, getRcs_setRcs]
          simp [hT1g]
        rw [haSec, h2]
        exact hmono (.sector c.sector) t
      · split
        · rename_i hzz
          subst hzz
          have h2 : T2.getRcs (.col c.col) = t.getRcs (.col c.col) := by
            rw [hT2, getRcs_setRcs]
            simp [hT1g]
          rw [haCol, h2]
          exact hmono (.col c.col) t
        · split
          · rename_i hzz
            subst hzz
            rw [haRow, hT1g]
            exact hmono (.row c.row) t
          · exact le_refl _
    -- srsc monotone
    · intro z w
      rw [hgS z]
      have hmono : ∀ (zz : Srsc) (tt : RemainingTracker),
          Function.update (tt.getSrsc zz) v (tt.getSrsc zz v - 1) w ≤ tt.getSrsc zz w := by
        intro zz tt
        rw [Function.update_apply]
        split
        · rename_i hwv
          subst hwv
          omega
        · exact le_refl _
      split
      · rename_i hzz
        subst hzz
        have h2 : T5.getSrsc (.secCol c.sectorCol) = t.getSrsc (.secCol c.sectorCol) := by
          rw [hT5, getSrsc_setSrsc]
          simp [hT4s]
        rw [haSC, h2]
        exact hmono (.secCol c.sectorCol) t
      · split
        · rename_i hzz
          subst hzz
          rw [haSR, hT4s]
          exact hmono (.secRow c.sectorRow) t
        · exact le_refl _
    -- queue subset
    · exact fun s hs => hsub6 (hsub5 (hsub4 (hsub3 (hsub2 (hsubc hs)))))
    -- queue membership
    · intro s hs
      have hcoord : s ∈ qc → s ∈ q ∨ elimPush T6 c s := by
        intro hsc
        rw [hqc] at hsc
        split at hsc
        · rcases mem_push.mp hsc with rfl | hsc
          · rename_i hcard1
            refine Or.inr (Or.inl ⟨rfl, ?_⟩)
            rw [hT6b, hB2, Function.update_same]
            exact hcard1
          · exact Or.inl hsc
        · exact Or.inl hsc
      have hpush5 : ∀ s', srscPush (.secRow c.sectorRow) T5 s' → elimPush T6 c s' := by
        intro s' hp
        rcases hp with ⟨rfl, hc3⟩ | ⟨w, hw, rfl⟩ | ⟨w, hw, rfl⟩
        · refine Or.inr (Or.inr (Or.inl ⟨.secRow c.sectorRow, rfl, ?_⟩))
          have heq : T6.getSrsc (.secRow c.sectorRow) = T5.getSrsc (.secRow c.sectorRow) := by
            rw [hT6, getSrsc_setSrsc]
            simp
          rw [heq]
          exact hc3
        · exact Or.inr (Or.inr (Or.inr ⟨w, Or.inl rfl⟩))
        · exact Or.inr (Or.inr (Or.inr ⟨w, Or.inr rfl⟩))
      have hpush6 : ∀ s', srscPush (.secCol c.sectorCol) T6 s' → elimPush T6 c s' := by
        intro s' hp
        rcases hp with ⟨rfl, hc3⟩ | ⟨w, hw, rfl⟩ | ⟨w, hw, rfl⟩
        · exact Or.inr (Or.inr (Or.inl ⟨.secCol c.sectorCol, rfl, hc3⟩))
        · exact Or.inr (Or.inr (Or.inr ⟨w, Or.inl rfl⟩))
        · exact Or.inr (Or.inr (Or.inr ⟨w, Or.inr rfl⟩))
      rcases hmem6 s hs with hs5 | hp6
      swap
      · exact Or.inr (hpush6 s hp6)
      rcases hmem5 s hs5 with hs4 | hp5
      swap
      · exact Or.inr (hpush5 s hp5)
      rcases hmem4 s hs4 with hs3 | rfl
      swap
      · exact Or.inr (Or.inr (Or.inl ⟨.sector c.sector, rfl⟩))
      rcases hmem3 s hs3 with hs2 | rfl
      swap
      · exact Or.inr (Or.inr (Or.inl ⟨.col c.col, rfl⟩))
      rcases hmem2 s hs2 with hsc | rfl
      swap
      · exact Or.inr (Or.inr (Or.inl ⟨.row c.row, rfl⟩))
      exact hcoord hsc

theorem elimPush_coordSing {t2 : RemainingTracker} {c d : Coord}
    (h : elimPush t2 c (.coordSingularized d)) : d = c ∧ (t2.board c).card = 1 := by
  rcases h with ⟨he, hc⟩ | ⟨z, hz⟩ | ⟨z, hz, _⟩ | ⟨w, hw | hw⟩
  · cases he; exact ⟨rfl, hc⟩
  · cases z <;> simp [Rcs.visit] at hz
  · cases z <;> simp [Srsc.visitSizeMatch] at hz
  · cases w <;> simp [Srsc.visitOnlyInLine] at hw
  · cases w <;> simp [Srsc.visitOnlyInSec] at hw

theorem elimPush_secRowTrip {t2 : RemainingTracker} {c : Coord} {L : Fin 27}
    (h : elimPush t2 c (.secRowTripleized L)) :
    ((t2.getSrsc (.secRow L)).avail).card = 3 := by
  rcases h with ⟨he, _⟩ | ⟨z, hz⟩ | ⟨z, hz, hcard⟩ | ⟨w, hw | hw⟩
  · cases he
  · cases z <;> simp [Rcs.visit] at hz
  · cases z with
    | secRow M =>
      simp only [Srsc.visitSizeMatch, ReduceStep.secRowTripleized.injEq] at hz
      subst hz
      exact hcard
    | secCol M => simp [Srsc.visitSizeMatch] at hz
  · cases w <;> simp [Srsc.visitOnlyInLine] at hw
  · cases w <;> simp [Srsc.visitOnlyInSec] at hw

theorem elimPush_secColTrip {t2 : RemainingTracker} {c : Coord} {L : Fin 27}
    (h : elimPush t2 c (.secColTripleized L)) :
    ((t2.getSrsc (.secCol L)).avail).card = 3 := by
  rcases h with ⟨he, _⟩ | ⟨z, hz⟩ | ⟨z, hz, hcard⟩ | ⟨w, hw | hw⟩
  · cases he
  · cases z <;> simp [Rcs.visit] at hz
  · cases z with
    | secRow M => simp [Srsc.visitSizeMatch] at hz
    | secCol M =>
      simp only [Srsc.visitSizeMatch, ReduceStep.secColTripleized.injEq] at hz
      subst hz
      exact hcard
  · cases w <;> simp [Srsc.visitOnlyInLine] at hw
  · cases w <;> simp [Srsc.visitOnlyInSec] at hw

theorem sum_card_update {l : List Coord} (hn : l.Nodup) {c : Coord} (hc : c ∈ l)
    (g : Coord → AvailSet) (s : AvailSet) :
    ((l.map fun d => (Function.update g c s d).card).sum + (g c).card) =
      ((l.map fun d => (g d).card).sum + s.card) := by
  induction l with
  | nil => cases hc
  | cons d l ih =>
    rw [List.nodup_cons] at hn
    simp only [List.map_cons, List.sum_cons]
    rcases List.mem_cons.mp hc with rfl | hcl
    · have htail : (l.map fun e => (Function.update g c s e).card) =
          (l.map fun e => (g e).card) :=
        List.map_congr_left fun e he => by
          rw [Function.update_noteq (ne_of_mem_of_not_mem he hn.1)]
      rw [htail, Function.update_same]
      omega
    · have hdc : d ≠ c := (ne_of_mem_of_not_mem hcl hn.1).symm
      rw [Function.update_noteq hdc]
      have := ih hn.2 hcl
      omega

theorem candsT_board_update {t t2 : RemainingTracker} {c : Coord} {s : AvailSet}
    (h : t2.board = Function.update t.board c s) :
    candsT t2 + (t.board c).card = candsT t + s.card := by
  unfold candsT
  rw [h]
  exact sum_card_update allList_nodup (mem_allList c) t.board s

theorem card_le_candsT (t : RemainingTracker) (c : Coord) : (t.board c).card ≤ candsT t := by
  unfold candsT
  have hmem : (t.board c).card ∈ (Coord.allList.map fun d => (t.board d).card) :=
    List.mem_map.mpr ⟨c, mem_allList c, rfl⟩
  exact List.single_le_sum (fun x _ => Nat.zero_le x) _ hmem

/-- Bundled single-elimination specification: everything the worklist
induction needs about one `eliminate` call on a consistent tracker. -/
theorem eliminate_step_spec (t : RemainingTracker) (q : Queue) (c : Coord) (v : Val)
    (hC : Consistent t) :
    eliminate c v (t, q) ≠ .panicked ∧
    (eliminate c v (t, q) = .failed → ∀ f : SolF, validF f → admitsT t f → f c = v) ∧
    (∀ chg t2 q2, eliminate c v (t, q) = .ok (chg, (t2, q2)) →
      Consistent t2 ∧ shrinkT t t2 ∧ (∀ d, t.board d ≠ ∅ → t2.board d ≠ ∅) ∧
      (∀ z w, t2.getRcs z w ≤ t.getRcs z w) ∧ (∀ z w, t2.getSrsc z w ≤ t.getSrsc z w) ∧
      q ⊆ q2 ∧ candsT t2 ≤ candsT t ∧
      (chg = false → t2 = t ∧ q2 = q) ∧
      (chg = true → candsT t2 < candsT t) ∧
      (KInv t q → KInv t2 q2) ∧ (JInv t q → JInv t2 q2) ∧
      (∀ e, SInvE e t q → SInvE e t2 q2) ∧
      (∀ f : SolF, validF f → admitsT t f → f c ≠ v → admitsT t2 f) ∧
      v ∉ t2.board c ∧ (∀ d, d ≠ c → t2.board d = t.board d)) := by
  rcases eliminate_spec t q c v hC with ⟨hnv, heq⟩ | ⟨hv, ⟨hfeq, hforced⟩ | hok⟩
  · refine ⟨(by rw [heq]; intro h; cases h), (by rw [heq]; intro h; cases h), ?_⟩
    intro chg t2 q2 h
    rw [heq] at h
    injection h with h
    injection h with h1 h2
    subst h1
    have h3 : t2 = t ∧ q2 = q := by
      constructor <;> [exact (congrArg Prod.fst h2).symm; exact (congrArg Prod.snd h2).symm]
    obtain ⟨rfl, rfl⟩ := h3
    refine ⟨hC, fun d => Finset.Subset.refl _, fun d h => h, fun z w => le_refl _,
      fun z w => le_refl _, fun _ h => h, le_refl _, fun _ => ⟨rfl, rfl⟩,
      fun h => absurd h Bool.false_ne_true, fun h => h,
      fun h => h, fun e h => h, fun f _ ha _ => ha, hnv, fun d _ => rfl⟩
  · refine ⟨(by rw [hfeq]; intro h; cases h), fun _ => hforced, ?_⟩
    intro chg t2 q2 h
    rw [hfeq] at h
    cases h
  · obtain ⟨t2', q2', heq, hboard, hne, hpushc, hcons, hrle, hsle, hqsub, hmemq⟩ := hok
    refine ⟨(by rw [heq]; intro h; cases h), (by rw [heq]; intro h; cases h), ?_⟩
    intro chg t2 q2 h
    rw [heq] at h
    injection h with h
    injection h with h1 h2
    subst h1
    have h3 : t2 = t2' ∧ q2 = q2' := by
      constructor <;> [exact (congrArg Prod.fst h2).symm; exact (congrArg Prod.snd h2).symm]
    obtain ⟨rfl, rfl⟩ := h3
    have hshr : shrinkT t t2 := by
      intro d
      rw [hboard, Function.update_apply]
      split
      · rename_i hdc
        subst hdc
        exact Finset.erase_subset v (t.board d)
      · exact fun x h => h
    have hnep : ∀ d, t.board d ≠ ∅ → t2.board d ≠ ∅ := by
      intro d hd
      rw [hboard, Function.update_apply]
      split
      · rename_i hdc
        subst hdc
        exact hne
      · exact hd
    have hcands : candsT t2 + (t.board c).card = candsT t + ((t.board c).erase v).card :=
      candsT_board_update hboard
    have hcandlt : candsT t2 < candsT t := by
      have hcard : ((t.board c).erase v).card = (t.board c).card - 1 :=
        Finset.card_erase_of_mem hv
      have hpos : 1 ≤ (t.board c).card := Finset.card_pos.mpr ⟨v, hv⟩
      omega
    have hbc2 : t2.board c = (t.board c).erase v := by
      rw [hboard, Function.update_same]
    have hbd2 : ∀ d, d ≠ c → t2.board d = t.board d := by
      intro d hd
      rw [hboard, Function.update_noteq hd]
    refine ⟨hcons, hshr, hnep, hrle, hsle, hqsub, le_of_lt hcandlt,
      fun h => absurd h.symm Bool.false_ne_true,
      fun _ => hcandlt, ?_, ?_, ?_, ?_,
      (by rw [hbc2]; exact Finset.not_mem_erase v _), hbd2⟩
    · -- KInv
      intro hK d hd
      rcases hmemq _ hd with hdq | hp
      · have h1 := hK d hdq
        by_cases hdc : d = c
        · subst hdc
          exfalso
          have : (t.board d).erase v = ∅ := by
            have := Finset.card_erase_of_mem hv
            have h0 : ((t.board d).erase v).card = 0 := by omega
            exact Finset.card_eq_zero.mp h0
          exact hne this
        · rw [hbd2 d hdc]
          exact h1
      · obtain ⟨rfl, hcard⟩ := elimPush_coordSing hp
        exact hcard
    · -- JInv
      have havail : ∀ z : Srsc, (t2.getSrsc z).avail ⊆ (t.getSrsc z).avail := by
        intro z w hw
        rw [AvailCounter.mem_avail] at hw ⊢
        have := hsle z w
        omega
      intro hJ
      constructor
      · intro L hL
        rcases hmemq _ hL with hLq | hp
        · exact le_trans (Finset.card_le_card (havail _)) (hJ.1 L hLq)
        · exact le_of_eq (elimPush_secRowTrip hp)
      · intro L hL
        rcases hmemq _ hL with hLq | hp
        · exact le_trans (Finset.card_le_card (havail _)) (hJ.2 L hLq)
        · exact le_of_eq (elimPush_secColTrip hp)
    · -- SInvE
      intro e hS d w n hde hcard1 hwd hn hwn
      by_cases hdc : d = c
      · subst hdc
        apply hpushc
        rw [← hbc2]
        exact hcard1
      · apply hqsub
        refine hS d w n hde ?_ ?_ hn ?_
        · rw [← hbd2 d hdc]
          exact hcard1
        · rw [← hbd2 d hdc]
          exact hwd
        · exact hshr n hwn
    · -- admits preservation
      intro f hf ha hfc d
      rw [hboard, Function.update_apply]
      split
      · rename_i hdc
        subst hdc
        exact Finset.mem_erase.mpr ⟨hfc, ha d⟩
      · exact ha d

theorem StepOk_refl (t : RemainingTracker) (q : Queue) (hC : Consistent t) : StepOk t q t q :=
  ⟨hC, fun d => Finset.Subset.refl _, fun d h => h, fun z w => le_refl _, fun z w => le_refl _,
    fun x h => h, le_refl _, fun h => h, fun h => h, fun e h => h, fun f _ ha => ha,
    Or.inl ⟨rfl, rfl⟩⟩

theorem StepOk_trans {t t1 t2 : RemainingTracker} {q q1 q2 : Queue}
    (h1 : StepOk t q t1 q1) (h2 : StepOk t1 q1 t2 q2) : StepOk t q t2 q2 := by
  obtain ⟨c1, s1, n1, r1, sl1, qs1, cl1, k1, j1, si1, a1, d1⟩ := h1
  obtain ⟨c2, s2, n2, r2, sl2, qs2, cl2, k2, j2, si2, a2, d2⟩ := h2
  refine ⟨c2, fun d => (s2 d).trans (s1 d), fun d hd => n2 d (n1 d hd),
    fun z w => le_trans (r2 z w) (r1 z w), fun z w => le_trans (sl2 z w) (sl1 z w),
    qs1.trans qs2, le_trans cl2 cl1, fun h => k2 (k1 h), fun h => j2 (j1 h),
    fun e h => si2 e (si1 e h), fun f hf ha => a2 f hf (a1 f hf ha), ?_⟩
  rcases d1 with ⟨ht1, hq1⟩ | hlt1
  · rcases d2 with ⟨ht2, hq2⟩ | hlt2
    · exact Or.inl ⟨ht2.trans ht1, hq2.trans hq1⟩
    · exact Or.inr (lt_of_lt_of_eq hlt2 (congrArg candsT ht1))
  · rcases d2 with ⟨ht2, hq2⟩ | hlt2
    · exact Or.inr (lt_of_eq_of_lt (congrArg candsT ht2) hlt1)
    · exact Or.inr (lt_trans hlt2 hlt1)

/-- `eliminate_all` over an explicit pair list: sound eliminations keep
every reducer invariant, and afterwards each listed pair is excluded
while unlisted cells are untouched. -/
theorem elimList_spec (l : List (Coord × Val)) :
    ∀ t q, Consistent t → ElimJust t l →
    elimList l (t, q) ≠ .panicked ∧
    (elimList l (t, q) = .failed → NoSol t) ∧
    (∀ t2 q2, elimList l (t, q) = .ok (t2, q2) →
      StepOk t q t2 q2 ∧ (∀ p ∈ l, p.2 ∉ t2.board p.1) ∧
      (∀ d, (∀ p ∈ l, p.1 ≠ d) → t2.board d = t.board d)) := by
  induction l with
  | nil =>
    intro t q hC hJ
    refine ⟨?_, ?_, ?_⟩
    · intro h
      cases h
    · intro h
      cases h
    · intro t2 q2 h
      injection h with h
      injection h with h1 h2
      subst h1
      subst h2
      exact ⟨StepOk_refl t q hC, fun p hp => absurd hp (List.not_mem_nil p), fun d _ => rfl⟩
  | cons p rest ih =>
    intro t q hC hJ
    obtain ⟨c, v⟩ := p
    have hJh : ∀ f : SolF, validF f → admitsT t f → f c ≠ v :=
      fun f hf ha => hJ (c, v) (List.mem_cons_self _ _) f hf ha
    obtain ⟨hnp, hfail, hokk⟩ := eliminate_step_spec t q c v hC
    cases helim : eliminate c v (t, q) with
    | panicked => exact absurd helim hnp
    | failed =>
      have he : elimList ((c, v) :: rest) (t, q) = .failed := by
        simp [elimList, helim, RRes.bind]
      refine ⟨?_, ?_, ?_⟩
      · rw [he]
        intro h
        cases h
      · intro _ f hf ha
        exact hJh f hf ha (hfail helim f hf ha)
      · intro t2 q2 h
        rw [he] at h
        cases h
    | ok r =>
      obtain ⟨chg, t1, q1⟩ := r
      obtain ⟨hC1, hshr1, hne1, hrle1, hsle1, hsub1, hcle1, hfch, hcht, hK1, hJ1, hS1, hadm1,
        hnv1, hoff1⟩ := hokk chg t1 q1 helim
      have hstep1 : StepOk t q t1 q1 := by
        refine ⟨hC1, hshr1, hne1, hrle1, hsle1, hsub1, hcle1, hK1, hJ1, hS1,
          fun f hf ha => hadm1 f hf ha (hJh f hf ha), ?_⟩
        cases chg with
        | false => exact Or.inl (hfch rfl)
        | true => exact Or.inr (hcht rfl)
      have hJr : ElimJust t1 rest := by
        intro p hp f hf ha
        exact hJ p (List.mem_cons_of_mem _ hp) f hf fun d => hshr1 d (ha d)
      obtain ⟨hnp2, hfail2, hok2⟩ := ih t1 q1 hC1 hJr
      have he : elimList ((c, v) :: rest) (t, q) = elimList rest (t1, q1) := by
        simp [elimList, helim, RRes.bind]
      refine ⟨?_, ?_, ?_⟩
      · rw [he]
        exact hnp2
      · rw [he]
        intro h f hf ha
        exact hfail2 h f hf (hadm1 f hf ha (hJh f hf ha))
      · intro t2 q2 h
        rw [he] at h
        obtain ⟨hstep2, hexc2, hoff2⟩ := hok2 t2 q2 h
        refine ⟨StepOk_trans hstep1 hstep2, ?_, ?_⟩
        · intro p hp
          rcases List.mem_cons.mp hp with rfl | hpr
          · intro hmem
            exact hnv1 (hstep2.2.1 c hmem)
          · exact hexc2 p hpr
        · intro d hd
          rw [hoff2 d fun p hp => hd p (List.mem_cons_of_mem _ hp)]
          exact hoff1 d (Ne.symm (hd (c, v) (List.mem_cons_self _ _)))

theorem StepOk.consistent {t t2 : RemainingTracker} {q q2 : Queue}
    (h : StepOk t q t2 q2) : Consistent t2 := h.1

theorem StepOk.shrink {t t2 : RemainingTracker} {q q2 : Queue}
    (h : StepOk t q t2 q2) : shrinkT t t2 := h.2.1

theorem StepOk.admits {t t2 : RemainingTracker} {q q2 : Queue} (h : StepOk t q t2 q2) :
    ∀ f : SolF, validF f → admitsT t f → admitsT t2 f := h.2.2.2.2.2.2.2.2.2.2.1

/-- A line neighbour's cells never meet the box-line's own cells. -/
theorem lineNeighbors_cells_disjoint :
    ∀ (z w : Srsc), w ∈ z.lineNeighbors → ∀ c, c ∈ Srsc.cells w → c ∉ Srsc.cells z := by decide

/-- A sector neighbour's cells never meet the box-line's own cells. -/
theorem secNeighbors_cells_disjoint :
    ∀ (z w : Srsc), w ∈ z.secNeighbors → ∀ c, c ∈ Srsc.cells w → c ∉ Srsc.cells z := by decide

theorem mem_eliminateAllPairs {cs : List Coord} {vs : List Val} {p : Coord × Val} :
    p ∈ eliminateAllPairs cs vs ↔ p.1 ∈ cs ∧ p.2 ∈ vs := by
  obtain ⟨c, v⟩ := p
  simp only [eliminateAllPairs, List.mem_flatMap, List.mem_map, Prod.mk.injEq]
  constructor
  · rintro ⟨a, ha, v', hv', rfl, rfl⟩
    exact ⟨ha, hv'⟩
  · rintro ⟨h1, h2⟩
    exact ⟨c, h1, v, h2, rfl, rfl⟩

/-- `coord_singularized` on a consistent tracker whose target cell is a
singleton: no panic, failure refutes all solutions, and success keeps the
invariants while stripping the cell's value from every neighbour. -/
theorem coordSingularized_spec (t : RemainingTracker) (q : Queue) (c : Coord)
    (hC : Consistent t) (hcard : (t.board c).card = 1) :
    coordSingularized c (t, q) ≠ .panicked ∧
    (coordSingularized c (t, q) = .failed → NoSol t) ∧
    (∀ t2 q2, coordSingularized c (t, q) = .ok (t2, q2) →
      StepOk t q t2 q2 ∧ ∀ w n, w ∈ t2.board c → n ∈ c.neighbors → w ∉ t2.board n) := by
  obtain ⟨v, hbv, hgs⟩ := card_eq_one_getSingle hcard
  have he : coordSingularized c (t, q) = elimList (c.neighbors.map fun n => (n, v)) (t, q) := by
    unfold coordSingularized
    rw [hgs]
  have hJ : ElimJust t (c.neighbors.map fun n => (n, v)) := by
    intro p hp f hf ha
    obtain ⟨n, hn, rfl⟩ := List.mem_map.mp hp
    intro hfv
    have hfc : f c = v := by
      have hm := ha c
      rw [hbv] at hm
      exact Finset.mem_singleton.mp hm
    obtain ⟨hne, hzone⟩ := mem_neighbors.mp hn
    rcases hzone with hr | hk | hs
    · exact validF_distinct hf ((mem_rowCells n c.row).mpr hr) (cell_mem_row c) hne
        (hfv.trans hfc.symm)
    · exact validF_distinct hf ((mem_colCells n c.col).mpr hk) (cell_mem_col c) hne
        (hfv.trans hfc.symm)
    · exact validF_distinct hf ((mem_sectorCells n c.sector).mpr hs) (cell_mem_sector c) hne
        (hfv.trans hfc.symm)
  obtain ⟨hnp, hfail, hok⟩ := elimList_spec _ t q hC hJ
  refine ⟨?_, ?_, ?_⟩
  · rw [he]
    exact hnp
  · rw [he]
    exact hfail
  · intro t2 q2 h
    rw [he] at h
    obtain ⟨hstep, hexc, hoff⟩ := hok t2 q2 h
    refine ⟨hstep, ?_⟩
    intro w n hw hn
    have hbc : t2.board c = t.board c := by
      refine hoff c ?_
      intro p hp
      obtain ⟨m, hm, rfl⟩ := List.mem_map.mp hp
      exact (mem_neighbors.mp hm).1
    rw [hbc, hbv] at hw
    have hwv : w = v := Finset.mem_singleton.mp hw
    subst hwv
    exact hexc (n, w) (List.mem_map.mpr ⟨n, hn, rfl⟩)

/-- The cell loop of `rcs_vals_singularized`: sound singles keep every
invariant; a double hit aborts soundly. -/
theorem rcsCellsLoop_spec (singles : AvailSet) (cs : List Coord) :
    ∀ t q, Consistent t → SingJust t singles cs →
    rcsCellsLoop singles cs (t, q) ≠ .panicked ∧
    (rcsCellsLoop singles cs (t, q) = .failed → NoSol t) ∧
    (∀ t2 q2, rcsCellsLoop singles cs (t, q) = .ok (t2, q2) → StepOk t q t2 q2) := by
  induction cs with
  | nil =>
    intro t q hC _
    refine ⟨?_, ?_, ?_⟩
    · intro h
      cases h
    · intro h
      cases h
    · intro t2 q2 h
      injection h with h
      injection h with h1 h2
      subst h1
      subst h2
      exact StepOk_refl t q hC
  | cons c rest ih =>
    intro t q hC hSJ
    have hSJr0 : SingJust t singles rest := by
      intro w hw f hf ha d hd
      exact hSJ w hw f hf ha d (List.mem_cons_of_mem _ hd)
    by_cases h0 : (t.board c ∩ singles) = ∅
    · have he : rcsCellsLoop singles (c :: rest) (t, q) = rcsCellsLoop singles rest (t, q) := by
        simp [rcsCellsLoop, h0]
      obtain ⟨h1, h2, h3⟩ := ih t q hC hSJr0
      refine ⟨?_, ?_, ?_⟩
      · rw [he]
        exact h1
      · rw [he]
        exact h2
      · intro t2 q2 h
        rw [he] at h
        exact h3 t2 q2 h
    · by_cases h1 : (t.board c ∩ singles).card = 1
      · obtain ⟨w, hwset⟩ := Finset.card_eq_one.mp h1
        have hw_in : w ∈ t.board c ∩ singles := by
          rw [hwset]
          exact Finset.mem_singleton_self w
        have hw_b : w ∈ t.board c := (Finset.mem_inter.mp hw_in).1
        have hw_s : w ∈ singles := (Finset.mem_inter.mp hw_in).2
        have hJ : ElimJust t
            ((Finset.sort (· ≤ ·) (t.board c \ singles)).map fun v => (c, v)) := by
          intro p hp f hf ha
          obtain ⟨v, hv, rfl⟩ := List.mem_map.mp hp
          have hvd : v ∈ t.board c \ singles := (Finset.mem_sort _).mp hv
          intro hfv
          have hfc : f c = w := hSJ w hw_s f hf ha c (List.mem_cons_self _ _) hw_b
          have hvw : v ≠ w := fun hvw => (Finset.mem_sdiff.mp hvd).2 (hvw ▸ hw_s)
          exact hvw (hfv.symm.trans hfc)
        obtain ⟨hnp, hfail, hok⟩ := elimList_spec _ t q hC hJ
        cases helim : elimList ((Finset.sort (· ≤ ·) (t.board c \ singles)).map fun v => (c, v))
            (t, q) with
        | panicked => exact absurd helim hnp
        | failed =>
          have he : rcsCellsLoop singles (c :: rest) (t, q) = .failed := by
            simp [rcsCellsLoop, h0, h1, helim, RRes.bind]
          refine ⟨?_, ?_, ?_⟩
          · rw [he]
            intro h
            cases h
          · intro _
            exact hfail helim
          · intro t2 q2 h
            rw [he] at h
            cases h
        | ok s1 =>
          obtain ⟨t1, q1⟩ := s1
          obtain ⟨hstep1, -, -⟩ := hok t1 q1 helim
          have hC1 : Consistent t1 := hstep1.consistent
          have hSJ1 : SingJust t1 singles rest := by
            intro w' hw' f hf ha d hd hwb
            exact hSJ w' hw' f hf (fun d' => hstep1.shrink d' (ha d')) d
              (List.mem_cons_of_mem _ hd) (hstep1.shrink d hwb)
          obtain ⟨hnp2, hfail2, hok2⟩ := ih t1 q1 hC1 hSJ1
          have he : rcsCellsLoop singles (c :: rest) (t, q) = rcsCellsLoop singles rest (t1, q1) := by
            simp [rcsCellsLoop, h0, h1, helim, RRes.bind]
          refine ⟨?_, ?_, ?_⟩
          · rw [he]
            exact hnp2
          · rw [he]
            intro h f hf ha
            exact hfail2 h f hf (hstep1.admits f hf ha)
          · intro t2 q2 h
            rw [he] at h
            exact StepOk_trans hstep1 (hok2 t2 q2 h)
      · have hcge : 1 < (t.board c ∩ singles).card := by
          have hpos : 0 < (t.board c ∩ singles).card :=
            Finset.card_pos.mpr (Finset.nonempty_iff_ne_empty.mpr h0)
          omega
        obtain ⟨w1, hw1, w2, hw2, hne⟩ := Finset.one_lt_card.mp hcge
        have he : rcsCellsLoop singles (c :: rest) (t, q) = .failed := by
          simp [rcsCellsLoop, h0, h1]
        refine ⟨?_, ?_, ?_⟩
        · rw [he]
          intro h
          cases h
        · intro _ f hf ha
          have e1 : f c = w1 := hSJ w1 (Finset.mem_inter.mp hw1).2 f hf ha c
            (List.mem_cons_self _ _) (Finset.mem_inter.mp hw1).1
          have e2 : f c = w2 := hSJ w2 (Finset.mem_inter.mp hw2).2 f hf ha c
            (List.mem_cons_self _ _) (Finset.mem_inter.mp hw2).1
          exact hne (e1.symm.trans e2)
        · intro t2 q2 h
          rw [he] at h
          cases h

/-- `rcs_vals_singularized` on a consistent tracker. -/
theorem rcsValsSingularized_spec (z : Rcs) (t : RemainingTracker) (q : Queue)
    (hC : Consistent t) :
    rcsValsSingularized z (t, q) ≠ .panicked ∧
    (rcsValsSingularized z (t, q) = .failed → NoSol t) ∧
    (∀ t2 q2, rcsValsSingularized z (t, q) = .ok (t2, q2) → StepOk t q t2 q2) := by
  have hSJ : SingJust t (Finset.univ.filter fun v => t.getRcs z v = 1) z.cells := by
    intro w hw f hf ha c hc hwb
    have h1 : t.getRcs z w = 1 := (Finset.mem_filter.mp hw).2
    rw [hC.1 z w] at h1
    exact forced_cell hc hwb h1 hf ha
  exact rcsCellsLoop_spec (Finset.univ.filter fun v => t.getRcs z v = 1) z.cells t q hC hSJ

/-- On a consistent tracker a box-line with at most three available digits
carries, under any admitted valid assignment, exactly those digits. -/
theorem srsc_avail_image {t : RemainingTracker} {z : Srsc} {v : Val} {f : SolF}
    (hC : Consistent t) (hcard : ((t.getSrsc z).avail).card ≤ 3)
    (hf : validF f) (ha : admitsT t f) (hv : v ∈ (t.getSrsc z).avail) :
    ∃ e ∈ z.cells, f e = v := by
  have hnd : (z.cells.map f).Nodup := by
    refine List.Nodup.map_on ?_ (srsc_cells_nodup z)
    intro x hx y hy hxy
    by_contra hne
    exact validF_distinct hf (srsc_cells_subset_line hx) (srsc_cells_subset_line hy) hne hxy
  have hmemL : ∀ x ∈ z.cells.map f, x ∈ (t.getSrsc z).avail := by
    intro x hx
    obtain ⟨e, he, rfl⟩ := List.mem_map.mp hx
    rw [AvailCounter.mem_avail, hC.2 z (f e)]
    exact cellCount_pos_of_mem he (ha e)
  have hlen : (z.cells.map f).length = 3 := by rw [List.length_map, srsc_cells_length]
  have hsub : (z.cells.map f).toFinset ⊆ (t.getSrsc z).avail :=
    fun x hx => hmemL x (List.mem_toFinset.mp hx)
  have hcardL : (z.cells.map f).toFinset.card = 3 := by
    rw [List.toFinset_card_of_nodup hnd, hlen]
  have heqs : (z.cells.map f).toFinset = (t.getSrsc z).avail :=
    Finset.eq_of_subset_of_card_le hsub (by omega)
  have hvL : v ∈ (z.cells.map f).toFinset := by
    rw [heqs]
    exact hv
  obtain ⟨e, he, hfe⟩ := List.mem_map.mp (List.mem_toFinset.mp hvL)
  exact ⟨e, he, hfe⟩

/-- When a digit's box-line count equals its full-line count, any admitted
valid assignment places that digit inside the box-line. -/
theorem srsc_forced_in_line {t : RemainingTracker} {z : Srsc} {v : Val} {f : SolF}
    (hC : Consistent t) (heq : t.getSrsc z v = t.getRcs z.line v)
    (hf : validF f) (ha : admitsT t f) : ∃ e ∈ z.cells, f e = v := by
  obtain ⟨e, he, hfe⟩ := validF_exists_cell hf z.line v
  have hvb : v ∈ t.board e := hfe ▸ ha e
  have hperm := line_partition z
  have hcnt : cellCount z.line.cells v t.board =
      cellCount z.cells v t.board + cellCount (z.lineNeighbors.flatMap Srsc.cells) v t.board := by
    unfold cellCount
    rw [hperm.countP_eq, List.countP_append]
  have h0 : cellCount (z.lineNeighbors.flatMap Srsc.cells) v t.board = 0 := by
    have h1 := hC.1 z.line v
    have h2 := hC.2 z v
    omega
  have hmem : e ∈ z.cells ++ z.lineNeighbors.flatMap Srsc.cells := hperm.subset he
  rcases List.mem_append.mp hmem with h | h
  · exact ⟨e, h, hfe⟩
  · exfalso
    have := cellCount_pos_of_mem h hvb
    omega

/-- When a digit's box-line count equals its sector count, any admitted
valid assignment places that digit inside the box-line. -/
theorem srsc_forced_in_sector {t : RemainingTracker} {z : Srsc} {v : Val} {f : SolF}
    (hC : Consistent t) (heq : t.getSrsc z v = t.getRcs (.sector z.sectorIdx) v)
    (hf : validF f) (ha : admitsT t f) : ∃ e ∈ z.cells, f e = v := by
  obtain ⟨e, he, hfe⟩ := validF_exists_cell hf (.sector z.sectorIdx) v
  have hvb : v ∈ t.board e := hfe ▸ ha e
  have hperm := sector_partition z
  have hcnt : cellCount (Rcs.cells (.sector z.sectorIdx)) v t.board =
      cellCount z.cells v t.board + cellCount (z.secNeighbors.flatMap Srsc.cells) v t.board := by
    unfold cellCount
    rw [hperm.countP_eq, List.countP_append]
  have h0 : cellCount (z.secNeighbors.flatMap Srsc.cells) v t.board = 0 := by
    have h1 := hC.1 (.sector z.sectorIdx) v
    have h2 := hC.2 z v
    omega
  have hmem : e ∈ z.cells ++ z.secNeighbors.flatMap Srsc.cells := hperm.subset he
  rcases List.mem_append.mp hmem with h | h
  · exact ⟨e, h, hfe⟩
  · exfalso
    have := cellCount_pos_of_mem h hvb
    omega

/-- `secrow_seccol_tripleized` on a consistent tracker whose box-line has
at most three available digits. -/
theorem srscTripleized_spec (z : Srsc) (t : RemainingTracker) (q : Queue) (hC : Consistent t)
    (hcard : ((t.getSrsc z).avail).card ≤ 3) :
    srscTripleized z (t, q) ≠ .panicked ∧
    (srscTripleized z (t, q) = .failed → NoSol t) ∧
    (∀ t2 q2, srscTripleized z (t, q) = .ok (t2, q2) → StepOk t q t2 q2) := by
  have hJ : ElimJust t (eliminateAllPairs ((z.lineNeighbors ++ z.secNeighbors).flatMap Srsc.cells)
      (Finset.sort (· ≤ ·) ((t.getSrsc z).avail))) := by
    intro p hp f hf ha
    obtain ⟨hp1, hp2⟩ := mem_eliminateAllPairs.mp hp
    have hv : p.2 ∈ (t.getSrsc z).avail := (Finset.mem_sort _).mp hp2
    intro hfv
    obtain ⟨e, he, hfe⟩ := srsc_avail_image hC hcard hf ha hv
    obtain ⟨w', hw', hd⟩ := List.mem_flatMap.mp hp1
    rcases List.mem_append.mp hw' with hwl | hws
    · have hnd : p.1 ∉ z.cells := lineNeighbors_cells_disjoint z w' hwl p.1 hd
      have hne : p.1 ≠ e := fun hh => hnd (hh ▸ he)
      have h1 : p.1 ∈ z.line.cells := by
        have hx := srsc_cells_subset_line hd
        rwa [lineNeighbors_line z w' hwl] at hx
      exact validF_distinct hf h1 (srsc_cells_subset_line he) hne (hfv.trans hfe.symm)
    · have hnd : p.1 ∉ z.cells := secNeighbors_cells_disjoint z w' hws p.1 hd
      have hne : p.1 ≠ e := fun hh => hnd (hh ▸ he)
      have h1 : p.1 ∈ Rcs.cells (.sector z.sectorIdx) := by
        have hx := srsc_cells_subset_sector hd
        rwa [secNeighbors_sector z w' hws] at hx
      exact validF_distinct hf h1 (srsc_cells_subset_sector he) hne (hfv.trans hfe.symm)
  obtain ⟨hnp, hfail, hok⟩ := elimList_spec _ t q hC hJ
  refine ⟨?_, ?_, ?_⟩
  · exact hnp
  · exact hfail
  · intro t2 q2 h
    exact (hok t2 q2 h).1

/-- `secrow_seccol_only_in_line` on a consistent tracker. -/
theorem srscOnlyInLine_spec (z : Srsc) (t : RemainingTracker) (q : Queue) (hC : Consistent t) :
    srscOnlyInLine z (t, q) ≠ .panicked ∧
    (srscOnlyInLine z (t, q) = .failed → NoSol t) ∧
    (∀ t2 q2, srscOnlyInLine z (t, q) = .ok (t2, q2) → StepOk t q t2 q2) := by
  have hJ : ElimJust t (eliminateAllPairs (z.secNeighbors.flatMap Srsc.cells)
      (Finset.sort (· ≤ ·) (Finset.univ.filter fun v => t.getSrsc z v = t.getRcs z.line v))) := by
    intro p hp f hf ha
    obtain ⟨hp1, hp2⟩ := mem_eliminateAllPairs.mp hp
    have hu : t.getSrsc z p.2 = t.getRcs z.line p.2 :=
      (Finset.mem_filter.mp ((Finset.mem_sort _).mp hp2)).2
    intro hfv
    obtain ⟨e, he, hfe⟩ := srsc_forced_in_line hC hu hf ha
    obtain ⟨w', hw', hd⟩ := List.mem_flatMap.mp hp1
    have hnd : p.1 ∉ z.cells := secNeighbors_cells_disjoint z w' hw' p.1 hd
    have hne : p.1 ≠ e := fun hh => hnd (hh ▸ he)
    have h1 : p.1 ∈ Rcs.cells (.sector z.sectorIdx) := by
      have hx := srsc_cells_subset_sector hd
      rwa [secNeighbors_sector z w' hw'] at hx
    exact validF_distinct hf h1 (srsc_cells_subset_sector he) hne (hfv.trans hfe.symm)
  obtain ⟨hnp, hfail, hok⟩ := elimList_spec _ t q hC hJ
  refine ⟨?_, ?_, ?_⟩
  · exact hnp
  · exact hfail
  · intro t2 q2 h
    exact (hok t2 q2 h).1

/-- `secrow_seccol_only_in_sec` on a consistent tracker. -/
theorem srscOnlyInSec_spec (z : Srsc) (t : RemainingTracker) (q : Queue) (hC : Consistent t) :
    srscOnlyInSec z (t, q) ≠ .panicked ∧
    (srscOnlyInSec z (t, q) = .failed → NoSol t) ∧
    (∀ t2 q2, srscOnlyInSec z (t, q) = .ok (t2, q2) → StepOk t q t2 q2) := by
  have hJ : ElimJust t (eliminateAllPairs (z.lineNeighbors.flatMap Srsc.cells)
      (Finset.sort (· ≤ ·)
        (Finset.univ.filter fun v => t.getSrsc z v = t.sectors z.sectorIdx v))) := by
    intro p hp f hf ha
    obtain ⟨hp1, hp2⟩ := mem_eliminateAllPairs.mp hp
    have hu : t.getSrsc z p.2 = t.getRcs (.sector z.sectorIdx) p.2 :=
      (Finset.mem_filter.mp ((Finset.mem_sort _).mp hp2)).2
    intro hfv
    obtain ⟨e, he, hfe⟩ := srsc_forced_in_sector hC hu hf ha
    obtain ⟨w', hw', hd⟩ := List.mem_flatMap.mp hp1
    have hnd : p.1 ∉ z.cells := lineNeighbors_cells_disjoint z w' hw' p.1 hd
    have hne : p.1 ≠ e := fun hh => hnd (hh ▸ he)
    have h1 : p.1 ∈ z.line.cells := by
      have hx := srsc_cells_subset_line hd
      rwa [lineNeighbors_line z w' hw'] at hx
    exact validF_distinct hf h1 (srsc_cells_subset_line he) hne (hfv.trans hfe.symm)
  obtain ⟨hnp, hfail, hok⟩ := elimList_spec _ t q hC hJ
  refine ⟨?_, ?_, ?_⟩
  · exact hnp
  · exact hfail
  · intro t2 q2 h
    exact (hok t2 q2 h).1

theorem KInv_erase {t : RemainingTracker} {q : Queue} {s : ReduceStep} (h : KInv t q) :
    KInv t (q.erase s) := fun c hc => h c (Finset.mem_of_mem_erase hc)

theorem JInv_erase {t : RemainingTracker} {q : Queue} {s : ReduceStep} (h : JInv t q) :
    JInv t (q.erase s) :=
  ⟨fun L hL => h.1 L (Finset.mem_of_mem_erase hL),
    fun L hL => h.2 L (Finset.mem_of_mem_erase hL)⟩

theorem SInv_erase_ne {t : RemainingTracker} {q : Queue} {s : ReduceStep} (h : SInv t q)
    (hs : ∀ c, s ≠ .coordSingularized c) : SInv t (q.erase s) := by
  intro c v n hce hc hv hn hvn
  exact Finset.mem_erase_of_ne_of_mem (fun he => hs c he.symm) (h c v n hce hc hv hn hvn)

theorem SInvE_erase_coordSing {t : RemainingTracker} {q : Queue} (h : SInv t q) (c : Coord) :
    SInvE (some c) t (q.erase (.coordSingularized c)) := by
  intro d v n hde hc hv hn hvn
  refine Finset.mem_erase_of_ne_of_mem ?_ (h d v n (Option.some_ne_none d) hc hv hn hvn)
  intro he
  injection he with h1
  exact hde (by rw [h1])

/-- One full reducer iteration on a popped step: under the loop invariant
it cannot panic, failure refutes all solutions, and success restores the
loop invariant while only shrinking the tracker, with either no change
at all or at least one candidate digit removed. -/
theorem processStep_spec (t : RemainingTracker) (q : Queue) (step : ReduceStep)
    (hR : RInv t q) (hmem : step ∈ q) :
    processStep (t, q.erase step) step ≠ .panicked ∧
    (processStep (t, q.erase step) step = .failed → NoSol t) ∧
    (∀ t2 q2, processStep (t, q.erase step) step = .ok (t2, q2) →
      RInv t2 q2 ∧ shrinkT t t2 ∧ (∀ d, t.board d ≠ ∅ → t2.board d ≠ ∅) ∧
      (∀ f : SolF, validF f → admitsT t f → admitsT t2 f) ∧
      candsT t2 ≤ candsT t ∧
      ((t2 = t ∧ q2 = q.erase step) ∨ candsT t2 < candsT t)) := by
  obtain ⟨hC, hK, hJ, hS⟩ := hR
  cases step with
  | coordSingularized c =>
    have hcard := hK c hmem
    obtain ⟨hnp, hfail, hok⟩ :=
      coordSingularized_spec t (q.erase (.coordSingularized c)) c hC hcard
    refine ⟨hnp, hfail, ?_⟩
    intro t2 q2 h
    obtain ⟨hstep, hpurge⟩ := hok t2 q2 h
    obtain ⟨hC2, hshr, hne2, hrle, hsle, hqs, hcle, hK2, hJ2, hS2, hadm, hdisj⟩ := hstep
    refine ⟨⟨hC2, hK2 (KInv_erase hK), hJ2 (JInv_erase hJ), ?_⟩, hshr, hne2, hadm, hcle, hdisj⟩
    intro d v n hde hc hv hn hvn
    by_cases hdc : d = c
    · subst hdc
      exact absurd hvn (hpurge v n hv hn)
    · exact hS2 (some c) (SInvE_erase_coordSing hS c) d v n
        (fun he => hdc (Option.some.inj he)) hc hv hn hvn
  | rowValsSingularized r =>
    obtain ⟨hnp, hfail, hok⟩ := rcsValsSingularized_spec (.row r) t (q.erase _) hC
    refine ⟨hnp, hfail, ?_⟩
    intro t2 q2 h
    obtain ⟨hC2, hshr, hne2, hrle, hsle, hqs, hcle, hK2, hJ2, hS2, hadm, hdisj⟩ := hok t2 q2 h
    exact ⟨⟨hC2, hK2 (KInv_erase hK), hJ2 (JInv_erase hJ),
      hS2 none (SInv_erase_ne hS fun c he => ReduceStep.noConfusion he)⟩,
      hshr, hne2, hadm, hcle, hdisj⟩
  | colValsSingularized k =>
    obtain ⟨hnp, hfail, hok⟩ := rcsValsSingularized_spec (.col k) t (q.erase _) hC
    refine ⟨hnp, hfail, ?_⟩
    intro t2 q2 h
    obtain ⟨hC2, hshr, hne2, hrle, hsle, hqs, hcle, hK2, hJ2, hS2, hadm, hdisj⟩ := hok t2 q2 h
    exact ⟨⟨hC2, hK2 (KInv_erase hK), hJ2 (JInv_erase hJ),
      hS2 none (SInv_erase_ne hS fun c he => ReduceStep.noConfusion he)⟩,
      hshr, hne2, hadm, hcle, hdisj⟩
  | secValsSingularized z =>
    obtain ⟨hnp, hfail, hok⟩ := rcsValsSingularized_spec (.sector z) t (q.erase _) hC
    refine ⟨hnp, hfail, ?_⟩
    intro t2 q2 h
    obtain ⟨hC2, hshr, hne2, hrle, hsle, hqs, hcle, hK2, hJ2, hS2, hadm, hdisj⟩ := hok t2 q2 h
    exact ⟨⟨hC2, hK2 (KInv_erase hK), hJ2 (JInv_erase hJ),
      hS2 none (SInv_erase_ne hS fun c he => ReduceStep.noConfusion he)⟩,
      hshr, hne2, hadm, hcle, hdisj⟩
  | secRowTripleized L =>
    obtain ⟨hnp, hfail, hok⟩ := srscTripleized_spec (.secRow L) t (q.erase _) hC (hJ.1 L hmem)
    refine ⟨hnp, hfail, ?_⟩
    intro t2 q2 h
    obtain ⟨hC2, hshr, hne2, hrle, hsle, hqs, hcle, hK2, hJ2, hS2, hadm, hdisj⟩ := hok t2 q2 h
    exact ⟨⟨hC2, hK2 (KInv_erase hK), hJ2 (JInv_erase hJ),
      hS2 none (SInv_erase_ne hS fun c he => ReduceStep.noConfusion he)⟩,
      hshr, hne2, hadm, hcle, hdisj⟩
  | secColTripleized L =>
    obtain ⟨hnp, hfail, hok⟩ := srscTripleized_spec (.secCol L) t (q.erase _) hC (hJ.2 L hmem)
    refine ⟨hnp, hfail, ?_⟩
    intro t2 q2 h
    obtain ⟨hC2, hshr, hne2, hrle, hsle, hqs, hcle, hK2, hJ2, hS2, hadm, hdisj⟩ := hok t2 q2 h
    exact ⟨⟨hC2, hK2 (KInv_erase hK), hJ2 (JInv_erase hJ),
      hS2 none (SInv_erase_ne hS fun c he => ReduceStep.noConfusion he)⟩,
      hshr, hne2, hadm, hcle, hdisj⟩
  | rowOnlySec L =>
    obtain ⟨hnp, hfail, hok⟩ := srscOnlyInLine_spec (.secRow L) t (q.erase _) hC
    refine ⟨hnp, hfail, ?_⟩
    intro t2 q2 h
    obtain ⟨hC2, hshr, hne2, hrle, hsle, hqs, hcle, hK2, hJ2, hS2, hadm, hdisj⟩ := hok t2 q2 h
    exact ⟨⟨hC2, hK2 (KInv_erase hK), hJ2 (JInv_erase hJ),
      hS2 none (SInv_erase_ne hS fun c he => ReduceStep.noConfusion he)⟩,
      hshr, hne2, hadm, hcle, hdisj⟩
  | secOnlyRow L =>
    obtain ⟨hnp, hfail, hok⟩ := srscOnlyInSec_spec (.secRow L) t (q.erase _) hC
    refine ⟨hnp, hfail, ?_⟩
    intro t2 q2 h
    obtain ⟨hC2, hshr, hne2, hrle, hsle, hqs, hcle, hK2, hJ2, hS2, hadm, hdisj⟩ := hok t2 q2 h
    exact ⟨⟨hC2, hK2 (KInv_erase hK), hJ2 (JInv_erase hJ),
      hS2 none (SInv_erase_ne hS fun c he => ReduceStep.noConfusion he)⟩,
      hshr, hne2, hadm, hcle, hdisj⟩
  | colOnlySec L =>
    obtain ⟨hnp, hfail, hok⟩ := srscOnlyInLine_spec (.secCol L) t (q.erase _) hC
    refine ⟨hnp, hfail, ?_⟩
    intro t2 q2 h
    obtain ⟨hC2, hshr, hne2, hrle, hsle, hqs, hcle, hK2, hJ2, hS2, hadm, hdisj⟩ := hok t2 q2 h
    exact ⟨⟨hC2, hK2 (KInv_erase hK), hJ2 (JInv_erase hJ),
      hS2 none (SInv_erase_ne hS fun c he => ReduceStep.noConfusion he)⟩,
      hshr, hne2, hadm, hcle, hdisj⟩
  | secOnlyCol L =>
    obtain ⟨hnp, hfail, hok⟩ := srscOnlyInSec_spec (.secCol L) t (q.erase _) hC
    refine ⟨hnp, hfail, ?_⟩
    intro t2 q2 h
    obtain ⟨hC2, hshr, hne2, hrle, hsle, hqs, hcle, hK2, hJ2, hS2, hadm, hdisj⟩ := hok t2 q2 h
    exact ⟨⟨hC2, hK2 (KInv_erase hK), hJ2 (JInv_erase hJ),
      hS2 none (SInv_erase_ne hS fun c he => ReduceStep.noConfusion he)⟩,
      hshr, hne2, hadm, hcle, hdisj⟩

theorem reduceStep_card : (Finset.univ : Finset ReduceStep).card = 270 := by decide

/-- The reducer's fuelled loop: with enough fuel and the loop invariant it
never panics or runs out of fuel, failure refutes all solutions, and
success yields a consistent saturated tracker below the input. -/
theorem reduceF_spec : ∀ (fuel : Nat) (t : RemainingTracker) (q : Queue),
    RInv t q → measureR (t, q) < fuel →
    reduceF fuel (t, q) ≠ .panicked ∧ reduceF fuel (t, q) ≠ .fuelOut ∧
    (reduceF fuel (t, q) = .failed → NoSol t) ∧
    (∀ t2, reduceF fuel (t, q) = .ok t2 →
      Consistent t2 ∧ SaturatedT t2 ∧ shrinkT t t2 ∧
      (∀ d, t.board d ≠ ∅ → t2.board d ≠ ∅) ∧
      (∀ f : SolF, validF f → admitsT t f → admitsT t2 f)) := by
  intro fuel
  induction fuel with
  | zero =>
    intro t q hR hm
    exact absurd hm (Nat.not_lt_zero _)
  | succ fuel ih =>
    intro t q hR hm
    by_cases hqe : q.Nonempty
    · have hstepmem := q.min'_mem hqe
      set step := q.min' hqe with hstepdef
      obtain ⟨hnp, hfail, hok⟩ := processStep_spec t q step hR hstepmem
      cases hps : processStep (t, q.erase step) step with
      | panicked => exact absurd hps hnp
      | failed =>
        have he : reduceF (fuel + 1) (t, q) = .failed := by
          simp only [reduceF]
          rw [dif_pos hqe, ← hstepdef, hps]
        refine ⟨?_, ?_, ?_, ?_⟩
        · rw [he]
          intro h
          cases h
        · rw [he]
          intro h
          cases h
        · intro _
          exact hfail hps
        · intro t2 h
          rw [he] at h
          cases h
      | ok s2 =>
        obtain ⟨t1, q1⟩ := s2
        obtain ⟨hR1, hshr1, hne1, hadm1, hcle1, hdisj⟩ := hok t1 q1 hps
        have hqcard : 1 ≤ q.card := Finset.card_pos.mpr hqe
        have hm' : candsT t * 271 + q.card < fuel + 1 := by
          simpa [measureR] using hm
        have hm1 : measureR (t1, q1) < fuel := by
          have hgoal : candsT t1 * 271 + q1.card < fuel → measureR (t1, q1) < fuel := by
            intro h
            simpa [measureR] using h
          apply hgoal
          rcases hdisj with ⟨he1, he2⟩ | hlt
          · have hec : (q.erase step).card = q.card - 1 := Finset.card_erase_of_mem hstepmem
            rw [he1, he2, hec]
            omega
          · have h270 : q1.card ≤ 270 :=
              le_trans (Finset.card_le_univ q1) (le_of_eq reduceStep_card)
            have hmul : candsT t1 * 271 + 271 ≤ candsT t * 271 := by
              have h1 : candsT t1 + 1 ≤ candsT t := hlt
              calc candsT t1 * 271 + 271 = (candsT t1 + 1) * 271 := by ring
                _ ≤ candsT t * 271 := Nat.mul_le_mul_right _ h1
            omega
        obtain ⟨hnp2, hfo2, hfail2, hok2⟩ := ih t1 q1 hR1 hm1
        have he : reduceF (fuel + 1) (t, q) = reduceF fuel (t1, q1) := by
          simp only [reduceF]
          rw [dif_pos hqe, ← hstepdef, hps]
        refine ⟨?_, ?_, ?_, ?_⟩
        · rw [he]
          exact hnp2
        · rw [he]
          exact hfo2
        · rw [he]
          intro h f hf ha
          exact hfail2 h f hf (hadm1 f hf ha)
        · intro t2 h
          rw [he] at h
          obtain ⟨hC2, hSat2, hshr2, hne2, hadm2⟩ := hok2 t2 h
          exact ⟨hC2, hSat2, fun d => (hshr2 d).trans (hshr1 d),
            fun d hd => hne2 d (hne1 d hd), fun f hf ha => hadm2 f hf (hadm1 f hf ha)⟩
    · have he : reduceF (fuel + 1) (t, q) = .ok t := by
        simp only [reduceF]
        rw [dif_neg hqe]
      refine ⟨?_, ?_, ?_, ?_⟩
      · rw [he]
        intro h
        cases h
      · rw [he]
        intro h
        cases h
      · rw [he]
        intro h
        cases h
      · intro t2 h
        rw [he] at h
        injection h with h
        subst h
        refine ⟨hR.1, ?_, fun d => Finset.Subset.refl _, fun d h => h, fun f _ ha => ha⟩
        intro c v n hc hv hn hvn
        have hq0 : q = ∅ := Finset.not_nonempty_iff_eq_empty.mp hqe
        have hmem := hR.2.2.2 c v n (Option.some_ne_none c) hc hv hn hvn
        rw [hq0] at hmem
        exact absurd hmem (Finset.not_mem_empty _)

theorem mem_ite_push {cond : Prop} [Decidable cond] {step : ReduceStep} {q : Queue}
    {s : ReduceStep} :
    s ∈ (if cond then Queue.push step q else q) ↔ s ∈ q ∨ (cond ∧ s = step) := by
  split
  · rename_i h
    rw [mem_push]
    constructor
    · rintro (rfl | hs)
      · exact Or.inr ⟨h, rfl⟩
      · exact Or.inl hs
    · rintro (hs | ⟨-, rfl⟩)
      · exact Or.inr hs
      · exact Or.inl rfl
  · rename_i h
    constructor
    · exact Or.inl
    · rintro (hs | ⟨hc, -⟩)
      · exact hs
      · exact absurd hc h

theorem mem_foldl_push {α : Type} (g : α → Queue → Queue) (P : α → ReduceStep → Prop)
    (hg : ∀ x q s, s ∈ g x q ↔ s ∈ q ∨ P x s) :
    ∀ (l : List α) (init : Queue) (s : ReduceStep),
      s ∈ l.foldl (fun q x => g x q) init ↔ s ∈ init ∨ ∃ x ∈ l, P x s := by
  intro l
  induction l with
  | nil =>
    intro init s
    simp
  | cons a l ih =>
    intro init s
    rw [List.foldl_cons, ih, hg]
    constructor
    · rintro ((h | h) | ⟨x, hx, h⟩)
      · exact Or.inl h
      · exact Or.inr ⟨a, List.mem_cons_self _ _, h⟩
      · exact Or.inr ⟨x, List.mem_cons_of_mem _ hx, h⟩
    · rintro (h | ⟨x, hx, h⟩)
      · exact Or.inl (Or.inl h)
      · rcases List.mem_cons.mp hx with rfl | hx'
        · exact Or.inl (Or.inr h)
        · exact Or.inr ⟨x, hx', h⟩

theorem mem_rcsAll : ∀ z : Rcs, z ∈ rcsAll := by decide

theorem mem_srscAll : ∀ z : Srsc, z ∈ srscAll := by decide

/-- Membership in `build_queue`'s initial worklist. -/
theorem mem_buildQueue {t : RemainingTracker} {s : ReduceStep} :
    s ∈ buildQueue t ↔
      (∃ c, (t.board c).card = 1 ∧ s = .coordSingularized c) ∨
      (∃ z : Rcs, ((List.finRange 9).any fun v => decide (t.getRcs z v = 1)) = true ∧
        s = z.visit) ∨
      (∃ z : Srsc,
        (((t.getSrsc z).avail).card = 3 ∧ s = z.visitSizeMatch) ∨
        ((List.finRange 9).any (fun v => decide (t.getSrsc z v = t.getRcs z.line v)) = true ∧
          s = z.visitOnlyInLine) ∨
        ((List.finRange 9).any (fun v => decide (t.getSrsc z v = t.sectors z.sectorIdx v)) = true ∧
          s = z.visitOnlyInSec)) := by
  have hg0 : ∀ (c : Coord) (q : Queue) (s' : ReduceStep),
      s' ∈ (if (t.board c).card = 1 then Queue.push (.coordSingularized c) q else q) ↔
        s' ∈ q ∨ ((t.board c).card = 1 ∧ s' = .coordSingularized c) :=
    fun c q s' => mem_ite_push
  have hg1 : ∀ (z : Rcs) (q : Queue) (s' : ReduceStep),
      s' ∈ (if ((List.finRange 9).any fun v => decide (t.getRcs z v = 1)) then
          Queue.push z.visit q else q) ↔
        s' ∈ q ∨ (((List.finRange 9).any fun v => decide (t.getRcs z v = 1)) = true ∧
          s' = z.visit) :=
    fun z q s' => mem_ite_push
  have hg2 : ∀ (z : Srsc) (q : Queue) (s' : ReduceStep),
      s' ∈ (let a := t.getSrsc z
            let qa := if (AvailCounter.avail a).card = 3 then Queue.push z.visitSizeMatch q else q
            let qb :=
              if (List.finRange 9).any (fun v => decide (a v = t.getRcs z.line v)) then
                Queue.push z.visitOnlyInLine qa
              else qa
            if (List.finRange 9).any (fun v => decide (a v = t.sectors z.sectorIdx v)) then
              Queue.push z.visitOnlyInSec qb
            else qb) ↔
        s' ∈ q ∨ ((((t.getSrsc z).avail).card = 3 ∧ s' = z.visitSizeMatch) ∨
          ((List.finRange 9).any (fun v => decide (t.getSrsc z v = t.getRcs z.line v)) = true ∧
            s' = z.visitOnlyInLine) ∨
          ((List.finRange 9).any (fun v => decide (t.getSrsc z v = t.sectors z.sectorIdx v)) =
              true ∧ s' = z.visitOnlyInSec)) := by
    intro z q s'
    dsimp only
    rw [mem_ite_push, mem_ite_push, mem_ite_push]
    tauto
  refine Iff.trans (mem_foldl_push _ _ hg2 srscAll _ s) ?_
  refine Iff.trans (or_congr_left (mem_foldl_push _ _ hg1 rcsAll _ s)) ?_
  refine Iff.trans (or_congr_left (or_congr_left (mem_foldl_push _ _ hg0 Coord.allList ∅ s))) ?_
  constructor
  · rintro (((h | ⟨c, -, h1⟩) | ⟨z, -, h1⟩) | ⟨z, -, h1⟩)
    · exact absurd h (Finset.not_mem_empty _)
    · exact Or.inl ⟨c, h1⟩
    · exact Or.inr (Or.inl ⟨z, h1⟩)
    · exact Or.inr (Or.inr ⟨z, h1⟩)
  · rintro (⟨c, h1⟩ | ⟨z, h1⟩ | ⟨z, h1⟩)
    · exact Or.inl (Or.inl (Or.inr ⟨c, mem_allList c, h1⟩))
    · exact Or.inl (Or.inr ⟨z, mem_rcsAll z, h1⟩)
    · exact Or.inr ⟨z, mem_srscAll z, h1⟩

/-- A consistent tracker together with its freshly built queue satisfies
the reducer loop invariant. -/
theorem RInv_buildQueue (t : RemainingTracker) (hC : Consistent t) : RInv t (buildQueue t) := by
  refine ⟨hC, ?_, ⟨?_, ?_⟩, ?_⟩
  · intro c hc
    rcases mem_buildQueue.mp hc with ⟨d, h1, he⟩ | ⟨z, h1, he⟩ | ⟨z, h⟩
    · injection he with h2
      rw [h2]
      exact h1
    · cases z <;> simp [Rcs.visit] at he
    · rcases h with ⟨-, he⟩ | ⟨-, he⟩ | ⟨-, he⟩ <;>
        cases z <;>
          simp [Srsc.visitSizeMatch, Srsc.visitOnlyInLine, Srsc.visitOnlyInSec] at he
  · intro L hL
    rcases mem_buildQueue.mp hL with ⟨d, h1, he⟩ | ⟨z, h1, he⟩ | ⟨z, h⟩
    · exact ReduceStep.noConfusion he
    · cases z <;> simp [Rcs.visit] at he
    · rcases h with ⟨hcard, he⟩ | ⟨-, he⟩ | ⟨-, he⟩
      · cases z with
        | secRow M =>
          simp only [Srsc.visitSizeMatch, ReduceStep.secRowTripleized.injEq] at he
          subst he
          exact le_of_eq hcard
        | secCol M => simp [Srsc.visitSizeMatch] at he
      · cases z <;> simp [Srsc.visitOnlyInLine] at he
      · cases z <;> simp [Srsc.visitOnlyInSec] at he
  · intro L hL
    rcases mem_buildQueue.mp hL with ⟨d, h1, he⟩ | ⟨z, h1, he⟩ | ⟨z, h⟩
    · exact ReduceStep.noConfusion he
    · cases z <;> simp [Rcs.visit] at he
    · rcases h with ⟨hcard, he⟩ | ⟨-, he⟩ | ⟨-, he⟩
      · cases z with
        | secRow M => simp [Srsc.visitSizeMatch] at he
        | secCol M =>
          simp only [Srsc.visitSizeMatch, ReduceStep.secColTripleized.injEq] at he
          subst he
          exact le_of_eq hcard
      · cases z <;> simp [Srsc.visitOnlyInLine] at he
      · cases z <;> simp [Srsc.visitOnlyInSec] at he
  · intro c v n hce hc hv hn hvn
    exact mem_buildQueue.mpr (Or.inl ⟨c, hc, rfl⟩)

theorem candsT_le (t : RemainingTracker) : candsT t ≤ 729 := by
  unfold candsT
  have h9 : ∀ x ∈ Coord.allList.map fun c => (t.board c).card, x ≤ 9 := by
    intro x hx
    obtain ⟨c, -, rfl⟩ := List.mem_map.mp hx
    have := Finset.card_le_univ (t.board c)
    simpa using this
  have hlen : (Coord.allList.map fun c => (t.board c).card).length = 81 := by
    rw [List.length_map]
    decide
  have := List.sum_le_card_nsmul (Coord.allList.map fun c => (t.board c).card) 9 h9
  rw [hlen] at this
  simpa using this

/-- `DeductiveReducer::reduce` on a consistent tracker: never panics nor
exhausts its fuel; failure refutes every solution; success yields a
consistent, saturated tracker that only shrank and admits the same
solutions. -/
theorem reduceRun_spec (t : RemainingTracker) (hC : Consistent t) :
    reduceRun t ≠ .panicked ∧ reduceRun t ≠ .fuelOut ∧
    (reduceRun t = .failed → NoSol t) ∧
    (∀ t2, reduceRun t = .ok t2 → Consistent t2 ∧ SaturatedT t2 ∧ shrinkT t t2 ∧
      (∀ d, t.board d ≠ ∅ → t2.board d ≠ ∅) ∧
      (∀ f : SolF, validF f → admitsT t f → admitsT t2 f)) := by
  have hR := RInv_buildQueue t hC
  have hm : measureR (t, buildQueue t) < RFUEL := by
    have h1 : candsT t ≤ 729 := candsT_le t
    have h2 : (buildQueue t).card ≤ 270 :=
      le_trans (Finset.card_le_univ _) (le_of_eq reduceStep_card)
    have h3 : measureR (t, buildQueue t) = candsT t * 271 + (buildQueue t).card := by
      simp [measureR]
    rw [h3, RFUEL]
    omega
  exact reduceF_spec RFUEL t (buildQueue t) hR hm

theorem removeExcept_consistent_zone {a : AvailCounter} {g : Coord → AvailSet}
    {cells : List Coord} {c : Coord} {v : Val}
    (hn : cells.Nodup) (hmem : c ∈ cells) (hcu : g c = Finset.univ)
    (ha : ∀ w, a w = cellCount cells w g) (w : Val) :
    (a.removeExcept v) w = cellCount cells w (Function.update g c (AvailSet.only v)) := by
  rw [cellCount_update hn hmem]
  unfold AvailCounter.removeExcept AvailSet.only
  have hwb : w ∈ g c := by
    rw [hcu]
    exact Finset.mem_univ w
  have hpos : 0 < cellCount cells w g := cellCount_pos_of_mem hmem hwb
  rw [ha w]
  by_cases hwv : w = v
  · rw [if_pos hwv, if_pos hwb, if_pos (by rw [hwv]; exact Finset.mem_singleton_self v)]
    omega
  · rw [if_neg hwv, if_pos hwb, if_neg (by simp [hwv])]
    omega

theorem zone_unchanged_cellCount {a : AvailCounter} {g : Coord → AvailSet}
    {cells : List Coord} {c : Coord} (hnm : c ∉ cells) (s : AvailSet)
    (ha : ∀ w, a w = cellCount cells w g) (w : Val) :
    a w = cellCount cells w (Function.update g c s) := by
  rw [cellCount_update_not_mem hnm]
  exact ha w

/-- One `remove_except` seeding step of `RemainingTracker::new` keeps the
consistency law, provided the pinned cell still held all digits. -/
theorem new_step_consistent {t0 : RemainingTracker} (hC : Consistent t0) (c : Coord) (v : Val)
    (hcu : t0.board c = Finset.univ) :
    Consistent
      { board := Function.update t0.board c (AvailSet.only v)
        rows := Function.update t0.rows c.row ((t0.rows c.row).removeExcept v)
        cols := Function.update t0.cols c.col ((t0.cols c.col).removeExcept v)
        sectors := Function.update t0.sectors c.sector ((t0.sectors c.sector).removeExcept v)
        sectorRows :=
          Function.update t0.sectorRows c.sectorRow ((t0.sectorRows c.sectorRow).removeExcept v)
        sectorCols :=
          Function.update t0.sectorCols c.sectorCol
            ((t0.sectorCols c.sectorCol).removeExcept v) } := by
  constructor
  · intro z w
    cases z with
    | row r =>
      show Function.update t0.rows c.row ((t0.rows c.row).removeExcept v) r w = _
      by_cases hr : r = c.row
      · subst hr
        rw [Function.update_same]
        exact removeExcept_consistent_zone (rcs_cells_nodup _) (cell_mem_row c) hcu
          (fun w' => hC.1 (.row c.row) w') w
      · rw [Function.update_noteq hr]
        exact zone_unchanged_cellCount (fun hmem => hr ((mem_rowCells c r).mp hmem).symm)
          (AvailSet.only v) (fun w' => hC.1 (.row r) w') w
    | col k =>
      show Function.update t0.cols c.col ((t0.cols c.col).removeExcept v) k w = _
      by_cases hk : k = c.col
      · subst hk
        rw [Function.update_same]
        exact removeExcept_consistent_zone (rcs_cells_nodup _) (cell_mem_col c) hcu
          (fun w' => hC.1 (.col c.col) w') w
      · rw [Function.update_noteq hk]
        exact zone_unchanged_cellCount (fun hmem => hk ((mem_colCells c k).mp hmem).symm)
          (AvailSet.only v) (fun w' => hC.1 (.col k) w') w
    | sector i =>
      show Function.update t0.sectors c.sector ((t0.sectors c.sector).removeExcept v) i w = _
      by_cases hi : i = c.sector
      · subst hi
        rw [Function.update_same]
        exact removeExcept_consistent_zone (rcs_cells_nodup _) (cell_mem_sector c) hcu
          (fun w' => hC.1 (.sector c.sector) w') w
      · rw [Function.update_noteq hi]
        exact zone_unchanged_cellCount (fun hmem => hi ((mem_sectorCells c i).mp hmem).symm)
          (AvailSet.only v) (fun w' => hC.1 (.sector i) w') w
  · intro z w
    cases z with
    | secRow L =>
      show Function.update t0.sectorRows c.sectorRow
          ((t0.sectorRows c.sectorRow).removeExcept v) L w = _
      by_cases hL : L = c.sectorRow
      · subst hL
        rw [Function.update_same]
        exact removeExcept_consistent_zone (srsc_cells_nodup _) (cell_mem_secRow c) hcu
          (fun w' => hC.2 (.secRow c.sectorRow) w') w
      · rw [Function.update_noteq hL]
        exact zone_unchanged_cellCount (fun hmem => hL ((mem_secRowCells c L).mp hmem).symm)
          (AvailSet.only v) (fun w' => hC.2 (.secRow L) w') w
    | secCol L =>
      show Function.update t0.sectorCols c.sectorCol
          ((t0.sectorCols c.sectorCol).removeExcept v) L w = _
      by_cases hL : L = c.sectorCol
      · subst hL
        rw [Function.update_same]
        exact removeExcept_consistent_zone (srsc_cells_nodup _) (cell_mem_secCol c) hcu
          (fun w' => hC.2 (.secCol c.sectorCol) w') w
      · rw [Function.update_noteq hL]
        exact zone_unchanged_cellCount (fun hmem => hL ((mem_secColCells c L).mp hmem).symm)
          (AvailSet.only v) (fun w' => hC.2 (.secCol L) w') w

theorem init_tracker_consistent : Consistent
    { board := fun _ => Finset.univ
      rows := fun _ _ => 9
      cols := fun _ _ => 9
      sectors := fun _ _ => 9
      sectorRows := fun _ _ => 3
      sectorCols := fun _ _ => 3 } := by
  constructor
  · intro z w
    cases z with
    | row r =>
      show (9 : Nat) = cellCount (Rcs.cells (.row r)) w fun _ => Finset.univ
      unfold cellCount
      rw [List.countP_eq_length.mpr fun a _ => by simp, rcs_cells_length]
    | col k =>
      show (9 : Nat) = cellCount (Rcs.cells (.col k)) w fun _ => Finset.univ
      unfold cellCount
      rw [List.countP_eq_length.mpr fun a _ => by simp, rcs_cells_length]
    | sector i =>
      show (9 : Nat) = cellCount (Rcs.cells (.sector i)) w fun _ => Finset.univ
      unfold cellCount
      rw [List.countP_eq_length.mpr fun a _ => by simp, rcs_cells_length]
  · intro z w
    cases z with
    | secRow L =>
      show (3 : Nat) = cellCount (Srsc.cells (.secRow L)) w fun _ => Finset.univ
      unfold cellCount
      rw [List.countP_eq_length.mpr fun a _ => by simp, srsc_cells_length]
    | secCol L =>
      show (3 : Nat) = cellCount (Srsc.cells (.secCol L)) w fun _ => Finset.univ
      unfold cellCount
      rw [List.countP_eq_length.mpr fun a _ => by simp, srsc_cells_length]

/-- Invariant of `RemainingTracker::new`'s seeding fold: consistency is
maintained and each cell's digit set is pinned exactly when its coordinate
was visited with a pinned value. -/
theorem new_foldl_spec (b : Board) :
    ∀ (l : List Coord) (t0 : RemainingTracker), l.Nodup → Consistent t0 →
      (∀ c ∈ l, t0.board c = Finset.univ) →
      Consistent (l.foldl (fun t c =>
        match b c with
        | none => t
        | some v =>
          { board := Function.update t.board c (AvailSet.only v)
            rows := Function.update t.rows c.row ((t.rows c.row).removeExcept v)
            cols := Function.update t.cols c.col ((t.cols c.col).removeExcept v)
            sectors := Function.update t.sectors c.sector ((t.sectors c.sector).removeExcept v)
            sectorRows :=
              Function.update t.sectorRows c.sectorRow
                ((t.sectorRows c.sectorRow).removeExcept v)
            sectorCols :=
              Function.update t.sectorCols c.sectorCol
                ((t.sectorCols c.sectorCol).removeExcept v) }) t0) ∧
      (∀ c, (l.foldl (fun t c =>
        match b c with
        | none => t
        | some v =>
          { board := Function.update t.board c (AvailSet.only v)
            rows := Function.update t.rows c.row ((t.rows c.row).removeExcept v)
            cols := Function.update t.cols c.col ((t.cols c.col).removeExcept v)
            sectors := Function.update t.sectors c.sector ((t.sectors c.sector).removeExcept v)
            sectorRows :=
              Function.update t.sectorRows c.sectorRow
                ((t.sectorRows c.sectorRow).removeExcept v)
            sectorCols :=
              Function.update t.sectorCols c.sectorCol
                ((t.sectorCols c.sectorCol).removeExcept v) }) t0).board c =
        match b c with
        | none => t0.board c
        | some v => if c ∈ l then {v} else t0.board c) := by
  intro l
  induction l with
  | nil =>
    intro t0 hn hC hu
    refine ⟨hC, ?_⟩
    intro c
    cases hbc : b c with
    | none => rfl
    | some v => simp
  | cons c rest ih =>
    intro t0 hn hC hu
    rw [List.nodup_cons] at hn
    rw [List.foldl_cons]
    cases hbc : b c with
    | none =>
      simp only [hbc]
      obtain ⟨hC2, hB2⟩ := ih t0 hn.2 hC fun d hd => hu d (List.mem_cons_of_mem _ hd)
      refine ⟨hC2, ?_⟩
      intro d
      rw [hB2 d]
      cases hbd : b d with
      | none => rfl
      | some w =>
        dsimp only
        by_cases hdc : d = c
        · subst hdc
          rw [hbd] at hbc
          cases hbc
        · by_cases hdm : d ∈ rest
          · rw [if_pos hdm, if_pos (List.mem_cons_of_mem _ hdm)]
          · rw [if_neg hdm, if_neg (by
              intro hmem
              rcases List.mem_cons.mp hmem with h | h
              · exact hdc h
              · exact hdm h)]
    | some v =>
      simp only [hbc]
      have hcu : t0.board c = Finset.univ := hu c (List.mem_cons_self _ _)
      have hC1 := new_step_consistent hC c v hcu
      have hu1 : ∀ d ∈ rest, (RemainingTracker.mk (Function.update t0.board c (AvailSet.only v))
          (Function.update t0.rows c.row ((t0.rows c.row).removeExcept v))
          (Function.update t0.cols c.col ((t0.cols c.col).removeExcept v))
          (Function.update t0.sectors c.sector ((t0.sectors c.sector).removeExcept v))
          (Function.update t0.sectorRows c.sectorRow ((t0.sectorRows c.sectorRow).removeExcept v))
          (Function.update t0.sectorCols c.sectorCol
            ((t0.sectorCols c.sectorCol).removeExcept v))).board d = Finset.univ := by
        intro d hd
        show Function.update t0.board c (AvailSet.only v) d = Finset.univ
        rw [Function.update_noteq (ne_of_mem_of_not_mem hd hn.1)]
        exact hu d (List.mem_cons_of_mem _ hd)
      obtain ⟨hC2, hB2⟩ := ih _ hn.2 hC1 hu1
      refine ⟨hC2, ?_⟩
      intro d
      rw [hB2 d]
      cases hbd : b d with
      | none =>
        show Function.update t0.board c (AvailSet.only v) d = t0.board d
        by_cases hdc : d = c
        · subst hdc
          rw [hbd] at hbc
          cases hbc
        · rw [Function.update_noteq hdc]
      | some w =>
        dsimp only
        by_cases hdr : d ∈ rest
        · rw [if_pos hdr, if_pos (List.mem_cons_of_mem _ hdr)]
        · rw [if_neg hdr]
          by_cases hdc : d = c
          · subst hdc
            have hvw : v = w := by
              rw [hbd] at hbc
              injection hbc with h
              exact h.symm
            show Function.update t0.board d (AvailSet.only v) d = _
            rw [Function.update_same, if_pos (List.mem_cons_self _ _)]
            rw [hvw]
            rfl
          · rw [if_neg (by
              intro hmem
              rcases List.mem_cons.mp hmem with h | h
              · exact hdc h
              · exact hdr h)]
            show Function.update t0.board c (AvailSet.only v) d = t0.board d
            rw [Function.update_noteq hdc]

/-- `RemainingTracker::new` always satisfies the consistency law. -/
theorem new_consistent (b : Board) : Consistent (RemainingTracker.new b) :=
  (new_foldl_spec b Coord.allList
    { board := fun _ => Finset.univ
      rows := fun _ _ => 9
      cols := fun _ _ => 9
      sectors := fun _ _ => 9
      sectorRows := fun _ _ => 3
      sectorCols := fun _ _ => 3 }
    allList_nodup init_tracker_consistent fun c _ => rfl).1

/-- Closed form of `RemainingTracker::new`'s cell sets: pinned cells hold
exactly their pin, all other cells hold all nine digits. -/
theorem new_board (b : Board) (c : Coord) :
    (RemainingTracker.new b).board c =
      match b c with
      | none => Finset.univ
      | some v => {v} := by
  have h := (new_foldl_spec b Coord.allList
    { board := fun _ => Finset.univ
      rows := fun _ _ => 9
      cols := fun _ _ => 9
      sectors := fun _ _ => 9
      sectorRows := fun _ _ => 3
      sectorCols := fun _ _ => 3 }
    allList_nodup init_tracker_consistent fun c _ => rfl).2 c
  have h2 : (RemainingTracker.new b).board c =
      match b c with
      | none => Finset.univ
      | some v => if c ∈ Coord.allList then {v} else Finset.univ := h
  rw [h2]
  cases b c with
  | none => rfl
  | some v =>
    dsimp only
    rw [if_pos (mem_allList c)]

theorem sum_if_mem_card : ∀ s : AvailSet,
    ((List.finRange 9).map fun v => if v ∈ s then 1 else 0).sum = s.card := by decide

theorem sum_map_add {α : Type} (l : List α) (f g : α → Nat) :
    (l.map fun x => f x + g x).sum = (l.map f).sum + (l.map g).sum := by
  induction l with
  | nil => rfl
  | cons a l ih =>
    simp only [List.map_cons, List.sum_cons, ih]
    omega

theorem cellCount_sum_exchange (cells : List Coord) (g : Coord → AvailSet) :
    ((List.finRange 9).map fun v => cellCount cells v g).sum =
      (cells.map fun c => (g c).card).sum := by
  induction cells with
  | nil =>
    simp [cellCount]
  | cons c tl ih =>
    have h1 : ∀ v ∈ List.finRange 9, cellCount (c :: tl) v g =
        cellCount tl v g + (if v ∈ g c then 1 else 0) := by
      intro v _
      unfold cellCount
      rw [List.countP_cons]
      simp
    rw [List.map_congr_left h1, sum_map_add, ih, sum_if_mem_card]
    simp only [List.map_cons, List.sum_cons]
    omega

theorem length_le_sum_of_one_le {l : List Nat} (h : ∀ x ∈ l, 1 ≤ x) : l.length ≤ l.sum := by
  induction l with
  | nil => exact le_refl _
  | cons a tl ih =>
    have h1 := h a (List.mem_cons_self _ _)
    have h2 := ih fun x hx => h x (List.mem_cons_of_mem _ hx)
    simp only [List.length_cons, List.sum_cons]
    omega

theorem all_ones_of_sum {l : List Nat} (h : ∀ x ∈ l, 1 ≤ x) (hs : l.sum = l.length) :
    ∀ x ∈ l, x = 1 := by
  induction l with
  | nil => intro x hx; cases hx
  | cons a tl ih =>
    intro x hx
    have h1 := h a (List.mem_cons_self _ _)
    have h2 := length_le_sum_of_one_le fun y hy => h y (List.mem_cons_of_mem _ hy)
    simp only [List.sum_cons, List.length_cons] at hs
    rcases List.mem_cons.mp hx with rfl | hxtl
    · omega
    · exact ih (fun y hy => h y (List.mem_cons_of_mem _ hy)) (by omega) x hxtl

theorem countP_le_one {l : List Coord} {p : Coord → Bool} (hn : l.Nodup)
    (h : ∀ c1 ∈ l, ∀ c2 ∈ l, p c1 → p c2 → c1 = c2) : l.countP p ≤ 1 := by
  rw [List.countP_eq_length_filter]
  rcases hl : l.filter p with _ | ⟨x, _ | ⟨y, tl⟩⟩
  · simp
  · simp
  · exfalso
    have hnf : (l.filter p).Nodup := hn.filter p
    rw [hl] at hnf
    rw [List.nodup_cons] at hnf
    have hxy : x ≠ y := fun he => hnf.1 (he ▸ List.mem_cons_self _ _)
    have hx : x ∈ l.filter p := by rw [hl]; exact List.mem_cons_self _ _
    have hy : y ∈ l.filter p := by
      rw [hl]
      exact List.mem_cons_of_mem _ (List.mem_cons_self _ _)
    rw [List.mem_filter] at hx hy
    exact hxy (h x hx.1 y hy.1 hx.2 hy.2)

/-- A consistent tracker with no empty cell whose `is_solved` test holds
has every cell singular, and reading it back yields a filled board with
each digit exactly once per row, column and sector. -/
theorem solvedT_spec (t : RemainingTracker) (hC : Consistent t) (hNE : NoEmpty t)
    (hS : t.isSolved = true) :
    (∀ c, (t.board c).card = 1) ∧ filledB t.intoBoard ∧ zonesOnceB t.intoBoard ∧
    (∀ c w, t.intoBoard c = some w → t.board c = {w}) := by
  have hS' : (∀ r v, t.rows r v = 1) ∧ (∀ k v, t.cols k v = 1) ∧ (∀ i v, t.sectors i v = 1) := by
    have hx := hS
    simp only [RemainingTracker.isSolved, Bool.and_eq_true, List.all_eq_true, isSolvedZone,
      decide_eq_true_eq, List.mem_finRange, true_implies] at hx
    exact ⟨fun r v => hx.1.1 r v, fun k v => hx.1.2 k v, fun i v => hx.2 i v⟩
  have hgr : ∀ (z : Rcs) (v : Val), t.getRcs z v = 1 := by
    intro z v
    cases z with
    | row r => exact hS'.1 r v
    | col k => exact hS'.2.1 k v
    | sector i => exact hS'.2.2 i v
  have hcard1 : ∀ c, (t.board c).card = 1 := by
    intro c
    have hsum : ((List.finRange 9).map fun v => cellCount (Rcs.cells (.row c.row)) v t.board).sum
        = 9 := by
      have hcc : ∀ v ∈ List.finRange 9, cellCount (Rcs.cells (.row c.row)) v t.board = 1 := by
        intro v _
        rw [← hC.1 (.row c.row) v]
        exact hgr (.row c.row) v
      rw [List.map_congr_left hcc]
      rfl
    rw [cellCount_sum_exchange] at hsum
    have hlen : ((Rcs.cells (.row c.row)).map fun d => (t.board d).card).length = 9 := by
      rw [List.length_map, rcs_cells_length]
    have hone : ∀ x ∈ (Rcs.cells (.row c.row)).map fun d => (t.board d).card, 1 ≤ x := by
      intro x hx
      obtain ⟨d, -, rfl⟩ := List.mem_map.mp hx
      exact Finset.card_pos.mpr (Finset.nonempty_iff_ne_empty.mpr (hNE d))
    have hall := all_ones_of_sum hone (by rw [hlen]; exact hsum)
    exact hall _ (List.mem_map.mpr ⟨c, cell_mem_row c, rfl⟩)
  have hsingle : ∀ c, ∃ w, t.board c = {w} ∧ t.intoBoard c = some w := by
    intro c
    obtain ⟨w, hw, hgs⟩ := card_eq_one_getSingle (hcard1 c)
    exact ⟨w, hw, hgs⟩
  have hmemiff : ∀ c v, t.intoBoard c = some v ↔ v ∈ t.board c := by
    intro c v
    obtain ⟨w, hw, hgs⟩ := hsingle c
    rw [hgs, hw]
    constructor
    · intro h
      injection h with h
      rw [h]
      exact Finset.mem_singleton_self v
    · intro h
      rw [Finset.mem_singleton.mp h]
  refine ⟨hcard1, ?_, ?_, ?_⟩
  · intro c
    obtain ⟨w, -, hgs⟩ := hsingle c
    rw [hgs]
    intro h
    cases h
  · intro v i
    have hcongr : ∀ kind : Rcs, (kind.cells.countP fun c => decide (t.intoBoard c = some v)) =
        cellCount kind.cells v t.board := by
      intro kind
      refine List.countP_congr ?_
      intro c _
      simp only [decide_eq_true_eq]
      exact hmemiff c v
    have h1 := hcongr (.row i)
    have h2 := hcongr (.col i)
    have h3 := hcongr (.sector i)
    refine ⟨?_, ?_, ?_⟩
    · rw [show ((rowCells i).countP fun c => decide (t.intoBoard c = some v)) =
          cellCount (Rcs.cells (.row i)) v t.board from h1, ← hC.1 (.row i) v]
      exact hgr (.row i) v
    · rw [show ((colCells i).countP fun c => decide (t.intoBoard c = some v)) =
          cellCount (Rcs.cells (.col i)) v t.board from h2, ← hC.1 (.col i) v]
      exact hgr (.col i) v
    · rw [show ((sectorCells i).countP fun c => decide (t.intoBoard c = some v)) =
          cellCount (Rcs.cells (.sector i)) v t.board from h3, ← hC.1 (.sector i) v]
      exact hgr (.sector i) v
  · intro c w h
    exact AvailSet.getSingle_eq_some.mp h

theorem new_noEmpty (b : Board) : NoEmpty (RemainingTracker.new b) := by
  intro c
  rw [new_board]
  cases b c with
  | none => exact Finset.univ_nonempty.ne_empty
  | some v => exact Finset.singleton_ne_empty v

/-- `Board::is_solved` through the tracker: true exactly for filled boards
whose rows, columns and sectors each hold every digit once. -/
theorem isSolved_iff (b : Board) :
    (RemainingTracker.new b).isSolved = true ↔ filledB b ∧ zonesOnceB b := by
  constructor
  · intro hS
    obtain ⟨hcard1, hfill, hzone, hsingle⟩ :=
      solvedT_spec _ (new_consistent b) (new_noEmpty b) hS
    have hfb : filledB b := by
      intro c hc
      have h9 := hcard1 c
      rw [new_board b c, hc] at h9
      exact absurd h9 (by decide)
    have hib : ∀ c, (RemainingTracker.new b).intoBoard c = b c := by
      intro c
      cases hbc : b c with
      | none => exact absurd hbc (hfb c)
      | some v =>
        show ((RemainingTracker.new b).board c).getSingle = some v
        rw [new_board b c, hbc]
        exact AvailSet.getSingle_only v
    refine ⟨hfb, ?_⟩
    intro v i
    have hz := hzone v i
    have hcg : ∀ l : List Coord, (l.countP fun c => decide (b c = some v)) =
        l.countP fun c => decide ((RemainingTracker.new b).intoBoard c = some v) := by
      intro l
      refine List.countP_congr ?_
      intro c _
      rw [hib c]
    exact ⟨by rw [hcg]; exact hz.1, by rw [hcg]; exact hz.2.1, by rw [hcg]; exact hz.2.2⟩
  · rintro ⟨hf, hz⟩
    have key : ∀ (z : Rcs) (v : Val), (RemainingTracker.new b).getRcs z v = 1 := by
      intro z v
      rw [(new_consistent b).1 z v]
      have hcongr : cellCount z.cells v (RemainingTracker.new b).board =
          z.cells.countP fun c => decide (b c = some v) := by
        refine List.countP_congr ?_
        intro c _
        simp only [decide_eq_true_eq]
        rw [new_board b c]
        cases hbc : b c with
        | none => exact absurd hbc (hf c)
        | some w =>
          dsimp only
          constructor
          · intro h
            exact congrArg some (Finset.mem_singleton.mp h).symm
          · intro h
            injection h with h
            rw [h]
            exact Finset.mem_singleton_self v
      rw [hcongr]
      cases z with
      | row r => exact (hz v r).1
      | col k => exact (hz v k).2.1
      | sector s => exact (hz v s).2.2
    simp only [RemainingTracker.isSolved, Bool.and_eq_true, List.all_eq_true, isSolvedZone,
      decide_eq_true_eq, List.mem_finRange, true_implies]
    exact ⟨⟨fun r v => key (.row r) v, fun k v => key (.col k) v⟩, fun i v => key (.sector i) v⟩

theorem subSet_cellCount {a : AvailCounter} {g : Coord → AvailSet} {cells : List Coord}
    {c : Coord} {v : Val} (hn : cells.Nodup) (hmem : c ∈ cells)
    (ha : ∀ w, a w = cellCount cells w g) (hv : v ∈ g c) (w : Val) :
    (a.subSet ((g c).erase v)) w =
      cellCount cells w (Function.update g c (AvailSet.only v)) := by
  rw [AvailCounter.subSet_apply, cellCount_update hn hmem, ha w]
  by_cases hw : w ∈ (g c).erase v
  · have hw1 : w ∈ g c := Finset.mem_of_mem_erase hw
    have hw2 : w ≠ v := Finset.ne_of_mem_erase hw
    rw [if_pos hw, if_pos hw1, if_neg (by simp [AvailSet.only, hw2])]
    omega
  · rw [if_neg hw]
    by_cases hwv : w = v
    · subst hwv
      have hpos := cellCount_pos_of_mem hmem hv
      rw [if_pos hv, if_pos (by simp [AvailSet.only])]
      omega
    · have hnw : w ∉ g c := fun hmem2 => hw (Finset.mem_erase.mpr ⟨hwv, hmem2⟩)
      rw [if_neg hnw, if_neg (by simp [AvailSet.only, hwv])]
      omega

/-- The direct counter adjustment performed on each `specify_one` clone
keeps the consistency law. -/
theorem branchClone_consistent {t : RemainingTracker} (hC : Consistent t) (c : Coord) (v : Val)
    (hv : v ∈ t.board c) : Consistent (branchClone t c (t.board c) v) := by
  constructor
  · intro z w
    cases z with
    | row r =>
      show Function.update t.rows c.row ((t.rows c.row).subSet ((t.board c).erase v)) r w = _
      by_cases hr : r = c.row
      · subst hr
        rw [Function.update_same]
        exact subSet_cellCount (rcs_cells_nodup _) (cell_mem_row c)
          (fun w' => hC.1 (.row c.row) w') hv w
      · rw [Function.update_noteq hr]
        exact zone_unchanged_cellCount (fun hmem => hr ((mem_rowCells c r).mp hmem).symm)
          (AvailSet.only v) (fun w' => hC.1 (.row r) w') w
    | col k =>
      show Function.update t.cols c.col ((t.cols c.col).subSet ((t.board c).erase v)) k w = _
      by_cases hk : k = c.col
      · subst hk
        rw [Function.update_same]
        exact subSet_cellCount (rcs_cells_nodup _) (cell_mem_col c)
          (fun w' => hC.1 (.col c.col) w') hv w
      · rw [Function.update_noteq hk]
        exact zone_unchanged_cellCount (fun hmem => hk ((mem_colCells c k).mp hmem).symm)
          (AvailSet.only v) (fun w' => hC.1 (.col k) w') w
    | sector i =>
      show Function.update t.sectors c.sector
          ((t.sectors c.sector).subSet ((t.board c).erase v)) i w = _
      by_cases hi : i = c.sector
      · subst hi
        rw [Function.update_same]
        exact subSet_cellCount (rcs_cells_nodup _) (cell_mem_sector c)
          (fun w' => hC.1 (.sector c.sector) w') hv w
      · rw [Function.update_noteq hi]
        exact zone_unchanged_cellCount (fun hmem => hi ((mem_sectorCells c i).mp hmem).symm)
          (AvailSet.only v) (fun w' => hC.1 (.sector i) w') w
  · intro z w
    cases z with
    | secRow L =>
      show Function.update t.sectorRows c.sectorRow
          ((t.sectorRows c.sectorRow).subSet ((t.board c).erase v)) L w = _
      by_cases hL : L = c.sectorRow
      · subst hL
        rw [Function.update_same]
        exact subSet_cellCount (srsc_cells_nodup _) (cell_mem_secRow c)
          (fun w' => hC.2 (.secRow c.sectorRow) w') hv w
      · rw [Function.update_noteq hL]
        exact zone_unchanged_cellCount (fun hmem => hL ((mem_secRowCells c L).mp hmem).symm)
          (AvailSet.only v) (fun w' => hC.2 (.secRow L) w') w
    | secCol L =>
      show Function.update t.sectorCols c.sectorCol
          ((t.sectorCols c.sectorCol).subSet ((t.board c).erase v)) L w = _
      by_cases hL : L = c.sectorCol
      · subst hL
        rw [Function.update_same]
        exact subSet_cellCount (srsc_cells_nodup _) (cell_mem_secCol c)
          (fun w' => hC.2 (.secCol c.sectorCol) w') hv w
      · rw [Function.update_noteq hL]
        exact zone_unchanged_cellCount (fun hmem => hL ((mem_secColCells c L).mp hmem).symm)
          (AvailSet.only v) (fun w' => hC.2 (.secCol L) w') w

/-- A tracker flagged `known_unsolveable` admits no valid solution, given
consistency. -/
theorem knownUnsolveable_noSol {t : RemainingTracker} (hC : Consistent t)
    (hk : t.knownUnsolveable = true) : NoSol t := by
  intro f hf ha
  have hzone : ∀ z : Rcs, ((t.getRcs z).avail).card < 9 → False := by
    intro z hlt
    have hex : ∃ v : Val, v ∉ (t.getRcs z).avail := by
      by_contra hall
      push_neg at hall
      have hsub : (Finset.univ : Finset Val) ⊆ (t.getRcs z).avail := fun v _ => hall v
      have hcard := Finset.card_le_card hsub
      have h9 : (Finset.univ : Finset Val).card = 9 := by decide
      omega
    obtain ⟨v, hv⟩ := hex
    rw [AvailCounter.mem_avail] at hv
    obtain ⟨e, he, hfe⟩ := validF_exists_cell hf z v
    have hpos : 0 < cellCount z.cells v t.board := cellCount_pos_of_mem he (hfe ▸ ha e)
    have hcc := hC.1 z v
    omega
  unfold RemainingTracker.knownUnsolveable at hk
  simp only [Bool.or_eq_true, List.any_eq_true, decide_eq_true_eq] at hk
  rcases hk with ((hA | hB) | hc') | hD
  · obtain ⟨c, -, h0⟩ := hA
    have hm := ha c
    rw [Finset.card_eq_zero.mp h0] at hm
    exact absurd hm (Finset.not_mem_empty _)
  · obtain ⟨r, -, hlt⟩ := hB
    exact hzone (.row r) hlt
  · obtain ⟨k, -, hlt⟩ := hc'
    exact hzone (.col k) hlt
  · obtain ⟨i, -, hlt⟩ := hD
    exact hzone (.sector i) hlt

/-- On a tracker whose cells are all already singular and which admits a
valid solution, the reducer only drains its queue and returns the tracker
unchanged. -/
theorem reduceF_noop : ∀ (fuel : Nat) (t : RemainingTracker) (q : Queue),
    RInv t q → (∀ c, (t.board c).card = 1) → (∃ f : SolF, validF f ∧ admitsT t f) →
    q.card < fuel → reduceF fuel (t, q) = .ok t := by
  intro fuel
  induction fuel with
  | zero =>
    intro t q _ _ _ h
    exact absurd h (Nat.not_lt_zero _)
  | succ fuel ih =>
    intro t q hR hcards hsol hfq
    by_cases hqe : q.Nonempty
    · have hstepmem := q.min'_mem hqe
      set step := q.min' hqe with hstepdef
      obtain ⟨hnp, hfail, hok⟩ := processStep_spec t q step hR hstepmem
      cases hps : processStep (t, q.erase step) step with
      | panicked => exact absurd hps hnp
      | failed =>
        exfalso
        obtain ⟨f, hf, ha⟩ := hsol
        exact hfail hps f hf ha
      | ok s2 =>
        obtain ⟨t1, q1⟩ := s2
        obtain ⟨hR1, hshr1, hne1, hadm1, hcle1, hdisj⟩ := hok t1 q1 hps
        have heqt : t1 = t ∧ q1 = q.erase step := by
          rcases hdisj with h | hlt
          · exact h
          · exfalso
            have hc81 : candsT t = 81 := by
              unfold candsT
              rw [List.map_congr_left fun c _ => hcards c]
              rfl
            have hone1 : ∀ c ∈ Coord.allList, 1 ≤ (t1.board c).card := by
              intro c _
              refine Finset.card_pos.mpr (Finset.nonempty_iff_ne_empty.mpr (hne1 c ?_))
              intro he
              have hcc := hcards c
              rw [he] at hcc
              simp at hcc
            have hge : 81 ≤ candsT t1 := by
              have hlen : (Coord.allList.map fun c => (t1.board c).card).length = 81 := by
                rw [List.length_map]
                decide
              have hls := length_le_sum_of_one_le
                (l := Coord.allList.map fun c => (t1.board c).card) ?_
              · unfold candsT
                omega
              · intro x hx
                obtain ⟨c, hc, rfl⟩ := List.mem_map.mp hx
                exact hone1 c hc
            omega
        obtain ⟨ht1, hq1⟩ := heqt
        rw [ht1, hq1] at hR1
        have he : reduceF (fuel + 1) (t, q) = reduceF fuel (t1, q1) := by
          simp only [reduceF]
          rw [dif_pos hqe, ← hstepdef, hps]
        rw [he, ht1, hq1]
        refine ih t (q.erase step) hR1 hcards hsol ?_
        have hec := Finset.card_erase_of_mem hstepmem
        have hqc : 1 ≤ q.card := Finset.card_pos.mpr hqe
        omega
    · simp only [reduceF]
      rw [dif_neg hqe]

/-- `Board::solve` on an already-solved board: the first reduction is a
no-op, the solved test fires, and the board reads back unchanged. -/
theorem solve_solved_eq (s : Board) (hS : (RemainingTracker.new s).isSolved = true) :
    Board.solve s = some s := by
  obtain ⟨hcard1, hfill, hzone, hsingle⟩ :=
    solvedT_spec _ (new_consistent s) (new_noEmpty s) hS
  have hfb : filledB s := (isSolved_iff s).mp hS |>.1
  have hfex : ∃ f : SolF, validF f ∧ admitsT (RemainingTracker.new s) f := by
    refine ⟨fun c => ((RemainingTracker.new s).board c).min'
      (Finset.card_pos.mp (by rw [hcard1 c]; omega)), ?_, ?_⟩
    · have hfiff : ∀ (c : Coord) (v : Val),
          (((RemainingTracker.new s).board c).min'
              (Finset.card_pos.mp (by rw [hcard1 c]; omega)) = v) ↔
            (RemainingTracker.new s).intoBoard c = some v := by
        intro c v
        obtain ⟨w, hw, hgs⟩ := card_eq_one_getSingle (hcard1 c)
        have hmin : ((RemainingTracker.new s).board c).min'
            (Finset.card_pos.mp (by rw [hcard1 c]; omega)) = w := by
          have hm2 : ((RemainingTracker.new s).board c).min'
              (Finset.card_pos.mp (by rw [hcard1 c]; omega)) ∈ ({w} : AvailSet) := by
            rw [← hw]
            exact Finset.min'_mem _ _
          exact Finset.mem_singleton.mp hm2
        rw [hmin]
        show (w = v) ↔ ((RemainingTracker.new s).board c).getSingle = some v
        rw [hgs]
        constructor
        · intro h
          exact congrArg some h
        · intro h
          injection h with h
      intro v i
      have hz := hzone v i
      have hcg : ∀ l : List Coord,
          (l.countP fun c => decide (((RemainingTracker.new s).board c).min'
            (Finset.card_pos.mp (by rw [hcard1 c]; omega)) = v)) =
          l.countP fun c => decide ((RemainingTracker.new s).intoBoard c = some v) := by
        intro l
        refine List.countP_congr ?_
        intro c _
        simp only [decide_eq_true_eq]
        exact hfiff c v
      exact ⟨by rw [hcg]; exact hz.1, by rw [hcg]; exact hz.2.1, by rw [hcg]; exact hz.2.2⟩
    · intro c
      exact Finset.min'_mem _ _
  have hred : reduceRun (RemainingTracker.new s) = .ok (RemainingTracker.new s) := by
    refine reduceF_noop RFUEL _ _ (RInv_buildQueue _ (new_consistent s)) hcard1 hfex ?_
    have h2 : (buildQueue (RemainingTracker.new s)).card ≤ 270 :=
      le_trans (Finset.card_le_univ _) (le_of_eq reduceStep_card)
    show _ < RFUEL
    unfold RFUEL
    omega
  have hib : (RemainingTracker.new s).intoBoard = s := by
    funext c
    cases hbc : s c with
    | none => exact absurd hbc (hfb c)
    | some v =>
      show ((RemainingTracker.new s).board c).getSingle = some v
      rw [new_board s c, hbc]
      exact AvailSet.getSingle_only v
  obtain ⟨m, hm⟩ : ∃ m, SFUEL = m + 1 :=
    ⟨SFUEL - 1, (Nat.sub_add_cancel (Nat.one_le_iff_ne_zero.mpr (by unfold SFUEL; positivity))).symm⟩
  have he : solveF (m + 1) [(0, RemainingTracker.new s)] = some (some s) := by
    simp only [solveF, hred]
    rw [if_pos hS, hib]
  unfold Board.solve
  rw [hm, he]

theorem find?_first {α : Type} (p : α → Bool) :
    ∀ (l : List α) (c : α), l.find? p = some c →
      p c = true ∧ ∃ l1 l2, l = l1 ++ c :: l2 ∧ ∀ x ∈ l1, p x = false := by
  intro l
  induction l with
  | nil =>
    intro c h
    cases h
  | cons a tl ih =>
    intro c h
    by_cases hp : p a
    · rw [List.find?_cons_of_pos _ hp] at h
      injection h with h
      subst h
      exact ⟨hp, [], tl, rfl, by intro x hx; cases hx⟩
    · rw [List.find?_cons_of_neg _ hp] at h
      obtain ⟨hpc, l1, l2, heq, hall⟩ := ih c h
      refine ⟨hpc, a :: l1, l2, by rw [heq]; rfl, ?_⟩
      intro x hx
      rcases List.mem_cons.mp hx with rfl | hx'
      · exact Bool.eq_false_iff.mpr hp
      · exact hall x hx'

theorem specifyOne_none {t : RemainingTracker} (h : t.specifyOne = none) :
    ∀ c, (t.board c).card ≤ 1 := by
  unfold RemainingTracker.specifyOne at h
  cases hf : Coord.allList.find? fun c => decide (1 < (t.board c).card) with
  | some c =>
    rw [hf] at h
    cases h
  | none =>
    intro c
    have hx := List.find?_eq_none.mp hf c (mem_allList c)
    simp only [decide_eq_true_eq] at hx
    omega

theorem specifyOne_some {t : RemainingTracker} {c : Coord}
    (hf : Coord.allList.find? (fun c => decide (1 < (t.board c).card)) = some c) :
    t.specifyOne = some ((Finset.sort (· ≤ ·) (t.board c)).filterMap fun v =>
      if (branchClone t c (t.board c) v).knownUnsolveable then none
      else some (branchClone t c (t.board c) v)) := by
  unfold RemainingTracker.specifyOne
  rw [hf]

/-- Soundness of the driver stack loop: any returned board is filled,
satisfies the three constraints, and agrees with the input's pins, as
long as every stacked tracker is consistent, has no empty cell, and only
shrinks the input's initial tracker. -/
theorem solveF_sound (b : Board) : ∀ (fuel : Nat) (stack : List (Nat × RemainingTracker)),
    (∀ p ∈ stack, Consistent p.2 ∧ NoEmpty p.2 ∧
      ∀ c, p.2.board c ⊆ (RemainingTracker.new b).board c) →
    ∀ s, solveF fuel stack = some (some s) → completesB b s := by
  intro fuel
  induction fuel with
  | zero =>
    intro stack hinv s h
    cases stack with
    | nil =>
      injection h with h
      cases h
    | cons p rest => cases h
  | succ fuel ih =>
    intro stack hinv s h
    cases stack with
    | nil =>
      injection h with h
      cases h
    | cons p rest =>
      obtain ⟨dep, t⟩ := p
      obtain ⟨hCt, hNEt, hsubt⟩ := hinv (dep, t) (List.mem_cons_self _ _)
      have hrest : ∀ p ∈ rest, Consistent p.2 ∧ NoEmpty p.2 ∧
          ∀ c, p.2.board c ⊆ (RemainingTracker.new b).board c :=
        fun p hp => hinv p (List.mem_cons_of_mem _ hp)
      obtain ⟨hnp, hnf, hfail, hok⟩ := reduceRun_spec t hCt
      cases hred : reduceRun t with
      | panicked =>
        have he : solveF (fuel + 1) ((dep, t) :: rest) = solveF fuel rest := by
          simp [solveF, hred]
        rw [he] at h
        exact ih rest hrest s h
      | failed =>
        have he : solveF (fuel + 1) ((dep, t) :: rest) = solveF fuel rest := by
          simp [solveF, hred]
        rw [he] at h
        exact ih rest hrest s h
      | fuelOut =>
        have he : solveF (fuel + 1) ((dep, t) :: rest) = solveF fuel rest := by
          simp [solveF, hred]
        rw [he] at h
        exact ih rest hrest s h
      | ok t2 =>
        obtain ⟨hC2, hSat2, hshr2, hne2, hadm2⟩ := hok t2 hred
        have hNE2 : NoEmpty t2 := fun c => hne2 c (hNEt c)
        by_cases hsol : t2.isSolved = true
        · have he : solveF (fuel + 1) ((dep, t) :: rest) = some (some t2.intoBoard) := by
            simp only [solveF, hred]
            rw [if_pos hsol]
          rw [he] at h
          injection h with h
          injection h with h
          subst h
          obtain ⟨hcard1, hfill, hzone, hsingle⟩ := solvedT_spec t2 hC2 hNE2 hsol
          refine ⟨hfill, hzone, ?_⟩
          intro c v hbc
          have hsub : t2.board c ⊆ {v} := by
            intro x hx
            have hxx := hsubt c (hshr2 c hx)
            rw [new_board b c, hbc] at hxx
            exact hxx
          obtain ⟨w, hw, hgs⟩ := card_eq_one_getSingle (hcard1 c)
          have hwv : w = v := by
            have hz : w ∈ ({v} : AvailSet) := hsub (by rw [hw]; exact Finset.mem_singleton_self w)
            exact Finset.mem_singleton.mp hz
          show (t2.board c).getSingle = some v
          rw [hgs, hwv]
        · have hsolf : t2.isSolved = false := by
            cases hx : t2.isSolved with
            | true => exact absurd hx hsol
            | false => rfl
          cases hf : Coord.allList.find? (fun c => decide (1 < (t2.board c).card)) with
          | none =>
            have hspec : t2.specifyOne = none := by
              unfold RemainingTracker.specifyOne
              rw [hf]
            have he : solveF (fuel + 1) ((dep, t) :: rest) = solveF fuel rest := by
              simp [solveF, hred, hsolf, hspec]
            rw [he] at h
            exact ih rest hrest s h
          | some c =>
            have hspec := specifyOne_some hf
            have he : solveF (fuel + 1) ((dep, t) :: rest) =
                solveF fuel
                  ((((Finset.sort (· ≤ ·) (t2.board c)).filterMap fun v =>
                      if (branchClone t2 c (t2.board c) v).knownUnsolveable then none
                      else some (branchClone t2 c (t2.board c) v)).reverse.map
                    fun u => (dep + 1, u)) ++ rest) := by
              simp [solveF, hred, hsolf, hspec]
            rw [he] at h
            refine ih _ ?_ s h
            intro p hp
            rcases List.mem_append.mp hp with hp1 | hp2
            · obtain ⟨u, hu, rfl⟩ := List.mem_map.mp hp1
              rw [List.mem_reverse] at hu
              obtain ⟨v, hv, hvu⟩ := List.mem_filterMap.mp hu
              by_cases hk : (branchClone t2 c (t2.board c) v).knownUnsolveable
              · rw [if_pos hk] at hvu
                cases hvu
              · rw [if_neg hk] at hvu
                injection hvu with hvu
                subst hvu
                have hvmem : v ∈ t2.board c := (Finset.mem_sort _).mp hv
                refine ⟨branchClone_consistent hC2 c v hvmem, ?_, ?_⟩
                · intro d
                  show Function.update t2.board c (AvailSet.only v) d ≠ ∅
                  rw [Function.update_apply]
                  split
                  · exact Finset.singleton_ne_empty v
                  · exact hNE2 d
                · intro d
                  show Function.update t2.board c (AvailSet.only v) d ⊆ _
                  rw [Function.update_apply]
                  split
                  · rename_i hdc
                    subst hdc
                    intro x hx
                    have hxv : x = v := Finset.mem_singleton.mp hx
                    subst hxv
                    exact hsubt d (hshr2 d hvmem)
                  · intro x hx
                    exact hsubt d (hshr2 d hx)
            · exact hrest p hp2

theorem admits_new_iff (b : Board) (f : SolF) :
    admitsT (RemainingTracker.new b) f ↔ extendsB b f := by
  constructor
  · intro ha c v hbc
    have hm := ha c
    rw [new_board b c, hbc] at hm
    exact Finset.mem_singleton.mp hm
  · intro he c
    rw [new_board b c]
    cases hbc : b c with
    | none => exact Finset.mem_univ _
    | some v =>
      rw [he c v hbc]
      exact Finset.mem_singleton_self v

theorem completion_solF {b s : Board} (h : completesB b s) :
    ∃ f : SolF, validF f ∧ extendsB b f := by
  obtain ⟨hfill, hzone, hagree⟩ := h
  refine ⟨fun c => (s c).getD ⟨0, by omega⟩, ?_, ?_⟩
  · intro v i
    have hcg : ∀ l : List Coord,
        (l.countP fun c => decide ((s c).getD ⟨0, by omega⟩ = v)) =
          l.countP fun c => decide (s c = some v) := by
      intro l
      refine List.countP_congr ?_
      intro c _
      cases hsc : s c with
      | none => exact absurd hsc (hfill c)
      | some w => simp
    exact ⟨by rw [hcg]; exact (hzone v i).1, by rw [hcg]; exact (hzone v i).2.1,
      by rw [hcg]; exact (hzone v i).2.2⟩
  · intro c v hbc
    show (s c).getD ⟨0, by omega⟩ = v
    rw [hagree c v hbc]
    rfl

theorem solF_completion {b : Board} {f : SolF} (hf : validF f) (he : extendsB b f) :
    completesB b fun c => some (f c) := by
  refine ⟨fun c h => Option.noConfusion h, ?_, ?_⟩
  · intro v i
    have hcg : ∀ l : List Coord,
        (l.countP fun c => decide ((some (f c) : Option Val) = some v)) =
          l.countP fun c => decide (f c = v) :=
      fun l => List.countP_congr fun c _ => by simp
    exact ⟨by rw [hcg]; exact (hf v i).1, by rw [hcg]; exact (hf v i).2.1,
      by rw [hcg]; exact (hf v i).2.2⟩
  · intro c v hbc
    exact congrArg some (he c v hbc)

/-- A consistent tracker all of whose cells are at most singular, yet
admitting a valid solution, passes the solved test. -/
theorem isSolved_of_singletons {t : RemainingTracker} (hC : Consistent t) {f : SolF}
    (hf : validF f) (ha : admitsT t f) (hcards : ∀ c, (t.board c).card ≤ 1) :
    t.isSolved = true := by
  have hbf : ∀ c, t.board c = {f c} := by
    intro c
    have h1 : f c ∈ t.board c := ha c
    have hpos : 1 ≤ (t.board c).card := Finset.card_pos.mpr ⟨f c, h1⟩
    have hone : (t.board c).card = 1 := le_antisymm (hcards c) hpos
    obtain ⟨w, hw⟩ := Finset.card_eq_one.mp hone
    rw [hw] at h1 ⊢
    rw [Finset.mem_singleton.mp h1]
  have key : ∀ (z : Rcs) (v : Val), t.getRcs z v = 1 := by
    intro z v
    rw [hC.1 z v]
    have hcg : cellCount z.cells v t.board = z.cells.countP fun c => decide (f c = v) := by
      refine List.countP_congr ?_
      intro c _
      simp only [decide_eq_true_eq, hbf c, Finset.mem_singleton]
      exact ⟨fun h => h.symm, fun h => h.symm⟩
    rw [hcg]
    cases z with
    | row r => exact (hf v r).1
    | col k => exact (hf v k).2.1
    | sector i => exact (hf v i).2.2
  simp only [RemainingTracker.isSolved, Bool.and_eq_true, List.all_eq_true, isSolvedZone,
    decide_eq_true_eq, List.mem_finRange, true_implies]
  exact ⟨⟨fun r v => key (.row r) v, fun k v => key (.col k) v⟩, fun i v => key (.sector i) v⟩

/-- Completeness of the driver stack loop: when it exhausts every board
without a solution, no valid assignment was admitted by any stacked
tracker. -/
theorem solveF_complete : ∀ (fuel : Nat) (stack : List (Nat × RemainingTracker)),
    (∀ p ∈ stack, Consistent p.2) →
    solveF fuel stack = some none →
    ∀ f : SolF, validF f → (∃ p ∈ stack, admitsT p.2 f) → False := by
  intro fuel
  induction fuel with
  | zero =>
    intro stack hinv h f hf hex
    cases stack with
    | nil => obtain ⟨p, hp, -⟩ := hex; cases hp
    | cons p rest => cases h
  | succ fuel ih =>
    intro stack hinv h f hf hex
    cases stack with
    | nil => obtain ⟨p, hp, -⟩ := hex; cases hp
    | cons p rest =>
      obtain ⟨dep, t⟩ := p
      have hCt : Consistent t := hinv (dep, t) (List.mem_cons_self _ _)
      have hrest : ∀ p ∈ rest, Consistent p.2 := fun p hp => hinv p (List.mem_cons_of_mem _ hp)
      obtain ⟨hnp, hnf, hfail, hok⟩ := reduceRun_spec t hCt
      cases hred : reduceRun t with
      | panicked => exact absurd hred hnp
      | fuelOut => exact absurd hred hnf
      | failed =>
        have he : solveF (fuel + 1) ((dep, t) :: rest) = solveF fuel rest := by
          simp [solveF, hred]
        rw [he] at h
        obtain ⟨p, hp, hpa⟩ := hex
        rcases List.mem_cons.mp hp with rfl | hp'
        · exact hfail hred f hf hpa
        · exact ih rest hrest h f hf ⟨p, hp', hpa⟩
      | ok t2 =>
        obtain ⟨hC2, hSat2, hshr2, hne2, hadm2⟩ := hok t2 hred
        by_cases hsol : t2.isSolved = true
        · have he : solveF (fuel + 1) ((dep, t) :: rest) = some (some t2.intoBoard) := by
            simp only [solveF, hred]
            rw [if_pos hsol]
          rw [he] at h
          injection h with h
          cases h
        · have hsolf : t2.isSolved = false := by
            cases hx : t2.isSolved with
            | true => exact absurd hx hsol
            | false => rfl
          cases hf2 : Coord.allList.find? (fun c => decide (1 < (t2.board c).card)) with
          | none =>
            have hspec : t2.specifyOne = none := by
              unfold RemainingTracker.specifyOne
              rw [hf2]
            have he : solveF (fuel + 1) ((dep, t) :: rest) = solveF fuel rest := by
              simp [solveF, hred, hsolf, hspec]
            rw [he] at h
            obtain ⟨p, hp, hpa⟩ := hex
            rcases List.mem_cons.mp hp with rfl | hp'
            · exact hsol (isSolved_of_singletons hC2 hf (hadm2 f hf hpa) (specifyOne_none hspec))
            · exact ih rest hrest h f hf ⟨p, hp', hpa⟩
          | some c =>
            have hspec := specifyOne_some hf2
            have he : solveF (fuel + 1) ((dep, t) :: rest) =
                solveF fuel
                  ((((Finset.sort (· ≤ ·) (t2.board c)).filterMap fun v =>
                      if (branchClone t2 c (t2.board c) v).knownUnsolveable then none
                      else some (branchClone t2 c (t2.board c) v)).reverse.map
                    fun u => (dep + 1, u)) ++ rest) := by
              simp [solveF, hred, hsolf, hspec]
            rw [he] at h
            have hchildC : ∀ p ∈ (((Finset.sort (· ≤ ·) (t2.board c)).filterMap fun v =>
                if (branchClone t2 c (t2.board c) v).knownUnsolveable then none
                else some (branchClone t2 c (t2.board c) v)).reverse.map
                  fun u => (dep + 1, u)) ++ rest, Consistent p.2 := by
              intro p hp
              rcases List.mem_append.mp hp with hp1 | hp2
              · obtain ⟨u, hu, rfl⟩ := List.mem_map.mp hp1
                rw [List.mem_reverse] at hu
                obtain ⟨v, hv, hvu⟩ := List.mem_filterMap.mp hu
                by_cases hk : (branchClone t2 c (t2.board c) v).knownUnsolveable
                · rw [if_pos hk] at hvu
                  cases hvu
                · rw [if_neg hk] at hvu
                  injection hvu with hvu
                  subst hvu
                  exact branchClone_consistent hC2 c v ((Finset.mem_sort _).mp hv)
              · exact hrest p hp2
            obtain ⟨p, hp, hpa⟩ := hex
            rcases List.mem_cons.mp hp with rfl | hp'
            · -- f admitted by the popped tracker: it survives in some child
              have ha2 : admitsT t2 f := hadm2 f hf hpa
              have hvmem : f c ∈ t2.board c := ha2 c
              have hau : admitsT (branchClone t2 c (t2.board c) (f c)) f := by
                intro d
                show f d ∈ Function.update t2.board c (AvailSet.only (f c)) d
                rw [Function.update_apply]
                split
                · rename_i hdc
                  subst hdc
                  exact Finset.mem_singleton_self _
                · exact ha2 d
              have hk : ¬(branchClone t2 c (t2.board c) (f c)).knownUnsolveable := by
                intro hk
                exact knownUnsolveable_noSol (branchClone_consistent hC2 c (f c) hvmem) hk
                  f hf hau
              refine ih _ hchildC h f hf
                ⟨(dep + 1, branchClone t2 c (t2.board c) (f c)), ?_, hau⟩
              refine List.mem_append.mpr (Or.inl ?_)
              refine List.mem_map.mpr ⟨branchClone t2 c (t2.board c) (f c), ?_, rfl⟩
              rw [List.mem_reverse]
              refine List.mem_filterMap.mpr ⟨f c, (Finset.mem_sort _).mpr hvmem, ?_⟩
              rw [if_neg hk]
            · exact ih _ hchildC h f hf
                ⟨p, List.mem_append.mpr (Or.inr hp'), hpa⟩

theorem children_measure_bound (t2 : RemainingTracker) (c : Coord) (N : Nat) (dep : Nat)
    (hcand : candsT t2 ≤ N) (hcbig : 2 ≤ (t2.board c).card) :
    ((((Finset.sort (· ≤ ·) (t2.board c)).filterMap fun v =>
        if (branchClone t2 c (t2.board c) v).knownUnsolveable then none
        else some (branchClone t2 c (t2.board c) v)).reverse.map
      fun u => (dep + 1, u)).map fun p => 10 ^ candsT p.2).sum < 10 ^ N := by
  have hN1 : 1 ≤ N := by
    have hx := card_le_candsT t2 c
    omega
  have hchildlt : ∀ u ∈ (Finset.sort (· ≤ ·) (t2.board c)).filterMap fun v =>
      if (branchClone t2 c (t2.board c) v).knownUnsolveable then none
      else some (branchClone t2 c (t2.board c) v), candsT u + 1 ≤ N := by
    intro u hu
    obtain ⟨v, hv, hvu⟩ := List.mem_filterMap.mp hu
    split at hvu
    · cases hvu
    · have hvu2 := Option.some.inj hvu
      subst hvu2
      have hupd := candsT_board_update
        (show (branchClone t2 c (t2.board c) v).board =
          Function.update t2.board c (AvailSet.only v) from rfl)
      have hcv : (AvailSet.only v).card = 1 := Finset.card_singleton v
      omega
  rw [List.map_map, List.map_reverse, List.sum_reverse]
  have hlen9 : (((Finset.sort (· ≤ ·) (t2.board c)).filterMap fun v =>
      if (branchClone t2 c (t2.board c) v).knownUnsolveable then none
      else some (branchClone t2 c (t2.board c) v)).map
        ((fun p => 10 ^ candsT p.2) ∘ fun u => (dep + 1, u))).length ≤ 9 := by
    rw [List.length_map]
    calc ((Finset.sort (· ≤ ·) (t2.board c)).filterMap fun v =>
          if (branchClone t2 c (t2.board c) v).knownUnsolveable then none
          else some (branchClone t2 c (t2.board c) v)).length
        ≤ (Finset.sort (· ≤ ·) (t2.board c)).length := List.length_filterMap_le _ _
      _ = (t2.board c).card := Finset.length_sort _
      _ ≤ 9 := by
          have hx := Finset.card_le_univ (t2.board c)
          simpa using hx
  have hbound : ∀ x ∈ ((Finset.sort (· ≤ ·) (t2.board c)).filterMap fun v =>
      if (branchClone t2 c (t2.board c) v).knownUnsolveable then none
      else some (branchClone t2 c (t2.board c) v)).map
        ((fun p => 10 ^ candsT p.2) ∘ fun u => (dep + 1, u)),
      x ≤ 10 ^ (N - 1) := by
    intro x hx
    obtain ⟨u, hu, rfl⟩ := List.mem_map.mp hx
    show 10 ^ candsT u ≤ 10 ^ (N - 1)
    refine Nat.pow_le_pow_right (by omega) ?_
    have hlt := hchildlt u hu
    omega
  have hsum9 := List.sum_le_card_nsmul _ _ hbound
  simp only [smul_eq_mul] at hsum9
  have hmul := Nat.mul_le_mul_right (10 ^ (N - 1)) hlen9
  have hpow : 10 ^ N = 10 * 10 ^ (N - 1) := by
    have hx : N = (N - 1) + 1 := by omega
    calc 10 ^ N = 10 ^ ((N - 1) + 1) := by rw [← hx]
      _ = 10 ^ (N - 1) * 10 := pow_succ 10 _
      _ = 10 * 10 ^ (N - 1) := Nat.mul_comm _ _
  have hB1 : 1 ≤ 10 ^ (N - 1) := Nat.one_le_pow _ _ (by omega)
  omega

theorem candsT_mono {t t2 : RemainingTracker} (h : shrinkT t t2) : candsT t2 ≤ candsT t := by
  unfold candsT
  refine List.sum_le_sum ?_
  intro c _
  exact Finset.card_le_card (h c)

/-- The driver's fuel never runs out: each iteration strictly decreases
the stack measure `Σ 10 ^ candsT`. -/
theorem solveF_terminates : ∀ (fuel : Nat) (stack : List (Nat × RemainingTracker)),
    (∀ p ∈ stack, Consistent p.2) →
    (stack.map fun p => 10 ^ candsT p.2).sum < fuel →
    solveF fuel stack ≠ none := by
  intro fuel
  induction fuel with
  | zero =>
    intro stack _ hm
    exact absurd hm (Nat.not_lt_zero _)
  | succ fuel ih =>
    intro stack hinv hm
    cases stack with
    | nil =>
      intro h
      cases h
    | cons p rest =>
      obtain ⟨dep, t⟩ := p
      have hCt : Consistent t := hinv _ (List.mem_cons_self _ _)
      have hrest : ∀ p ∈ rest, Consistent p.2 := fun p hp => hinv p (List.mem_cons_of_mem _ hp)
      have hpow1 : 1 ≤ 10 ^ candsT t := Nat.one_le_pow _ _ (by omega)
      simp only [List.map_cons, List.sum_cons] at hm
      obtain ⟨hnp, hnf, hfail, hok⟩ := reduceRun_spec t hCt
      cases hred : reduceRun t with
      | panicked => exact absurd hred hnp
      | fuelOut => exact absurd hred hnf
      | failed =>
        have he : solveF (fuel + 1) ((dep, t) :: rest) = solveF fuel rest := by
          simp [solveF, hred]
        rw [he]
        exact ih rest hrest (by omega)
      | ok t2 =>
        obtain ⟨hC2, hSat2, hshr2, hne2, hadm2⟩ := hok t2 hred
        by_cases hsol : t2.isSolved = true
        · have he : solveF (fuel + 1) ((dep, t) :: rest) = some (some t2.intoBoard) := by
            simp only [solveF, hred]
            rw [if_pos hsol]
          rw [he]
          intro h
          cases h
        · have hsolf : t2.isSolved = false := by
            cases hx : t2.isSolved with
            | true => exact absurd hx hsol
            | false => rfl
          cases hf2 : Coord.allList.find? (fun c => decide (1 < (t2.board c).card)) with
          | none =>
            have hspec : t2.specifyOne = none := by
              unfold RemainingTracker.specifyOne
              rw [hf2]
            have he : solveF (fuel + 1) ((dep, t) :: rest) = solveF fuel rest := by
              simp [solveF, hred, hsolf, hspec]
            rw [he]
            exact ih rest hrest (by omega)
          | some c =>
            have hspec := specifyOne_some hf2
            have he : solveF (fuel + 1) ((dep, t) :: rest) =
                solveF fuel
                  ((((Finset.sort (· ≤ ·) (t2.board c)).filterMap fun v =>
                      if (branchClone t2 c (t2.board c) v).knownUnsolveable then none
                      else some (branchClone t2 c (t2.board c) v)).reverse.map
                    fun u => (dep + 1, u)) ++ rest) := by
              simp [solveF, hred, hsolf, hspec]
            rw [he]
            refine ih _ ?_ ?_
            · intro p hp
              rcases List.mem_append.mp hp with hp1 | hp2
              · obtain ⟨u, hu, rfl⟩ := List.mem_map.mp hp1
                rw [List.mem_reverse] at hu
                obtain ⟨v, hv, hvu⟩ := List.mem_filterMap.mp hu
                by_cases hk : (branchClone t2 c (t2.board c) v).knownUnsolveable
                · rw [if_pos hk] at hvu
                  cases hvu
                · rw [if_neg hk] at hvu
                  injection hvu with hvu
                  subst hvu
                  exact branchClone_consistent hC2 c v ((Finset.mem_sort _).mp hv)
              · exact hrest p hp2
            · have hcandt2 : candsT t2 ≤ candsT t := candsT_mono hshr2
              have hcbig : 2 ≤ (t2.board c).card := by
                have hx := (find?_first _ Coord.allList c hf2).1
                simp only [decide_eq_true_eq] at hx
                omega
              have hbnd := children_measure_bound t2 c (candsT t) dep hcandt2 hcbig
              rw [List.map_append, List.sum_append]
              omega

/-! ### The claims -/

/-- The two line neighbours of a box-line are distinct. -/
theorem lineNeighbors_nodup : ∀ z : Srsc, z.lineNeighbors.Nodup := by decide

/-- The two sector neighbours of a box-line are distinct. -/
theorem secNeighbors_nodup : ∀ z : Srsc, z.secNeighbors.Nodup := by decide

/-- Two distinct members of a duplicate-free list bound the mapped sum from below. -/
theorem sum_two_le {α : Type} {l : List α} (f : α → Nat) (hn : l.Nodup) {a b : α}
    (ha : a ∈ l) (hb : b ∈ l) (hab : a ≠ b) : f a + f b ≤ (l.map f).sum := by
  induction l with
  | nil => cases ha
  | cons x tl ih =>
    rw [List.nodup_cons] at hn
    simp only [List.map_cons, List.sum_cons]
    rcases List.mem_cons.mp ha with rfl | hat
    · rcases List.mem_cons.mp hb with rfl | hbt
      · exact absurd rfl hab
      · have hfb : f b ≤ (tl.map f).sum :=
          List.single_le_sum (fun x _ => Nat.zero_le x) _ (List.mem_map.mpr ⟨b, hbt, rfl⟩)
        omega
    · rcases List.mem_cons.mp hb with rfl | hbt
      · have hfa : f a ≤ (tl.map f).sum :=
          List.single_le_sum (fun x _ => Nat.zero_le x) _ (List.mem_map.mpr ⟨a, hat, rfl⟩)
        omega
      · have := ih hn.2 hat hbt
        omega

/-- Cell counts add up over a concatenation of zones. -/
theorem cellCount_flatMap (L : List Srsc) (v : Val) (g : Coord → AvailSet) :
    cellCount (L.flatMap Srsc.cells) v g = (L.map fun w => cellCount w.cells v g).sum := by
  induction L with
  | nil => rfl
  | cons w tl ih =>
    unfold cellCount at ih ⊢
    rw [List.flatMap_cons, List.countP_append, List.map_cons, List.sum_cons, ih]

/-- A count of at least two over a duplicate-free list yields two distinct satisfying members. -/
theorem countP_two_exists {α : Type} {l : List α} {p : α → Bool} (hn : l.Nodup)
    (h : 2 ≤ l.countP p) :
    ∃ c1 ∈ l, ∃ c2 ∈ l, c1 ≠ c2 ∧ p c1 = true ∧ p c2 = true := by
  induction l with
  | nil => simp [List.countP_nil] at h
  | cons a tl ih =>
    rw [List.nodup_cons] at hn
    rw [List.countP_cons] at h
    by_cases hpa : p a = true
    · have h1 : 1 ≤ tl.countP p := by
        rw [hpa] at h
        simp only [if_true] at h
        omega
      obtain ⟨b, hb, hpb⟩ := List.countP_pos_iff.mp (by omega : 0 < tl.countP p)
      refine ⟨a, List.mem_cons_self a tl, b, List.mem_cons_of_mem a hb, ?_, hpa, hpb⟩
      intro hab
      exact hn.1 (hab ▸ hb)
    · rw [Bool.not_eq_true] at hpa
      rw [hpa] at h
      simp only [Bool.false_eq_true, if_false] at h
      obtain ⟨c1, h1, c2, h2, hne, hp1, hp2⟩ := ih hn.2 (by omega)
      exact ⟨c1, List.mem_cons_of_mem a h1, c2, List.mem_cons_of_mem a h2, hne, hp1, hp2⟩

/-- Distinct cells of one row, column or sector are neighbours. -/
theorem rcs_mates_neighbors {z : Rcs} {c1 c2 : Coord} (h1 : c1 ∈ z.cells)
    (h2 : c2 ∈ z.cells) (hne : c1 ≠ c2) : c2 ∈ c1.neighbors := by
  rw [mem_neighbors]
  refine ⟨fun h => hne h.symm, ?_⟩
  cases z with
  | row r =>
    have e1 := (rcs_mem_cells (.row r) c1).mp h1
    have e2 := (rcs_mem_cells (.row r) c2).mp h2
    exact Or.inl (e2.trans e1.symm)
  | col k =>
    have e1 := (rcs_mem_cells (.col k) c1).mp h1
    have e2 := (rcs_mem_cells (.col k) c2).mp h2
    exact Or.inr (Or.inl (e2.trans e1.symm))
  | sector s =>
    have e1 := (rcs_mem_cells (.sector s) c1).mp h1
    have e2 := (rcs_mem_cells (.sector s) c2).mp h2
    exact Or.inr (Or.inr (e2.trans e1.symm))

/-- A list of naturals bounded by one sums to at most its length. -/
theorem sum_le_length_of_le {l : List Nat} (h : ∀ x ∈ l, x ≤ 1) : l.sum ≤ l.length := by
  induction l with
  | nil => simp
  | cons a tl ih =>
    have h1 := h a (List.mem_cons_self _ _)
    have := ih fun y hy => h y (List.mem_cons_of_mem _ hy)
    simp only [List.sum_cons, List.length_cons]
    omega

/-- Naturals bounded by one summing to the length are all one. -/
theorem all_ones_of_sum_le {l : List Nat} (h : ∀ x ∈ l, x ≤ 1) (hs : l.sum = l.length) :
    ∀ x ∈ l, x = 1 := by
  induction l with
  | nil => intro x hx; cases hx
  | cons a tl ih =>
    intro x hx
    have h1 := h a (List.mem_cons_self _ _)
    have ht : ∀ y ∈ tl, y ≤ 1 := fun y hy => h y (List.mem_cons_of_mem _ hy)
    have hlen : tl.sum ≤ tl.length := sum_le_length_of_le ht
    simp only [List.sum_cons, List.length_cons] at hs
    rcases List.mem_cons.mp hx with rfl | hxt
    · omega
    · exact ih ht (by omega) x hxt

/-- A consistent, saturated tracker with every cell a nonempty singleton is solved: each zone counter counts its cells' singletons, saturation caps each digit at one per zone, and nine digits over nine cells force exactly one each. -/
theorem singletons_solved (t : RemainingTracker) (hC : Consistent t) (hNE : NoEmpty t)
    (hSat : SaturatedT t) (hcards : ∀ c, (t.board c).card ≤ 1) : t.isSolved = true := by
  have hcard1 : ∀ c, (t.board c).card = 1 := by
    intro c
    have h1 : 0 < (t.board c).card :=
      Finset.card_pos.mpr (Finset.nonempty_iff_ne_empty.mpr (hNE c))
    have h2 := hcards c
    omega
  have hle1 : ∀ (z : Rcs) (v : Val), cellCount z.cells v t.board ≤ 1 := by
    intro z v
    by_contra hgt
    have hge2 : 2 ≤ cellCount z.cells v t.board := by omega
    obtain ⟨c1, h1, c2, h2m, hne, hp1, hp2⟩ := countP_two_exists (rcs_cells_nodup z) hge2
    have hv1 : v ∈ t.board c1 := of_decide_eq_true hp1
    have hv2 : v ∈ t.board c2 := of_decide_eq_true hp2
    exact hSat c1 v c2 (hcard1 c1) hv1 (rcs_mates_neighbors h1 h2m hne) hv2
  have heq1 : ∀ (z : Rcs) (v : Val), cellCount z.cells v t.board = 1 := by
    intro z v
    have hones : ∀ l : List Coord, (l.map fun _ => (1 : Nat)).sum = l.length := by
      intro l
      induction l with
      | nil => rfl
      | cons a tl ih =>
        simp only [List.map_cons, List.sum_cons, List.length_cons, ih]
        omega
    have hsum : ((List.finRange 9).map fun w => cellCount z.cells w t.board).sum = 9 := by
      rw [cellCount_sum_exchange]
      have hmap : (z.cells.map fun c => (t.board c).card) = z.cells.map fun _ => 1 :=
        List.map_congr_left fun c _ => hcard1 c
      rw [hmap, hones, rcs_cells_length z]
    exact all_ones_of_sum_le
      (fun x hx => by
        obtain ⟨w, -, rfl⟩ := List.mem_map.mp hx
        exact hle1 z w)
      (by rw [hsum, List.length_map, List.length_finRange])
      _ (List.mem_map.mpr ⟨v, List.mem_finRange v, rfl⟩)
  have hrows : ∀ (r : Fin 9) (v : Val), t.rows r v = 1 := fun r v =>
    (hC.1 (.row r) v).trans (heq1 (.row r) v)
  have hcols : ∀ (k : Fin 9) (v : Val), t.cols k v = 1 := fun k v =>
    (hC.1 (.col k) v).trans (heq1 (.col k) v)
  have hsects : ∀ (i : Fin 9) (v : Val), t.sectors i v = 1 := fun i v =>
    (hC.1 (.sector i) v).trans (heq1 (.sector i) v)
  simp only [RemainingTracker.isSolved, isSolvedZone, Bool.and_eq_true, List.all_eq_true,
    decide_eq_true_eq]
  exact ⟨⟨fun r _ => fun v _ => hrows r v, fun k _ => fun v _ => hcols k v⟩,
    fun i _ => fun v _ => hsects i v⟩

/-- C1: whenever `Board.solve` returns a board, that board is completely filled, every row, column and sector holds each digit exactly once, and it agrees with the input on every pinned cell (`completesB`). -/
theorem claim_C1 (b : Board) :
    Board.solve b = none ∨ ∃ s, Board.solve b = some s ∧ completesB b s := by
  cases hsf : solveF SFUEL [(0, RemainingTracker.new b)] with
  | none =>
    left
    unfold Board.solve
    rw [hsf]
  | some r =>
    cases r with
    | none =>
      left
      unfold Board.solve
      rw [hsf]
    | some s =>
      right
      refine ⟨s, ?_, ?_⟩
      · unfold Board.solve
        rw [hsf]
      · refine solveF_sound b SFUEL [(0, RemainingTracker.new b)] ?_ s hsf
        intro p hp
        rw [List.mem_singleton] at hp
        subst hp
        exact ⟨new_consistent b, new_noEmpty b, fun c => Finset.Subset.refl _⟩

/-- Witness for C1 at the blank board. -/
theorem claim_C1_witness :
    Board.solve emptyBoard = none ∨
      ∃ s, Board.solve emptyBoard = some s ∧ completesB emptyBoard s :=
  claim_C1 emptyBoard

/-- C2: `Board.solve` returns `none` exactly when no completion of the board satisfies the three Sudoku constraints; in particular a board with the same digit twice in one row yields `none`. -/
theorem claim_C2 (b : Board) :
    (Board.solve b = none ↔ ¬ ∃ s, completesB b s) ∧
    (∀ (r : Fin 9) (c1 c2 : Coord), c1 ∈ rowCells r → c2 ∈ rowCells r → c1 ≠ c2 →
      ∀ v, b c1 = some v → b c2 = some v → Board.solve b = none) := by
  have hconsis : ∀ p ∈ [((0 : Nat), RemainingTracker.new b)], Consistent p.2 := by
    intro p hp
    rw [List.mem_singleton] at hp
    subst hp
    exact new_consistent b
  have hmain : Board.solve b = none ↔ ¬ ∃ s, completesB b s := by
    constructor
    · intro hnone hex
      obtain ⟨s, hs⟩ := hex
      obtain ⟨f, hvf, hef⟩ := completion_solF hs
      have haf : admitsT (RemainingTracker.new b) f := (admits_new_iff b f).mpr hef
      have hterm : solveF SFUEL [(0, RemainingTracker.new b)] ≠ none := by
        refine solveF_terminates SFUEL _ hconsis ?_
        have h729 : candsT (RemainingTracker.new b) ≤ 729 := candsT_le _
        have hle : (10 : Nat) ^ candsT (RemainingTracker.new b) ≤ 10 ^ 729 :=
          Nat.pow_le_pow_right (by omega) h729
        have hlt : (10 : Nat) ^ 729 < 10 ^ 730 :=
          Nat.pow_lt_pow_right (by omega) (by omega)
        simp only [List.map_cons, List.map_nil, List.sum_cons, List.sum_nil, SFUEL]
        omega
      cases hsf : solveF SFUEL [(0, RemainingTracker.new b)] with
      | none => exact hterm hsf
      | some r =>
        cases r with
        | some s2 =>
          have hsv : Board.solve b = some s2 := by
            unfold Board.solve
            rw [hsf]
          rw [hnone] at hsv
          exact Option.noConfusion hsv
        | none =>
          exact solveF_complete SFUEL _ hconsis hsf f hvf
            ⟨(0, RemainingTracker.new b), List.mem_singleton.mpr rfl, haf⟩
    · intro hno
      cases hsf : solveF SFUEL [(0, RemainingTracker.new b)] with
      | none =>
        unfold Board.solve
        rw [hsf]
      | some r =>
        cases r with
        | none =>
          unfold Board.solve
          rw [hsf]
        | some s =>
          exfalso
          refine hno ⟨s, ?_⟩
          refine solveF_sound b SFUEL [(0, RemainingTracker.new b)] ?_ s hsf
          intro p hp
          rw [List.mem_singleton] at hp
          subst hp
          exact ⟨new_consistent b, new_noEmpty b, fun c => Finset.Subset.refl _⟩
  refine ⟨hmain, ?_⟩
  intro r c1 c2 h1 h2 hne v hb1 hb2
  refine hmain.mpr ?_
  rintro ⟨s, hfill, hzone, hagree⟩
  have hs1 : s c1 = some v := hagree c1 v hb1
  have hs2 : s c2 = some v := hagree c2 v hb2
  have h2le := @two_le_countP (rowCells r) (fun c => decide (s c = some v))
    (rowCells_nodup r) c1 c2 h1 h2 hne (decide_eq_true hs1) (decide_eq_true hs2)
  have hz1 := (hzone v r).1
  omega

/-- Witness for C2: a board with digit 1 twice in row 0 solves to `none`. -/
theorem claim_C2_witness :
    (⟨0, 0⟩ : Coord) ∈ rowCells 0 ∧ (⟨0, 1⟩ : Coord) ∈ rowCells 0 ∧
    boardDup ⟨0, 0⟩ = some 0 ∧ boardDup ⟨0, 1⟩ = some 0 ∧ Board.solve boardDup = none := by
  refine ⟨by decide, by decide, rfl, rfl, ?_⟩
  exact (claim_C2 boardDup).2 0 ⟨0, 0⟩ ⟨0, 1⟩ (by decide) (by decide) (by decide) 0 rfl rfl

/-- C3: the solver is deterministic — its output is a function of the input board alone, so boards equal at every cell solve to identical results. -/
theorem claim_C3 (b b2 : Board) (h : ∀ c, b c = b2 c) : Board.solve b = Board.solve b2 := by
  have hbb : b = b2 := funext h
  rw [hbb]

/-- Witness for C3 at the blank board. -/
theorem claim_C3_witness :
    (∀ c, emptyBoard c = emptyBoard c) ∧
      Board.solve emptyBoard = Board.solve emptyBoard :=
  ⟨fun _ => rfl, claim_C3 emptyBoard emptyBoard fun _ => rfl⟩

/-- C4: the tracker built by `RemainingTracker.new` satisfies the consistency law for all five zone kinds, and an `eliminate` reducer step on any consistent tracker preserves it. -/
theorem claim_C4 :
    (∀ b : Board, Consistent (RemainingTracker.new b)) ∧
    (∀ (t : RemainingTracker) (q : Queue) (c : Coord) (v : Val) (chg : Bool)
      (t2 : RemainingTracker) (q2 : Queue), Consistent t →
      eliminate c v (t, q) = .ok (chg, (t2, q2)) → Consistent t2) := by
  refine ⟨new_consistent, ?_⟩
  intro t q c v chg t2 q2 hC helim
  exact ((eliminate_step_spec t q c v hC).2.2 chg t2 q2 helim).1

/-- Witness for C4: consistency of a freshly built tracker, preserved by one elimination. -/
theorem claim_C4_witness :
    Consistent (RemainingTracker.new emptyBoard) ∧
    ∃ chg t2 q2, eliminate ⟨0, 0⟩ 0 (RemainingTracker.new emptyBoard, ∅) =
        .ok (chg, (t2, q2)) ∧ Consistent t2 := by
  have hC : Consistent (RemainingTracker.new emptyBoard) := by decide
  refine ⟨hC, ?_⟩
  cases hev : eliminate ⟨0, 0⟩ (0 : Val) (RemainingTracker.new emptyBoard, ∅) with
  | panicked =>
    exact absurd hev (eliminate_step_spec (RemainingTracker.new emptyBoard) ∅ ⟨0, 0⟩ 0 hC).1
  | failed =>
    exfalso
    have hf := (eliminate_step_spec (RemainingTracker.new emptyBoard) ∅ ⟨0, 0⟩ 0 hC).2.1 hev
    have hv : validF fS1 := by
      unfold validF
      decide
    have ha : admitsT (RemainingTracker.new emptyBoard) fS1 := by
      unfold admitsT
      decide
    have h0 := hf fS1 hv ha
    exact absurd h0 (by decide)
  | ok s =>
    obtain ⟨chg, t2, q2⟩ := s
    exact ⟨chg, t2, q2, rfl, claim_C4.2 _ ∅ ⟨0, 0⟩ 0 chg t2 q2 hC hev⟩

/-- C5: when an elimination drops a box-line's count of a digit to zero (shown here mid-step: the stored count one ahead of the already-updated board), every line neighbour whose count of the digit equals the containing row/col's count gets its only-in-line step enqueued, and every sector neighbour whose count equals the containing sector's count gets its only-in-sec step enqueued; under the consistency snapshot at most one neighbour of each kind can match, so the source's find-first loop reaches it. -/
theorem claim_C5 (t : RemainingTracker) (q : Queue) (z : Srsc) (v : Val)
    (hself : t.getSrsc z v = cellCount z.cells v t.board + 1)
    (hnb : ∀ w : Srsc, w ≠ z → t.getSrsc w v = cellCount w.cells v t.board)
    (hline : t.getRcs z.line v = cellCount z.line.cells v t.board)
    (hsec : t.getRcs (.sector z.sectorIdx) v =
      cellCount (Rcs.cells (.sector z.sectorIdx)) v t.board)
    (hline0 : t.getRcs z.line v ≠ 0)
    (hsec0 : t.getRcs (.sector z.sectorIdx) v ≠ 0)
    (hone : t.getSrsc z v = 1)
    (hcard : ¬ ((AvailCounter.avail (Function.update (t.getSrsc z) v 0)).card < 3)) :
    ∃ q3, eliminateFromSrsc z v (t, q) =
        .ok (t.setSrsc z (Function.update (t.getSrsc z) v 0), q3) ∧
      (∀ w ∈ z.lineNeighbors, t.getSrsc w v = t.getRcs w.line v →
        w.visitOnlyInLine ∈ q3) ∧
      (∀ w ∈ z.secNeighbors, t.getSrsc w v = t.sectors w.sectorIdx v →
        w.visitOnlyInSec ∈ q3) := by
  have hz0 : cellCount z.cells v t.board = 0 := by omega
  have hlinesum : t.getRcs z.line v = (z.lineNeighbors.map fun w => t.getSrsc w v).sum := by
    rw [hline]
    have hperm := line_partition z
    have hsplit : cellCount z.line.cells v t.board =
        cellCount z.cells v t.board + cellCount (z.lineNeighbors.flatMap Srsc.cells) v t.board := by
      unfold cellCount
      rw [hperm.countP_eq, List.countP_append]
    rw [hsplit, hz0, cellCount_flatMap, Nat.zero_add]
    congr 1
    refine List.map_congr_left ?_
    intro w hw
    rw [hnb w (lineNeighbors_ne z w hw)]
  have hsecsum : t.getRcs (.sector z.sectorIdx) v =
      (z.secNeighbors.map fun w => t.getSrsc w v).sum := by
    rw [hsec]
    have hperm := sector_partition z
    have hsplit : cellCount (Rcs.cells (.sector z.sectorIdx)) v t.board =
        cellCount z.cells v t.board + cellCount (z.secNeighbors.flatMap Srsc.cells) v t.board := by
      unfold cellCount
      rw [hperm.countP_eq, List.countP_append]
    rw [hsplit, hz0, cellCount_flatMap, Nat.zero_add]
    congr 1
    refine List.map_congr_left ?_
    intro w hw
    rw [hnb w (secNeighbors_ne z w hw)]
  have hexL : ∀ w1 ∈ z.lineNeighbors, ∀ w2 ∈ z.lineNeighbors,
      t.getSrsc w1 v = t.getRcs z.line v → t.getSrsc w2 v = t.getRcs z.line v → w1 = w2 := by
    intro w1 h1 w2 h2 e1 e2
    by_contra hne
    have hsum := sum_two_le (fun w => t.getSrsc w v) (lineNeighbors_nodup z) h1 h2 hne
    rw [← hlinesum] at hsum
    simp only at hsum
    omega
  have hexS : ∀ w1 ∈ z.secNeighbors, ∀ w2 ∈ z.secNeighbors,
      t.getSrsc w1 v = t.getRcs (.sector z.sectorIdx) v →
      t.getSrsc w2 v = t.getRcs (.sector z.sectorIdx) v → w1 = w2 := by
    intro w1 h1 w2 h2 e1 e2
    by_contra hne
    have hsum := sum_two_le (fun w => t.getSrsc w v) (secNeighbors_nodup z) h1 h2 hne
    rw [← hsecsum] at hsum
    simp only at hsum
    omega
  unfold eliminateFromSrsc
  simp only [hone, Nat.sub_self, one_ne_zero, if_false, if_true, hcard, reduceIte]
  set a2 : AvailCounter := Function.update (t.getSrsc z) v 0 with ha2
  set t2 : RemainingTracker := t.setSrsc z a2 with ht2
  have hgw : ∀ w : Srsc, w ≠ z → t2.getSrsc w = t.getSrsc w := by
    intro w hw
    rw [ht2, getSrsc_setSrsc]
    rw [if_neg hw]
  have hgr : ∀ y : Rcs, t2.getRcs y = t.getRcs y := fun y => by rw [ht2, getRcs_setSrsc]
  have hscc : ∀ i, t2.sectors i = t.sectors i := fun i => by rw [ht2, sectors_setSrsc]
  have hcondL : ∀ w ∈ z.lineNeighbors,
      ((t2.getSrsc w v = t2.getRcs w.line v) ↔ (t.getSrsc w v = t.getRcs z.line v)) := by
    intro w hw
    rw [hgw w (lineNeighbors_ne z w hw), hgr, lineNeighbors_line z w hw]
  have hcondS : ∀ w ∈ z.secNeighbors,
      ((t2.getSrsc w v = t2.sectors w.sectorIdx v) ↔
        (t.getSrsc w v = t.getRcs (.sector z.sectorIdx) v)) := by
    intro w hw
    rw [hgw w (secNeighbors_ne z w hw), hscc, secNeighbors_sector z w hw, sectors_eq_getRcs]
  have hcondS' : ∀ w ∈ z.secNeighbors,
      ((t.getSrsc w v = t.sectors w.sectorIdx v) ↔
        (t.getSrsc w v = t.getRcs (.sector z.sectorIdx) v)) := by
    intro w hw
    rw [sectors_eq_getRcs, secNeighbors_sector z w hw]
  set q1 : Queue := if (AvailCounter.avail a2).card = 3 then Queue.push z.visitSizeMatch q else q
    with hq1
  cases hfl : z.lineNeighbors.find? fun w => decide (t2.getSrsc w v = t2.getRcs w.line v) with
  | none =>
    have hnoL : ∀ w ∈ z.lineNeighbors, t.getSrsc w v = t.getRcs w.line v → False := by
      intro w hw hcond
      have hx := List.find?_eq_none.mp hfl w hw
      simp only [decide_eq_true_eq] at hx
      refine hx ((hcondL w hw).mpr ?_)
      rw [← lineNeighbors_line z w hw]
      exact hcond
    cases hfs : z.secNeighbors.find? fun w => decide (t2.getSrsc w v = t2.sectors w.sectorIdx v)
      with
    | none =>
      dsimp only
      refine ⟨q1, rfl, ?_, ?_⟩
      · intro w hw hcond
        exact absurd hcond (fun h => hnoL w hw h)
      · intro w hw hcond
        exfalso
        have hx := List.find?_eq_none.mp hfs w hw
        simp only [decide_eq_true_eq] at hx
        exact hx ((hcondS w hw).mpr ((hcondS' w hw).mp hcond))
    | some w2 =>
      have hw2 : w2 ∈ z.secNeighbors := List.mem_of_find?_eq_some hfs
      have hp2 : t.getSrsc w2 v = t.getRcs (.sector z.sectorIdx) v := by
        have := List.find?_some hfs
        simp only [decide_eq_true_eq] at this
        exact (hcondS w2 hw2).mp this
      dsimp only
      refine ⟨_, rfl, ?_, ?_⟩
      · intro w hw hcond
        exact absurd hcond (fun h => hnoL w hw h)
      · intro w hw hcond
        have hww2 : w = w2 := hexS w hw w2 hw2 ((hcondS' w hw).mp hcond) hp2
        subst hww2
        exact mem_push.mpr (Or.inl rfl)
  | some w1 =>
    have hw1 : w1 ∈ z.lineNeighbors := List.mem_of_find?_eq_some hfl
    have hp1 : t.getSrsc w1 v = t.getRcs z.line v := by
      have := List.find?_some hfl
      simp only [decide_eq_true_eq] at this
      exact (hcondL w1 hw1).mp this
    have hLone : ∀ w ∈ z.lineNeighbors, t.getSrsc w v = t.getRcs w.line v → w = w1 := by
      intro w hw hcond
      refine hexL w hw w1 hw1 ?_ hp1
      rw [← lineNeighbors_line z w hw]
      exact hcond
    cases hfs : z.secNeighbors.find? fun w => decide (t2.getSrsc w v = t2.sectors w.sectorIdx v)
      with
    | none =>
      dsimp only
      refine ⟨_, rfl, ?_, ?_⟩
      · intro w hw hcond
        have hww1 := hLone w hw hcond
        subst hww1
        exact mem_push.mpr (Or.inl rfl)
      · intro w hw hcond
        exfalso
        have hx := List.find?_eq_none.mp hfs w hw
        simp only [decide_eq_true_eq] at hx
        exact hx ((hcondS w hw).mpr ((hcondS' w hw).mp hcond))
    | some w2 =>
      have hw2 : w2 ∈ z.secNeighbors := List.mem_of_find?_eq_some hfs
      have hp2 : t.getSrsc w2 v = t.getRcs (.sector z.sectorIdx) v := by
        have := List.find?_some hfs
        simp only [decide_eq_true_eq] at this
        exact (hcondS w2 hw2).mp this
      dsimp only
      refine ⟨_, rfl, ?_, ?_⟩
      · intro w hw hcond
        have hww1 := hLone w hw hcond
        subst hww1
        exact mem_push.mpr (Or.inr (mem_push.mpr (Or.inl rfl)))
      · intro w hw hcond
        have hww2 : w = w2 := hexS w hw w2 hw2 ((hcondS' w hw).mp hcond) hp2
        subst hww2
        exact mem_push.mpr (Or.inl rfl)

/-- Witness for C5 on the concrete snapshot tracker. -/
theorem claim_C5_witness :
    trackerC5.getSrsc (.secRow 0) 0 = 1 ∧
    ∃ q3, eliminateFromSrsc (.secRow 0) 0 (trackerC5, ∅) =
        .ok (trackerC5.setSrsc (.secRow 0)
          (Function.update (trackerC5.getSrsc (.secRow 0)) 0 0), q3) ∧
      (∀ w ∈ Srsc.lineNeighbors (.secRow 0),
        trackerC5.getSrsc w 0 = trackerC5.getRcs w.line 0 →
          w.visitOnlyInLine ∈ q3) ∧
      (∀ w ∈ Srsc.secNeighbors (.secRow 0),
        trackerC5.getSrsc w 0 = trackerC5.sectors w.sectorIdx 0 →
          w.visitOnlyInSec ∈ q3) :=
  ⟨by decide, claim_C5 trackerC5 ∅ (.secRow 0) 0 (by decide) (by decide) (by decide)
    (by decide) (by decide) (by decide) (by decide) (by decide)⟩

/-- C6: when the reducer saturates on an unsolved tracker, the driver branches on the first cell in flat-index order with more than one candidate, and pushes, at depth+1, one `branchClone` per candidate in ascending digit order — each pinning the cell and subtracting the dropped digits from its five zone counters — dropping clones that are known unsolveable. -/
theorem claim_C6 (fuel dep : Nat) (t : RemainingTracker)
    (rest : List (Nat × RemainingTracker)) (t2 : RemainingTracker) (c : Coord)
    (hred : reduceRun t = .ok t2) (hns : t2.isSolved = false)
    (hf : Coord.allList.find? (fun d => decide (1 < (t2.board d).card)) = some c) :
    (1 < (t2.board c).card ∧
      ∃ l1 l2, Coord.allList = l1 ++ c :: l2 ∧ ∀ d ∈ l1, (t2.board d).card ≤ 1) ∧
    solveF (fuel + 1) ((dep, t) :: rest) =
      solveF fuel
        ((((Finset.sort (· ≤ ·) (t2.board c)).filterMap fun v =>
            if (branchClone t2 c (t2.board c) v).knownUnsolveable then none
            else some (branchClone t2 c (t2.board c) v)).reverse.map
          fun u => (dep + 1, u)) ++ rest) := by
  obtain ⟨hpc, l1, l2, hsplit, hall⟩ := find?_first _ Coord.allList c hf
  constructor
  · refine ⟨by simpa using hpc, l1, l2, hsplit, ?_⟩
    intro d hd
    have hx := hall d hd
    rw [decide_eq_false_iff_not] at hx
    omega
  · have hspec := specifyOne_some hf
    simp only [solveF, hred, hns, hspec, Bool.false_eq_true, if_false]

/-- Witness for C6 on the blank board's tracker, which the reducer leaves unchanged. -/
theorem claim_C6_witness :
    reduceRun (RemainingTracker.new emptyBoard) = .ok (RemainingTracker.new emptyBoard) ∧
    (RemainingTracker.new emptyBoard).isSolved = false ∧
    Coord.allList.find?
      (fun d => decide (1 < ((RemainingTracker.new emptyBoard).board d).card)) =
        some ⟨0, 0⟩ ∧
    solveF (0 + 1) [(0, RemainingTracker.new emptyBoard)] =
      solveF 0
        ((((Finset.sort (· ≤ ·) ((RemainingTracker.new emptyBoard).board ⟨0, 0⟩)).filterMap
            fun v =>
              if (branchClone (RemainingTracker.new emptyBoard) ⟨0, 0⟩
                  ((RemainingTracker.new emptyBoard).board ⟨0, 0⟩) v).knownUnsolveable then
                none
              else
                some (branchClone (RemainingTracker.new emptyBoard) ⟨0, 0⟩
                  ((RemainingTracker.new emptyBoard).board ⟨0, 0⟩) v)).reverse.map
          fun u => (0 + 1, u)) ++ []) := by
  have h1 : reduceRun (RemainingTracker.new emptyBoard) =
      .ok (RemainingTracker.new emptyBoard) := by decide
  have h2 : (RemainingTracker.new emptyBoard).isSolved = false := by decide
  have h3 : Coord.allList.find?
      (fun d => decide (1 < ((RemainingTracker.new emptyBoard).board d).card)) =
        some ⟨0, 0⟩ := by decide
  exact ⟨h1, h2, h3, (claim_C6 0 0 _ [] _ ⟨0, 0⟩ h1 h2 h3).2⟩

/-- C7: on any consistent tracker the reducer run never panics and never runs out of fuel: it returns failed (unsolveable) or a saturated tracker. -/
theorem claim_C7 (t : RemainingTracker) (hC : Consistent t) :
    reduceRun t ≠ .panicked ∧ reduceRun t ≠ .fuelOut ∧
    (reduceRun t = .failed ∨ ∃ t2, reduceRun t = .ok t2 ∧ SaturatedT t2) := by
  obtain ⟨hp, hfo, hfail, hok⟩ := reduceRun_spec t hC
  refine ⟨hp, hfo, ?_⟩
  cases hr : reduceRun t with
  | panicked => exact absurd hr hp
  | fuelOut => exact absurd hr hfo
  | failed => exact Or.inl rfl
  | ok t2 => exact Or.inr ⟨t2, rfl, (hok t2 hr).2.1⟩

/-- Witness for C7 on the blank board's tracker. -/
theorem claim_C7_witness :
    Consistent (RemainingTracker.new emptyBoard) ∧
    (reduceRun (RemainingTracker.new emptyBoard) ≠ .panicked ∧
      reduceRun (RemainingTracker.new emptyBoard) ≠ .fuelOut ∧
      (reduceRun (RemainingTracker.new emptyBoard) = .failed ∨
        ∃ t2, reduceRun (RemainingTracker.new emptyBoard) = .ok t2 ∧ SaturatedT t2)) :=
  ⟨by decide, claim_C7 _ (by decide)⟩

/-- C8: solving an already-solved board returns that board unchanged. -/
theorem claim_C8 (s : Board) (hS : Board.isSolved s = true) : Board.solve s = some s :=
  solve_solved_eq s hS

/-- Witness for C8 on the solved test grid. -/
theorem claim_C8_witness : Board.isSolved boardS1 = true ∧ Board.solve boardS1 = some boardS1 :=
  ⟨by decide, claim_C8 boardS1 (by decide)⟩

/-- C9: if the reducer saturates on a not-yet-solved tracker of the driver, some cell still has at least two candidates, so `specifyOne`'s search (the source's `unwrap`) cannot fail. -/
theorem claim_C9 (t t2 : RemainingTracker) (hC : Consistent t) (hNE : NoEmpty t)
    (hred : reduceRun t = .ok t2) (hns : t2.isSolved = false) :
    (∃ c, 2 ≤ (t2.board c).card) ∧ t2.specifyOne ≠ none := by
  obtain ⟨-, -, -, hok⟩ := reduceRun_spec t hC
  obtain ⟨hC2, hSat2, -, hNEp, -⟩ := hok t2 hred
  have hNE2 : NoEmpty t2 := fun c => hNEp c (hNE c)
  have hex : ∃ c, 2 ≤ (t2.board c).card := by
    by_contra hnone
    push_neg at hnone
    have hcards : ∀ c, (t2.board c).card ≤ 1 := by
      intro c
      have := hnone c
      omega
    have hsolved := singletons_solved t2 hC2 hNE2 hSat2 hcards
    rw [hns] at hsolved
    exact Bool.false_ne_true hsolved
  refine ⟨hex, ?_⟩
  intro hno
  obtain ⟨c, hc⟩ := hex
  have := specifyOne_none hno c
  omega

/-- Witness for C9 on the blank board's tracker. -/
theorem claim_C9_witness :
    Consistent (RemainingTracker.new emptyBoard) ∧ NoEmpty (RemainingTracker.new emptyBoard) ∧
    reduceRun (RemainingTracker.new emptyBoard) = .ok (RemainingTracker.new emptyBoard) ∧
    (RemainingTracker.new emptyBoard).isSolved = false ∧
    ((∃ c, 2 ≤ ((RemainingTracker.new emptyBoard).board c).card) ∧
      (RemainingTracker.new emptyBoard).specifyOne ≠ none) := by
  have h1 : Consistent (RemainingTracker.new emptyBoard) := by decide
  have h2 : NoEmpty (RemainingTracker.new emptyBoard) := by
    unfold NoEmpty
    decide
  have h3 : reduceRun (RemainingTracker.new emptyBoard) =
      .ok (RemainingTracker.new emptyBoard) := by decide
  have h4 : (RemainingTracker.new emptyBoard).isSolved = false := by decide
  exact ⟨h1, h2, h3, h4, claim_C9 _ _ h1 h2 h3 h4⟩

/-- C10: `Board.isSolved` holds exactly for completely filled boards whose rows, columns and sectors each hold every digit once; any board with a blank cell is not solved. -/
theorem claim_C10 (b : Board) :
    (Board.isSolved b = true ↔ filledB b ∧ zonesOnceB b) ∧
    (∀ c, b c = none → Board.isSolved b = false) := by
  refine ⟨isSolved_iff b, ?_⟩
  intro c hc
  cases hs : Board.isSolved b with
  | false => rfl
  | true =>
    have hfb := ((isSolved_iff b).mp hs).1 c
    exact absurd hc hfb

/-- Witness for C10 at the blank board. -/
theorem claim_C10_witness :
    emptyBoard ⟨0, 0⟩ = none ∧ Board.isSolved emptyBoard = false :=
  ⟨rfl, (claim_C10 emptyBoard).2 ⟨0, 0⟩ rfl⟩
